import Mathlib

/-!
# Dancing Links (exact cover): a verification development

Shallow embedding of `src/main.cpp` and proofs about it.

## The embedding

* A `Node*` is an address (a natural number), the arena is a `Heap`: one map
  per field of `struct Node`, and `next`, the address the next `new Node`
  returns (addresses are handed out consecutively, starting at 0).
* The counter `numSolutions` is a 32-bit `int`: the statement `numSolutions++`
  is `wrap32 (numSolutions + 1)`, two's complement arithmetic modulo `2^32`,
  which is what the compiled program computes when the counter passes
  `2147483647` (in C++ itself that overflow is undefined).
* The other values of type `int` (`rowID`, `colID`, `nodeCount`) stay within
  the number of rows and columns of the input and are integers without a
  bound; `numColumns` is a natural number.
* The input `vector<string> data` is a list of rows, each a list of
  characters. A read `data[r][i]` past the terminator of the row text, and a
  read of `headers[0]` or `headers.back()` on an empty vector, are undefined
  in C++; here the function returns `none`.
* Every pointer-chasing loop takes a fuel argument, one unit per iteration or
  call, and returns `none` when it runs out. The theorems show that from an
  explicit bound on, every amount of fuel gives the same result.
* What `solve` writes to `std::cout` is the list of emitted lines, each line
  being the list of emitted row identifiers.
* File reading, argument parsing and the debugging printers (`insert`,
  `printRow`, `printMatrix`, `printColumnCounts`) are not part of the model.

## The proofs

The graph is described by the list `P` of the set bits `(row, column)` of the
input in creation order; the data node of the `k`-th set bit has address
`numColumns + 1 + k`. `Inv nc P K s` says that arena `s` is the graph with
exactly the columns of `K` covered. `cover` and `uncover` are shown to move
between such states and to be inverse to each other, `solve` is shown to
compute the abstract search `absSolve` on `P`, and `absSolve` is shown to
enumerate the exact covers.

Statements about what happens during the search (the arena after each
`cover` and `uncover`, the `solution` vector after each `push_back`, the
arenas of caller and callee at each recursive call) are made about `solveT`
and `countSolutionsT`: the same functions with a write-only log of these
events. `solveT_fst` and `countSolutionsT_fst` show that erasing the log gives
`solve` and `countSolutions`, on every arena and with every fuel.
-/

namespace DancingLinks

/-- The arena: the fields of every `Node`, by address. -/
structure Heap where
  left : Nat → Nat
  right : Nat → Nat
  up : Nat → Nat
  down : Nat → Nat
  rowID : Nat → Int
  colID : Nat → Int
  nodeCount : Nat → Int
  colHeader : Nat → Nat
  next : Nat

/-- The arena before any allocation. -/
def emptyHeap : Heap :=
  { left := fun _ => 0, right := fun _ => 0, up := fun _ => 0, down := fun _ => 0,
    rowID := fun _ => 0, colID := fun _ => 0, nodeCount := fun _ => 0,
    colHeader := fun _ => 0, next := 0 }

/-- The constructor `new Node(r, c)`: rowID(r), colID(c), nodeCount(0), and
`left = right = up = down = colHeader = this`. -/
def newNode (s : Heap) (r c : Int) : Nat × Heap :=
  (s.next,
   { left := Function.update s.left s.next s.next
     right := Function.update s.right s.next s.next
     up := Function.update s.up s.next s.next
     down := Function.update s.down s.next s.next
     rowID := Function.update s.rowID s.next r
     colID := Function.update s.colID s.next c
     nodeCount := Function.update s.nodeCount s.next 0
     colHeader := Function.update s.colHeader s.next s.next
     next := s.next + 1 })

/-- The function `linkHorizontal(leftNode, rightNode)`. -/
def linkHorizontal (s : Heap) (leftNode rightNode : Nat) : Heap :=
  let s1 := { s with right := Function.update s.right leftNode rightNode }
  { s1 with left := Function.update s1.left rightNode leftNode }

/-- The function `linkVertical(upperNode, lowerNode)`. -/
def linkVertical (s : Heap) (upperNode lowerNode : Nat) : Heap :=
  let s1 := { s with down := Function.update s.down upperNode lowerNode }
  { s1 with up := Function.update s1.up lowerNode upperNode }

/-- First loop of `createHeaderList`: `headers[i] = new Node(-1, i)` for
`i = i0, ..., i0 + k - 1`. -/
def allocHeaders : Nat → Nat → Heap → List Nat × Heap
  | 0, _, s => ([], s)
  | k + 1, i, s =>
    let (p, s1) := newNode s (-1) (i : Int)
    let (ps, s2) := allocHeaders k (i + 1) s1
    (p :: ps, s2)

/-- Second loop of `createHeaderList`:
`linkHorizontal(headers[i], headers[(i + 1) % numColumns])` for the listed `i`. -/
def linkHeaders (headers : List Nat) (numColumns : Nat) : List Nat → Heap → Heap
  | [], s => s
  | i :: is, s =>
    linkHeaders headers numColumns is
      (linkHorizontal s (headers.getD i 0) (headers.getD ((i + 1) % numColumns) 0))

/-- The function `createHeaderList(numColumns)`. -/
def createHeaderList (s : Heap) (numColumns : Nat) : List Nat × Heap :=
  let (headers, s1) := allocHeaders numColumns 0 s
  (headers, linkHeaders headers numColumns (List.range numColumns) s1)

/-- The read `data[r][i]` on a `const std::string`: the character at `i`, the null
character at `i = size()`, undefined (`none`) beyond. -/
def strAt (row : List Char) (i : Nat) : Option Char :=
  if i < row.length then row.get? i
  else if i = row.length then some (Char.ofNat 0)
  else none

/-- Body of the inner loop of `createNodes` for a set bit at `(r, c)`, where
`hc = headers[c]`; returns the new heap and the new node. -/
def insertNode (s : Heap) (r c : Nat) (hc : Nat) (rowHead : Option Nat) : Heap × Nat :=
  -- 1. Create the new node
  let (newNode, s1) := newNode s (r : Int) (c : Int)
  let s2 := { s1 with colHeader := Function.update s1.colHeader newNode hc }
  -- 2. Link the new node vertically into its column list
  let lastNodeInCol := s2.up hc
  let s3 := { s2 with down := Function.update s2.down lastNodeInCol newNode }
  let s4 := { s3 with up := Function.update s3.up newNode lastNodeInCol }
  let s5 := { s4 with down := Function.update s4.down newNode hc }
  let s6 := { s5 with up := Function.update s5.up hc newNode }
  let s7 := { s6 with nodeCount := Function.update s6.nodeCount hc (s6.nodeCount hc + 1) }
  -- 3. Link the new node horizontally into its row list
  match rowHead with
  | none =>
    let s8 := { s7 with left := Function.update s7.left newNode newNode }
    ({ s8 with right := Function.update s8.right newNode newNode }, newNode)
  | some rowHead =>
    let lastNodeInRow := s7.left rowHead
    let s8 := { s7 with right := Function.update s7.right lastNodeInRow newNode }
    let s9 := { s8 with left := Function.update s8.left newNode lastNodeInRow }
    let s10 := { s9 with right := Function.update s9.right newNode rowHead }
    ({ s10 with left := Function.update s10.left rowHead newNode }, newNode)

/-- Inner loop of `createNodes` (`for c`), from column `c` on; the first
argument lists `headers[c], headers[c+1], ...`. -/
def createRow (row : List Char) (r : Nat) : List Nat → Nat → Heap → Option Nat → Option Heap
  | [], _, s, _ => some s
  | hc :: rest, c, s, rowHead =>
    match strAt row (2 * c) with
    | none => none
    | some ch =>
      if ch = '1' then
        let (s1, p) := insertNode s r c hc rowHead
        createRow row r rest (c + 1) s1 (some (rowHead.getD p))
      else createRow row r rest (c + 1) s rowHead

/-- Outer loop of `createNodes` (`for r`), from row `r` on. -/
def createRows : List (List Char) → Nat → List Nat → Heap → Option Heap
  | [], _, _, s => some s
  | row :: rest, r, headers, s =>
    match createRow row r headers 0 s none with
    | none => none
    | some s1 => createRows rest (r + 1) headers s1

/-- The function `createNodes(data, headers)`. -/
def createNodes (data : List (List Char)) (headers : List Nat) (s : Heap) : Option Heap :=
  if data.length = 0 then some s else createRows data 0 headers s

/-- The graph construction of `main`: master node, `createHeaderList`, the two
`linkHorizontal` calls on `headers[0]` and `headers.back()`, `createNodes`.
Returns the master node and the heap; `none` when an access is out of range. -/
def build (numColumns : Nat) (data : List (List Char)) : Option (Nat × Heap) :=
  let (h, s0) := newNode emptyHeap (-1) (-1)
  let s1 := linkHorizontal s0 h h
  let (headers, s2) := createHeaderList s1 numColumns
  match headers.head?, headers.getLast? with
  | some first, some last =>
    let s3 := linkHorizontal s2 h first
    let s4 := linkHorizontal s3 last h
    match createNodes data headers s4 with
    | some s5 => some (h, s5)
    | none => none
  | _, _ => none

/-- The function `unlinkVertically(node)`. -/
def unlinkVertically (s : Heap) (node : Nat) : Heap :=
  let s1 := { s with down := Function.update s.down (s.up node) (s.down node) }
  { s1 with up := Function.update s1.up (s1.down node) (s1.up node) }

/-- The function `unlinkHorizontally(node)`. -/
def unlinkHorizontally (s : Heap) (node : Nat) : Heap :=
  let s1 := { s with right := Function.update s.right (s.left node) (s.right node) }
  { s1 with left := Function.update s1.left (s1.right node) (s1.left node) }

/-- Body of the inner loop of `cover`:
`unlinkVertically(n); n->colHeader->nodeCount--`. -/
def coverNode (s : Heap) (n : Nat) : Heap :=
  let s1 := unlinkVertically s n
  { s1 with nodeCount :=
      Function.update s1.nodeCount (s1.colHeader n) (s1.nodeCount (s1.colHeader n) - 1) }

/-- Inner loop of `cover`: `for (n = ...; n != row; n = n->right)`. -/
def coverRow : Nat → Heap → Nat → Nat → Option Heap
  | 0, _, _, _ => none
  | fuel + 1, s, row, n =>
    if n = row then some s
    else
      let s1 := coverNode s n
      coverRow fuel s1 row (s1.right n)

/-- Outer loop of `cover`: `for (row = ...; row != col; row = row->down)`. -/
def coverRows : Nat → Heap → Nat → Nat → Option Heap
  | 0, _, _, _ => none
  | fuel + 1, s, col, row =>
    if row = col then some s
    else
      match coverRow fuel s row (s.right row) with
      | none => none
      | some s1 => coverRows fuel s1 col (s1.down row)

/-- The function `cover(col)`. -/
def cover (fuel : Nat) (s : Heap) (col : Nat) : Option Heap :=
  let s1 := unlinkHorizontally s col
  coverRows fuel s1 col (s1.down col)

/-- Body of the inner loop of `uncover`:
`n->colHeader->nodeCount++; n->up->down = n; n->down->up = n`. -/
def uncoverNode (s : Heap) (n : Nat) : Heap :=
  let s1 := { s with nodeCount :=
      Function.update s.nodeCount (s.colHeader n) (s.nodeCount (s.colHeader n) + 1) }
  let s2 := { s1 with down := Function.update s1.down (s1.up n) n }
  { s2 with up := Function.update s2.up (s2.down n) n }

/-- Inner loop of `uncover`: `for (n = ...; n != row; n = n->left)`. -/
def uncoverRow : Nat → Heap → Nat → Nat → Option Heap
  | 0, _, _, _ => none
  | fuel + 1, s, row, n =>
    if n = row then some s
    else
      let s1 := uncoverNode s n
      uncoverRow fuel s1 row (s1.left n)

/-- Outer loop of `uncover`: `for (row = ...; row != col; row = row->up)`. -/
def uncoverRows : Nat → Heap → Nat → Nat → Option Heap
  | 0, _, _, _ => none
  | fuel + 1, s, col, row =>
    if row = col then some s
    else
      match uncoverRow fuel s row (s.left row) with
      | none => none
      | some s1 => uncoverRows fuel s1 col (s1.up row)

/-- The function `uncover(col)`. -/
def uncover (fuel : Nat) (s : Heap) (col : Nat) : Option Heap :=
  let s1 := { s with right := Function.update s.right (s.left col) col }
  let s2 := { s1 with left := Function.update s1.left (s1.right col) col }
  uncoverRows fuel s2 col (s2.up col)

/-- The column choice of `solve` and `countSolutions`:
`for (c = ...; c != h; c = c->right) if (c->nodeCount < col->nodeCount) col = c`. -/
def chooseCol : Nat → Heap → Nat → Nat → Nat → Option Nat
  | 0, _, _, _, _ => none
  | fuel + 1, s, h, col, c =>
    if c = h then some col
    else chooseCol fuel s h (if s.nodeCount c < s.nodeCount col then c else col) (s.right c)

/-- The loop `for (n = ...; n != row; n = n->right) cover(n->colHeader)`. -/
def coverRowCols : Nat → Heap → Nat → Nat → Option Heap
  | 0, _, _, _ => none
  | fuel + 1, s, row, n =>
    if n = row then some s
    else
      match cover fuel s (s.colHeader n) with
      | none => none
      | some s1 => coverRowCols fuel s1 row (s1.right n)

/-- The loop `for (n = ...; n != row; n = n->left) uncover(n->colHeader)`. -/
def uncoverRowCols : Nat → Heap → Nat → Nat → Option Heap
  | 0, _, _, _ => none
  | fuel + 1, s, row, n =>
    if n = row then some s
    else
      match uncover fuel s (s.colHeader n) with
      | none => none
      | some s1 => uncoverRowCols fuel s1 row (s1.left n)

/-- The value a 32-bit `int` holds for the mathematical result `x`: two's
complement, modulo `2^32`, in the range `-2147483648 .. 2147483647`. -/
def wrap32 (x : Int) : Int := (x + 2147483648) % 4294967296 - 2147483648

/-- What `solve` reads and writes besides its arguments `h` and
`printSolutions`: the arena, `solution`, `numSolutions`, and the lines written
to `std::cout`. The counter `numSolutions` is a 32-bit `int`, held as the
integer it denotes: every write to it is `wrap32` of the mathematical result,
so that from a starting value in the range of an `int` it never leaves that
range. -/
structure SearchState where
  heap : Heap
  solution : List Int
  numSolutions : Int
  out : List (List Int)

/-- The row loop of `solve`, `for (row = ...; row != col; row = row->down)`;
`recur` is the recursive call `solve(h, solution, numSolutions, printSolutions)`. -/
def solveRows (recur : SearchState → Option SearchState) :
    Nat → Nat → Nat → SearchState → Option SearchState
  | 0, _, _, _ => none
  | fuel + 1, col, row, st =>
    if row = col then some st
    else
      let st1 := { st with solution := st.solution ++ [st.heap.rowID row] }
      match coverRowCols fuel st1.heap row (st1.heap.right row) with
      | none => none
      | some hp2 =>
        match recur { st1 with heap := hp2 } with
        | none => none
        | some st3 =>
          let st4 := { st3 with solution := st3.solution.dropLast }
          match uncoverRowCols fuel st4.heap row (st4.heap.left row) with
          | none => none
          | some hp5 => solveRows recur fuel col (hp5.down row) { st4 with heap := hp5 }

/-- The function `solve(h, solution, numSolutions, printSolutions)`. -/
def solve : Nat → Nat → Bool → SearchState → Option SearchState
  | 0, _, _, _ => none
  | fuel + 1, h, printSolutions, st =>
    if st.heap.right h = h then
      some { st with
        numSolutions := wrap32 (st.numSolutions + 1)
        out := if printSolutions then st.out ++ [st.solution] else st.out }
    else
      match chooseCol fuel st.heap h (st.heap.right h) (st.heap.right h) with
      | none => none
      | some col =>
        match cover fuel st.heap col with
        | none => none
        | some hp1 =>
          match solveRows (solve fuel h printSolutions) fuel col (hp1.down col)
              { st with heap := hp1 } with
          | none => none
          | some st2 =>
            match uncover fuel st2.heap col with
            | none => none
            | some hp3 => some { st2 with heap := hp3 }

/-- The row loop of `countSolutions`; `recur` is the recursive call. -/
def countRows (recur : Heap × Int → Option (Heap × Int)) :
    Nat → Nat → Nat → Heap × Int → Option (Heap × Int)
  | 0, _, _, _ => none
  | fuel + 1, col, row, st =>
    if row = col then some st
    else
      match coverRowCols fuel st.1 row (st.1.right row) with
      | none => none
      | some hp2 =>
        match recur (hp2, st.2) with
        | none => none
        | some st3 =>
          match uncoverRowCols fuel st3.1 row (st3.1.left row) with
          | none => none
          | some hp5 => countRows recur fuel col (hp5.down row) (hp5, st3.2)

/-- The function `countSolutions(h, numSolutions)` on the pair (arena, `numSolutions`);
the counter is a 32-bit `int` as in `solve`. -/
def countSolutions : Nat → Nat → Heap × Int → Option (Heap × Int)
  | 0, _, _ => none
  | fuel + 1, h, st =>
    if st.1.right h = h then some (st.1, wrap32 (st.2 + 1))
    else
      match chooseCol fuel st.1 h (st.1.right h) (st.1.right h) with
      | none => none
      | some col =>
        match cover fuel st.1 col with
        | none => none
        | some hp1 =>
          match countRows (countSolutions fuel h) fuel col (hp1.down col) (hp1, st.2) with
          | none => none
          | some st2 =>
            match uncover fuel st2.1 col with
            | none => none
            | some hp3 => some (hp3, st2.2)

/-! ## Specification-level definitions -/

/-- Doubly linked segment: starting at `a`, following `nxt` visits exactly the
members of `l` in order and then reaches `b`; `prv` undoes every step. -/
def DSeg (nxt prv : Nat → Nat) : Nat → List Nat → Nat → Prop
  | a, [], b => nxt a = b ∧ prv b = a
  | a, x :: l, b => nxt a = x ∧ prv x = a ∧ DSeg nxt prv x l b

/-- Circular doubly linked ring through the listed nodes, in order. -/
def Cyc (nxt prv : Nat → Nat) : List Nat → Prop
  | [] => True
  | a :: l => DSeg nxt prv a l a

/-- The loop `for (x = start; x != stop; x = f x)` visits exactly `l`. -/
def Walk (f : Nat → Nat) : Nat → List Nat → Nat → Prop
  | x, [], stop => x = stop
  | x, y :: l, stop => x = y ∧ y ≠ stop ∧ Walk f (f y) l stop

/-- Address of the header of column `c`: the master node is allocated first,
then the headers in column order. -/
def hdr (c : Nat) : Nat := c + 1

/-- The set bits of one row among the columns `c, ..., c + k - 1`, as
(row, column) pairs in column order. -/
def rowCoords (row : List Char) (r : Nat) : Nat → Nat → List (Nat × Nat)
  | 0, _ => []
  | k + 1, c =>
    if strAt row (2 * c) = some '1' then (r, c) :: rowCoords row r k (c + 1)
    else rowCoords row r k (c + 1)

/-- The set bits of the rows `data`, numbered from `r`, in row-major order. -/
def dataCoords (nc : Nat) : List (List Char) → Nat → List (Nat × Nat)
  | [], _ => []
  | row :: rest, r => rowCoords row r nc 0 ++ dataCoords nc rest (r + 1)

/-- The set bits of the input, in the order `createNodes` meets them. -/
def coords (nc : Nat) (data : List (List Char)) : List (Nat × Nat) :=
  dataCoords nc data 0

/-- A data node: its address, row and column. -/
abbrev Cell := Nat × Nat × Nat

/-- Consecutive addresses from `a` for the listed (row, column) pairs. -/
def cellsFrom : Nat → List (Nat × Nat) → List Cell
  | _, [] => []
  | a, x :: P => (a, x) :: cellsFrom (a + 1) P

/-- The data nodes of the graph: the data node of the `k`-th set bit is the
`k`-th allocation after the master node and the `nc` headers. -/
def cells (nc : Nat) (P : List (Nat × Nat)) : List Cell := cellsFrom (nc + 1) P

/-- The data nodes of column `c` that satisfy `lv`, in creation order. -/
def colRing (nc : Nat) (P : List (Nat × Nat)) (lv : Cell → Bool) (c : Nat) : List Nat :=
  ((cells nc P).filter (fun e => decide (e.2.2 = c) && lv e)).map (fun e => e.1)

/-- The data nodes of row `r`, in creation order. -/
def rowNodes (nc : Nat) (P : List (Nat × Nat)) (r : Nat) : List Nat :=
  ((cells nc P).filter (fun e => decide (e.2.1 = r))).map (fun e => e.1)

/-- Row `r` has no node in a column of `K`. -/
def rowLive (P : List (Nat × Nat)) (K : List Nat) (r : Nat) : Bool :=
  P.all (fun x => decide (x.1 = r → x.2 ∉ K))

/-- The row of data node `e` has no node in a column of `K`. -/
def liveCell (P : List (Nat × Nat)) (K : List Nat) (e : Cell) : Bool := rowLive P K e.2.1

/-- The columns not in `K`, in increasing order. -/
def liveCols (nc : Nat) (K : List Nat) : List Nat :=
  (List.range nc).filter (fun c => decide (c ∉ K))

/-- The part of the graph that `cover` and `uncover` never write: the
identifying fields of the data nodes and the horizontal ring of every row. -/
structure Static (nc : Nat) (P : List (Nat × Nat)) (s : Heap) : Prop where
  nodup : P.Nodup
  col_lt : ∀ x, x ∈ P → x.2 < nc
  colHeader_cell : ∀ e, e ∈ cells nc P → s.colHeader e.1 = hdr e.2.2
  rowID_cell : ∀ e, e ∈ cells nc P → s.rowID e.1 = (e.2.1 : Int)
  rows : ∀ r, Cyc s.right s.left (rowNodes nc P r)

/-- The vertical rings: for every column `c` selected by `cols`, the ring of
header `c` runs through the data nodes of `c` that satisfy `lv`, and
`nodeCount` is their number. -/
def VRings (nc : Nat) (P : List (Nat × Nat)) (lv : Cell → Bool) (cols : Nat → Prop)
    (s : Heap) : Prop :=
  ∀ c, c < nc → cols c →
    Cyc s.down s.up (hdr c :: colRing nc P lv c) ∧
    s.nodeCount (hdr c) = ((colRing nc P lv c).length : Int)

/-- The header ring: master node, then the headers of the columns not in `K`. -/
def HRing (nc : Nat) (K : List Nat) (s : Heap) : Prop :=
  Cyc s.right s.left (0 :: (liveCols nc K).map hdr)

/-- The state of the graph when exactly the columns of `K` are covered. -/
structure Inv (nc : Nat) (P : List (Nat × Nat)) (K : List Nat) (s : Heap) : Prop where
  static : Static nc P s
  hring : HRing nc K s
  vrings : VRings nc P (liveCell P K) (fun c => c ∉ K) s

/-- The (row, column) pair of the data node at address `a`. -/
def coordOf (nc : Nat) (P : List (Nat × Nat)) (a : Nat) : Nat × Nat :=
  P.getD (a - (nc + 1)) (0, 0)

/-- Splits a list at the first occurrence of `a`. -/
def splitAtNode (a : Nat) : List Nat → List Nat × List Nat
  | [] => ([], [])
  | x :: l => if x = a then ([], l) else (x :: (splitAtNode a l).1, (splitAtNode a l).2)

/-- The other nodes of the row of data node `a`, in the order the loop
`for (n = a->right; n != a; n = n->right)` meets them. -/
def others (nc : Nat) (P : List (Nat × Nat)) (a : Nat) : List Nat :=
  (splitAtNode a (rowNodes nc P (coordOf nc P a).1)).2 ++
    (splitAtNode a (rowNodes nc P (coordOf nc P a).1)).1

/-- The nodes `cover` unlinks, in order, when it covers column `c` whose ring
holds the data nodes that satisfy `lv`. -/
def coverTrav (nc : Nat) (P : List (Nat × Nat)) (lv : Cell → Bool) (c : Nat) : List Nat :=
  (colRing nc P lv c).flatMap (others nc P)

/-- A list of distinct data nodes, each in the vertical ring of a column
selected by `cols`. -/
def ValidTrav (nc : Nat) (P : List (Nat × Nat)) (lv : Cell → Bool) (cols : Nat → Prop)
    (T : List Nat) : Prop :=
  T.Nodup ∧ ∀ n, n ∈ T → ∃ r c, (n, r, c) ∈ cells nc P ∧ lv (n, r, c) = true ∧ c < nc ∧ cols c

/-- The arena with the `left` and `right` maps replaced. -/
def setLR (s : Heap) (l r : Nat → Nat) : Heap := { s with left := l, right := r }

/-- The arena after `cover` of column `c`, when the columns of `K` are covered. -/
def coverAbs (nc : Nat) (P : List (Nat × Nat)) (K : List Nat) (s : Heap) (c : Nat) : Heap :=
  (coverTrav nc P (liveCell P K) c).foldl coverNode (unlinkHorizontally s (hdr c))

/-- The column of the data node at address `n`. -/
def colOf (nc : Nat) (P : List (Nat × Nat)) (n : Nat) : Nat := (coordOf nc P n).2

/-- The arena after covering the listed columns one after the other, starting
when the columns of `K` are covered. -/
def coverAll (nc : Nat) (P : List (Nat × Nat)) : List Nat → List Nat → Heap → Heap
  | [], _, s => s
  | c :: cs, K, s => coverAll nc P cs (c :: K) (coverAbs nc P K s c)

/-- The column choice on the list of live columns: the first column of
least count, `best` being the choice among the columns already seen. -/
def chooseAbs (cnt : Nat → Nat) : Nat → List Nat → Nat
  | best, [] => best
  | best, c :: cs => chooseAbs cnt (if cnt c < cnt best then c else best) cs

/-- The rows with a node in column `c` and no node in a column of `K`, in
the order of the vertical ring of `c`. -/
def colRows (P : List (Nat × Nat)) (K : List Nat) (c : Nat) : List Nat :=
  (P.filter (fun x => decide (x.2 = c) && rowLive P K x.1)).map (fun x => x.1)

/-- The columns of row `r`. -/
def rowColsOf (P : List (Nat × Nat)) (r : Nat) : List Nat :=
  (P.filter (fun x => decide (x.1 = r))).map (fun x => x.2)

/-- The search on the matrix: the row sequences found when the columns of `K`
are covered, in the order `solve` finds them. The first argument bounds the
recursion depth. -/
def absSolve (nc : Nat) (P : List (Nat × Nat)) : Nat → List Nat → List (List Nat)
  | 0, _ => []
  | fuel + 1, K =>
    match liveCols nc K with
    | [] => [[]]
    | c0 :: rest =>
      (colRows P K (chooseAbs (fun c => (colRows P K c).length) c0 (c0 :: rest))).flatMap
        (fun r => (absSolve nc P fuel (rowColsOf P r ++ K)).map (fun p => r :: p))

/-- The row of the data node at address `n`. -/
def rowOf (nc : Nat) (P : List (Nat × Nat)) (n : Nat) : Nat := (coordOf nc P n).1

/-- Fuel that suffices for every loop of one call of `solve`. -/
def loopFuel (nc : Nat) (P : List (Nat × Nat)) : Nat := 4 * P.length + nc + 4

/-- The lines `solve` writes for the abstract row sequences `ps` found below
the current `solution` vector `sol`. -/
def emit (pr : Bool) (sol : List Int) (ps : List (List Nat)) : List (List Int) :=
  if pr then ps.map (fun p => sol ++ p.map Int.ofNat) else []

/-- The counter `numSolutions` after `n` executions of `numSolutions++`,
starting from `x`. -/
def countUp : Nat → Int → Int
  | 0, x => x
  | n + 1, x => countUp n (wrap32 (x + 1))

/-- The contract of a call of `solve` on a state with fewer than `ga` live
columns: it returns, the arena and `solution` are as at the call, the counter
has been incremented once for each row sequence the abstract search finds,
and the output has grown by these sequences. -/
def RecOK (nc : Nat) (P : List (Nat × Nat)) (ga : Nat) (pr : Bool)
    (recur : SearchState → Option SearchState) : Prop :=
  ∀ (K : List Nat) (s : Heap) (sol : List Int) (num : Int) (out : List (List Int)),
    Inv nc P K s → (liveCols nc K).length < ga →
    recur ⟨s, sol, num, out⟩ =
      some ⟨s, sol, countUp (absSolve nc P ga K).length num,
        out ++ emit pr sol (absSolve nc P ga K)⟩

/-- The abstract row sequences found through the listed nodes of the chosen
column. -/
def rowsAbs (nc : Nat) (P : List (Nat × Nat)) (ga : Nat) (K : List Nat) (rest : List Nat) :
    List (List Nat) :=
  rest.flatMap (fun a =>
    (absSolve nc P ga (rowColsOf P (rowOf nc P a) ++ K)).map (fun p => rowOf nc P a :: p))

/-- The graph after `createNodes` has created the data nodes of the set bits
`P` (a prefix of the set bits of the input, in creation order). -/
structure Built (nc : Nat) (P : List (Nat × Nat)) (s : Heap) : Prop where
  next_eq : s.next = nc + 1 + P.length
  colHeader_cell : ∀ e, e ∈ cells nc P → s.colHeader e.1 = hdr e.2.2
  rowID_cell : ∀ e, e ∈ cells nc P → s.rowID e.1 = (e.2.1 : Int)
  colID_cell : ∀ e, e ∈ cells nc P → s.colID e.1 = (e.2.2 : Int)
  rows : ∀ r, Cyc s.right s.left (rowNodes nc P r)
  hring : HRing nc [] s
  vrings : VRings nc P (fun _ => true) (fun _ => True) s
  hdr_fields : ∀ c, c < nc →
    s.colHeader (hdr c) = hdr c ∧ s.rowID (hdr c) = -1 ∧ s.colID (hdr c) = (c : Int)
  master_fields : s.rowID 0 = -1 ∧ s.colID 0 = -1 ∧ s.up 0 = 0 ∧ s.down 0 = 0 ∧
    s.colHeader 0 = 0 ∧ s.nodeCount 0 = 0

/-- All fields of address `y` agree in `s` and `t`. -/
def SameAt (s t : Heap) (y : Nat) : Prop :=
  t.left y = s.left y ∧ t.right y = s.right y ∧ t.up y = s.up y ∧ t.down y = s.down y ∧
  t.rowID y = s.rowID y ∧ t.colID y = s.colID y ∧ t.nodeCount y = s.nodeCount y ∧
  t.colHeader y = s.colHeader y

/-- Address `y` holds a node as `new Node(r, c)` leaves it. -/
def FreshAt (t : Heap) (y : Nat) (r c : Int) : Prop :=
  t.left y = y ∧ t.right y = y ∧ t.up y = y ∧ t.down y = y ∧
  t.rowID y = r ∧ t.colID y = c ∧ t.nodeCount y = 0 ∧ t.colHeader y = y

/-- The arena `main` hands to `createNodes`: the master node and the ring of
the `nc` column headers. -/
def headerHeap (nc : Nat) : Heap :=
  linkHorizontal
    (linkHorizontal (createHeaderList (linkHorizontal (newNode emptyHeap (-1) (-1)).2 0 0) nc).2
      0 (hdr 0))
    (hdr (nc - 1)) 0

/-- The entry of row `r`, column `c` of the input is the character `'1'`. -/
def bit (data : List (List Char)) (r c : Nat) : Bool :=
  decide (strAt (data.getD r []) (2 * c) = some '1')

/-- The text of one row of `nc` columns: `nc` characters `'0'` or `'1'`
separated by single blanks. -/
def rowWF (nc : Nat) (row : List Char) : Bool :=
  decide (row.length = 2 * nc - 1) &&
  (List.range row.length).all (fun i =>
    if i % 2 = 0 then decide (row.getD i ' ' = '0') || decide (row.getD i ' ' = '1')
    else decide (row.getD i ' ' = ' '))

/-- Well-formed input: every row has the declared number of columns. -/
def WellFormed (nc : Nat) (data : List (List Char)) : Prop :=
  ∀ row, row ∈ data → rowWF nc row = true

instance WellFormed.decidable (nc : Nat) (data : List (List Char)) :
    Decidable (WellFormed nc data) :=
  inferInstanceAs (Decidable (∀ row, row ∈ data → rowWF nc row = true))

/-- What `countSolutions` sees of the state of `solve`: the arena and
`numSolutions`. -/
def countView (st : SearchState) : Heap × Int := (st.heap, st.numSolutions)

/-- Exact cover of the columns outside `K`: the rows of `S` are non-empty and
avoid `K`, every column outside `K` lies in a row of `S`, and two rows of `S`
share no column. -/
def Cov (nc : Nat) (P : List (Nat × Nat)) (K : List Nat) (S : Finset Nat) : Prop :=
  (∀ r, r ∈ S → (∃ c, (r, c) ∈ P) ∧ ∀ c, (r, c) ∈ P → c ∉ K) ∧
  (∀ c, c < nc → c ∉ K → ∃ r, r ∈ S ∧ (r, c) ∈ P) ∧
  (∀ r, r ∈ S → ∀ r2, r2 ∈ S → ∀ c, (r, c) ∈ P → (r2, c) ∈ P → r = r2)

/-- The row sequences of the whole search, in the order `solve` finds them. -/
def solutions (nc : Nat) (data : List (List Char)) : List (List Nat) :=
  absSolve nc (coords nc data) (nc + 1) []

/-- Fuel that suffices for `solve` and `countSolutions` on the graph of the
input. -/
def searchFuel (nc : Nat) (data : List (List Char)) : Nat :=
  loopFuel nc (coords nc data) + nc + 1

/-- Fuel that suffices for `cover` and `uncover` on the graph of the input. -/
def coverFuel (nc : Nat) (data : List (List Char)) : Nat :=
  2 * (coords nc data).length + 1

/-- Node `X` is a column header in the header ring of master node `h`: it is
not `h` and is reached from `h` by following `right`. -/
def InHeaderRing (s : Heap) (h X : Nat) : Prop :=
  X ≠ h ∧ ∃ k, (s.right)^[k] h = X

/-- The columns of row `r`: the `c < nc` whose entry is `'1'`. -/
def rowColumns (nc : Nat) (data : List (List Char)) (r : Nat) : Finset Nat :=
  (Finset.range nc).filter (fun c => bit data r c = true)

/-- The set `S` of row indices is an exact cover: every row of `S` is a row
of the input with at least one set bit, and every column is covered by
exactly one row of `S`. -/
def IsExactCover (nc : Nat) (data : List (List Char)) (S : Finset Nat) : Prop :=
  (∀ r, r ∈ S → r < data.length ∧ (rowColumns nc data r).Nonempty) ∧
  (∀ c, c < nc → (S.filter (fun r => bit data r c = true)).card = 1)

instance IsExactCover.decidable (nc : Nat) (data : List (List Char)) (S : Finset Nat) :
    Decidable (IsExactCover nc data S) :=
  inferInstanceAs (Decidable (_ ∧ _))

/-- Scenario A: 3 columns, rows `{0,1}`, `{1,2}`, `{0,2}`, `{0,1,2}`. -/
def scenarioA : List (List Char) :=
  ["1 1 0".toList, "0 1 1".toList, "1 0 1".toList, "1 1 1".toList]

/-- One row of two columns whose second column is not set. -/
def scenarioC : List (List Char) := ["1 0".toList]

/-- One row with two entries, for an input that declares one column. -/
def wideInput : List (List Char) := ["1 1".toList]

/-- Scenario B: 4 columns, rows `{0}`, `{1}`, `{2}`, `{3}`. -/
def scenarioB : List (List Char) :=
  ["1 0 0 0".toList, "0 1 0 0".toList, "0 0 1 0".toList, "0 0 0 1".toList]

/-- Two columns, row 0 is `{1}` and row 1 is `{0}`. -/
def orderInput : List (List Char) := ["0 1".toList, "1 0".toList]

/-- Two columns and the single row `{0, 1}`. -/
def pairInput : List (List Char) := ["1 1".toList]

/-- The row sequence `p` is a path of choices of the search when the columns
of `K` are covered: the header ring is empty and `p` is empty, or the first
entry of `p` is a row of the column chosen in this call and the rest is a path
of choices of the recursive call made after that row's columns are covered. -/
def ChoicePath (nc : Nat) (P : List (Nat × Nat)) : List Nat → List Nat → Prop
  | K, [] => liveCols nc K = []
  | K, r :: p =>
    (∃ c0, (liveCols nc K).head? = some c0 ∧
      r ∈ colRows P K (chooseAbs (fun c => (colRows P K c).length) c0 (liveCols nc K))) ∧
    ChoicePath nc P (rowColsOf P r ++ K) p

/-- Every allocated node is consistently linked in its two rings:
`n.right.left == n`, `n.left.right == n`, `n.down.up == n`, `n.up.down == n`. -/
def Consistent (s : Heap) : Prop :=
  ∀ n, n < s.next →
    s.left (s.right n) = n ∧ s.right (s.left n) = n ∧
    s.up (s.down n) = n ∧ s.down (s.up n) = n

/-- The calls `cover(X1); ...; cover(Xk)`, one after the other. -/
def coverList (fuel : Nat) : Heap → List Nat → Option Heap
  | s, [] => some s
  | s, X :: Xs =>
    match cover fuel s X with
    | none => none
    | some s1 => coverList fuel s1 Xs

/-- The calls `uncover(X1); ...; uncover(Xk)`, one after the other. -/
def uncoverList (fuel : Nat) : Heap → List Nat → Option Heap
  | s, [] => some s
  | s, X :: Xs =>
    match uncover fuel s X with
    | none => none
    | some s1 => uncoverList fuel s1 Xs

/-- Two columns and the rows `{0}`, `{0, 1}`: column 0 has two nodes, column 1
has one. -/
def minInput : List (List Char) := ["1 0".toList, "1 1".toList]

/-- The arena built for `minInput`. -/
def minHeap : Heap := ((build 2 minInput).getD (0, emptyHeap)).2

/-- What the observer records. -/
inductive Event where
  | covered (s : Heap)
  | uncovered (s : Heap)
  | pushed (solution : List Int)
  | called (caller callee : Heap)

/-- The loop `for (n = ...; n != row; n = n->right) cover(n->colHeader)`, observed. -/
def coverRowColsT : Nat → Heap → Nat → Nat → List Event → Option (Heap × List Event)
  | 0, _, _, _, _ => none
  | fuel + 1, s, row, n, log =>
    if n = row then some (s, log)
    else
      match cover fuel s (s.colHeader n) with
      | none => none
      | some s1 => coverRowColsT fuel s1 row (s1.right n) (log ++ [Event.covered s1])

/-- The loop `for (n = ...; n != row; n = n->left) uncover(n->colHeader)`, observed. -/
def uncoverRowColsT : Nat → Heap → Nat → Nat → List Event → Option (Heap × List Event)
  | 0, _, _, _, _ => none
  | fuel + 1, s, row, n, log =>
    if n = row then some (s, log)
    else
      match uncover fuel s (s.colHeader n) with
      | none => none
      | some s1 => uncoverRowColsT fuel s1 row (s1.left n) (log ++ [Event.uncovered s1])

/-- The row loop of `solve`, observed; `entry` is the arena the invocation of
`solve` that runs this loop was entered with. -/
def solveRowsT (recur : SearchState → List Event → Option (SearchState × List Event))
    (entry : Heap) :
    Nat → Nat → Nat → SearchState → List Event → Option (SearchState × List Event)
  | 0, _, _, _, _ => none
  | fuel + 1, col, row, st, log =>
    if row = col then some (st, log)
    else
      let st1 := { st with solution := st.solution ++ [st.heap.rowID row] }
      match coverRowColsT fuel st1.heap row (st1.heap.right row)
          (log ++ [Event.pushed st1.solution]) with
      | none => none
      | some (hp2, log2) =>
        match recur { st1 with heap := hp2 } (log2 ++ [Event.called entry hp2]) with
        | none => none
        | some (st3, log3) =>
          let st4 := { st3 with solution := st3.solution.dropLast }
          match uncoverRowColsT fuel st4.heap row (st4.heap.left row) log3 with
          | none => none
          | some (hp5, log5) =>
            solveRowsT recur entry fuel col (hp5.down row) { st4 with heap := hp5 } log5

/-- The function `solve`, observed. -/
def solveT : Nat → Nat → Bool → SearchState → List Event → Option (SearchState × List Event)
  | 0, _, _, _, _ => none
  | fuel + 1, h, printSolutions, st, log =>
    if st.heap.right h = h then
      some ({ st with
        numSolutions := wrap32 (st.numSolutions + 1)
        out := if printSolutions then st.out ++ [st.solution] else st.out }, log)
    else
      match chooseCol fuel st.heap h (st.heap.right h) (st.heap.right h) with
      | none => none
      | some col =>
        match cover fuel st.heap col with
        | none => none
        | some hp1 =>
          match solveRowsT (solveT fuel h printSolutions) st.heap fuel col (hp1.down col)
              { st with heap := hp1 } (log ++ [Event.covered hp1]) with
          | none => none
          | some (st2, log2) =>
            match uncover fuel st2.heap col with
            | none => none
            | some hp3 => some ({ st2 with heap := hp3 }, log2 ++ [Event.uncovered hp3])

/-- The row loop of `countSolutions`, observed. -/
def countRowsT (recur : Heap × Int → List Event → Option ((Heap × Int) × List Event))
    (entry : Heap) :
    Nat → Nat → Nat → Heap × Int → List Event → Option ((Heap × Int) × List Event)
  | 0, _, _, _, _ => none
  | fuel + 1, col, row, st, log =>
    if row = col then some (st, log)
    else
      match coverRowColsT fuel st.1 row (st.1.right row) log with
      | none => none
      | some (hp2, log2) =>
        match recur (hp2, st.2) (log2 ++ [Event.called entry hp2]) with
        | none => none
        | some (st3, log3) =>
          match uncoverRowColsT fuel st3.1 row (st3.1.left row) log3 with
          | none => none
          | some (hp5, log5) => countRowsT recur entry fuel col (hp5.down row) (hp5, st3.2) log5

/-- The function `countSolutions`, observed. -/
def countSolutionsT : Nat → Nat → Heap × Int → List Event → Option ((Heap × Int) × List Event)
  | 0, _, _, _ => none
  | fuel + 1, h, st, log =>
    if st.1.right h = h then some ((st.1, wrap32 (st.2 + 1)), log)
    else
      match chooseCol fuel st.1 h (st.1.right h) (st.1.right h) with
      | none => none
      | some col =>
        match cover fuel st.1 col with
        | none => none
        | some hp1 =>
          match countRowsT (countSolutionsT fuel h) st.1 fuel col (hp1.down col) (hp1, st.2)
              (log ++ [Event.covered hp1]) with
          | none => none
          | some (st2, log2) =>
            match uncover fuel st2.1 col with
            | none => none
            | some hp3 => some ((hp3, st2.2), log2 ++ [Event.uncovered hp3])

/-- The events `countSolutions` has in common with `solve`: all but the
pushes on the `solution` vector. -/
def Event.noPush : Event → Bool
  | Event.pushed _ => false
  | _ => true

/-- The `nodeCount` of every column header is the number of data nodes met
when walking down from the header until the header is met again. -/
def CountOK (nc : Nat) (s : Heap) : Prop :=
  ∀ c, c < nc → ∃ ring, Walk s.down (s.down (hdr c)) ring (hdr c) ∧
    (∀ n, n ∈ ring → nc < n) ∧ s.nodeCount (hdr c) = (ring.length : Int)

/-- The header ring of `callee` has strictly fewer column headers than the
header ring of `caller`. -/
def RingShorter (h : Nat) (caller callee : Heap) : Prop :=
  ∃ L1 L2, Walk caller.right (caller.right h) L1 h ∧ Walk callee.right (callee.right h) L2 h ∧
    L2.length < L1.length

/-- Which nodes of its column a data node shares its vertical ring with, when
the columns of `K` were covered in the order last to first: for a column that
is not covered, the rows without a node in a column of `K`; for a covered
column, the rows that had no node in a covered column when it was covered. -/
def lvK (P : List (Nat × Nat)) : List Nat → Cell → Bool
  | [], _ => true
  | d :: K, e => if e.2.2 ∈ d :: K then lvK P K e else rowLive P (d :: K) e.2.1

/-- The invariant of the search on the arena: the graph with the columns of
some list `K` covered, and the vertical ring and `nodeCount` of every column,
covered or not. -/
def Good (nc : Nat) (P : List (Nat × Nat)) (s : Heap) : Prop :=
  ∃ K, Inv nc P K s ∧ VRings nc P (lvK P K) (fun _ => True) s

/-- The number of rows among the first `R` without a node in a column of `K`. -/
def liveRowCount (P : List (Nat × Nat)) (K : List Nat) (R : Nat) : Nat :=
  ((List.range R).filter (fun r => rowLive P K r)).length

/-- What the search guarantees about each recorded event. -/
def GoodEv (nc R : Nat) : Event → Prop
  | Event.covered s => CountOK nc s
  | Event.uncovered s => CountOK nc s
  | Event.pushed sol => sol.length ≤ R
  | Event.called a b => RingShorter 0 a b

/-- The contract of a call of the observed `solve`: that of `solve`, and every
event it records is as guaranteed. -/
def TRecOK (nc : Nat) (P : List (Nat × Nat)) (R ga : Nat) (pr : Bool)
    (recur : SearchState → List Event → Option (SearchState × List Event)) : Prop :=
  ∀ (K : List Nat) (s : Heap) (sol : List Int) (num : Int) (out : List (List Int))
    (log : List Event),
    Inv nc P K s → Good nc P s → (liveCols nc K).length < ga →
    sol.length + liveRowCount P K R ≤ R →
    ∃ evs, recur ⟨s, sol, num, out⟩ log =
        some (⟨s, sol, countUp (absSolve nc P ga K).length num,
          out ++ emit pr sol (absSolve nc P ga K)⟩, log ++ evs) ∧
      ∀ e, e ∈ evs → GoodEv nc R e

/-! ## Linked segments and rings -/

theorem DSeg_append (nxt prv : Nat → Nat) (a : Nat) (l1 : List Nat) (x : Nat) (l2 : List Nat)
    (b : Nat) :
    DSeg nxt prv a (l1 ++ x :: l2) b ↔ DSeg nxt prv a l1 x ∧ DSeg nxt prv x l2 b := by
  induction l1 generalizing a with
  | nil => simp [DSeg, and_assoc]
  | cons y l1 ih => simp [DSeg, ih, and_assoc]

theorem DSeg_snoc_iff (nxt prv : Nat → Nat) (a : Nat) (l : List Nat) (x b : Nat) :
    DSeg nxt prv a (l ++ [x]) b ↔ DSeg nxt prv a l x ∧ nxt x = b ∧ prv b = x := by
  rw [DSeg_append]; simp [DSeg]

theorem DSeg_congr {nxt prv nxt2 prv2 : Nat → Nat} {a : Nat} {l : List Nat} {b : Nat}
    (h : DSeg nxt prv a l b)
    (hn : ∀ y, y ∈ a :: l → nxt2 y = nxt y)
    (hp : ∀ y, y ∈ l ++ [b] → prv2 y = prv y) :
    DSeg nxt2 prv2 a l b := by
  induction l generalizing a with
  | nil =>
    simp only [DSeg] at h ⊢
    rw [hn a (by simp), hp b (by simp)]; exact h
  | cons x l ih =>
    simp only [DSeg] at h ⊢
    refine ⟨?_, ?_, ?_⟩
    · rw [hn a (by simp)]; exact h.1
    · rw [hp x (by simp)]; exact h.2.1
    · apply ih h.2.2
      · intro y hy; exact hn y (List.mem_cons_of_mem _ hy)
      · intro y hy; exact hp y (by simp at hy ⊢; tauto)

theorem DSeg_reverse {nxt prv : Nat → Nat} {a : Nat} {l : List Nat} {b : Nat}
    (h : DSeg nxt prv a l b) : DSeg prv nxt b l.reverse a := by
  induction l generalizing a with
  | nil => simp only [DSeg, List.reverse_nil] at h ⊢; exact ⟨h.2, h.1⟩
  | cons x l ih =>
    simp only [DSeg] at h
    rw [List.reverse_cons, DSeg_snoc_iff]
    exact ⟨ih h.2.2, h.2.1, h.1⟩

/-- Every member of a segment is linked to its neighbours, which lie on the
segment too. -/
theorem DSeg_mem {nxt prv : Nat → Nat} {a : Nat} {l : List Nat} {b : Nat}
    (h : DSeg nxt prv a l b) {x : Nat} (hx : x ∈ l) :
    nxt (prv x) = x ∧ prv (nxt x) = x ∧ prv x ∈ a :: l ∧ nxt x ∈ l ++ [b] := by
  obtain ⟨l1, l2, rfl⟩ := List.append_of_mem hx
  rw [DSeg_append] at h
  obtain ⟨h1, h2⟩ := h
  have hp : nxt (prv x) = x ∧ prv x ∈ a :: l1 := by
    rcases List.eq_nil_or_concat l1 with rfl | ⟨l0, y, rfl⟩
    · simp only [DSeg] at h1; rw [h1.2]; exact ⟨h1.1, by simp⟩
    · rw [List.concat_eq_append, DSeg_snoc_iff] at h1; rw [h1.2.2]; exact ⟨h1.2.1, by simp⟩
  have hn : prv (nxt x) = x ∧ nxt x ∈ l2 ++ [b] := by
    cases l2 with
    | nil => simp only [DSeg] at h2; rw [h2.1]; exact ⟨h2.2, by simp⟩
    | cons y l2 => simp only [DSeg] at h2; rw [h2.1]; exact ⟨h2.2.1, by simp⟩
  refine ⟨hp.1, hn.1, ?_, ?_⟩
  · have := hp.2; simp at this ⊢; tauto
  · have := hn.2; simp at this ⊢; tauto

/-- Unlinking a member `n` from a segment: its two neighbours are linked to
each other, and the segment loses `n`. -/
theorem DSeg_remove {nxt prv : Nat → Nat} {b : Nat} (l1 : List Nat) (n : Nat) (l2 : List Nat)
    (a : Nat) (h : DSeg nxt prv a (l1 ++ n :: l2) b)
    (hnd : (l1 ++ n :: l2).Nodup) (ha : a ∉ l1 ++ n :: l2) (hb : b ∉ l1 ++ n :: l2) :
    DSeg (Function.update nxt (prv n) (nxt n)) (Function.update prv (nxt n) (prv n))
      a (l1 ++ l2) b := by
  induction l1 generalizing a with
  | nil =>
    simp only [List.nil_append, DSeg] at h ⊢
    obtain ⟨h1, h2, h3⟩ := h
    simp only [List.nil_append, List.nodup_cons, List.mem_cons, not_or] at hnd ha hb
    cases l2 with
    | nil =>
      simp only [DSeg] at h3 ⊢
      rw [h2, h3.1]; simp
    | cons y l2 =>
      simp only [DSeg] at h3 ⊢
      rw [h2, h3.1]
      refine ⟨by simp, by simp, ?_⟩
      apply DSeg_congr h3.2.2
      · intro z hz
        have : z ≠ a := by rintro rfl; exact ha.2 hz
        simp [Function.update_apply, this]
      · intro z hz
        have : z ≠ y := by
          rintro rfl
          simp only [List.mem_append, List.mem_singleton] at hz
          rcases hz with hz | hz
          · exact (List.nodup_cons.mp hnd.2).1 hz
          · simp [hz] at hb
        simp [Function.update_apply, this]
  | cons x l1 ih =>
    simp only [List.cons_append, DSeg] at h ⊢
    obtain ⟨h1, h2, h3⟩ := h
    simp only [List.cons_append, List.nodup_cons] at hnd
    have hn : n ∈ l1 ++ n :: l2 := by simp
    obtain ⟨-, -, hpm, hnm⟩ := DSeg_mem h3 hn
    refine ⟨?_, ?_, ih x h3 hnd.2 hnd.1 ?_⟩
    · have : a ≠ prv n := by
        intro e; rw [← e] at hpm; exact ha (by simpa using hpm)
      simp [Function.update_apply, this, h1]
    · have : x ≠ nxt n := by
        intro e; rw [← e] at hnm
        simp only [List.mem_append, List.mem_singleton] at hnm
        rcases hnm with hnm | hnm
        · exact hnd.1 (by simpa using hnm)
        · apply hb; rw [← hnm]; simp
      simp [Function.update_apply, this, h2]
    · intro hb2; exact hb (List.mem_cons_of_mem _ hb2)

/-- Appending a fresh node `a` at the end of the ring anchored at `x`. -/
theorem DSeg_insert_last {nxt prv nxt2 prv2 : Nat → Nat} {x a : Nat} {l : List Nat}
    (h : DSeg nxt prv x l x) (hnd : (x :: l).Nodup)
    (h1 : nxt2 (prv x) = a) (h2 : nxt2 a = x)
    (h3 : ∀ y, y ∈ x :: l → y ≠ prv x → nxt2 y = nxt y)
    (h4 : prv2 x = a) (h5 : prv2 a = prv x) (h6 : ∀ y, y ∈ l → prv2 y = prv y) :
    DSeg nxt2 prv2 x (l ++ [a]) x := by
  rw [DSeg_snoc_iff]
  refine ⟨?_, h2, h4⟩
  rcases List.eq_nil_or_concat l with rfl | ⟨l0, y, rfl⟩
  · simp only [DSeg] at h ⊢
    rw [h.2] at h1 h5
    exact ⟨h1, h5⟩
  · rw [List.concat_eq_append, DSeg_snoc_iff] at h ⊢
    obtain ⟨h7, h8, h9⟩ := h
    rw [h9] at h1 h5 h3
    refine ⟨?_, h1, h5⟩
    apply DSeg_congr h7
    · intro z hz
      apply h3 z
      · simp at hz ⊢; tauto
      · rintro rfl
        rw [List.concat_eq_append] at hnd
        have := List.nodup_cons.mp hnd
        simp only [List.mem_cons] at hz
        rcases hz with rfl | hz
        · simp at this
        · have h10 := List.nodup_append.mp this.2
          exact h10.2.2 hz (by simp) 
    · intro z hz
      exact h6 z (by simpa using hz)

theorem Walk_congr {f g : Nat → Nat} {x : Nat} {l : List Nat} {stop : Nat}
    (h : Walk f x l stop) (hfg : ∀ y, y ∈ l → g y = f y) : Walk g x l stop := by
  induction l generalizing x with
  | nil => exact h
  | cons y l ih =>
    simp only [Walk] at h ⊢
    refine ⟨h.1, h.2.1, ?_⟩
    rw [hfg y (by simp)]
    exact ih h.2.2 (fun z hz => hfg z (List.mem_cons_of_mem _ hz))

theorem DSeg_walk {nxt prv : Nat → Nat} {a : Nat} {l : List Nat} {b : Nat}
    (h : DSeg nxt prv a l b) (hb : b ∉ l) : Walk nxt (nxt a) l b := by
  induction l generalizing a with
  | nil => exact h.1
  | cons x l ih =>
    simp only [DSeg] at h
    simp only [List.mem_cons, not_or] at hb
    exact ⟨h.1, fun e => hb.1 e.symm, ih h.2.2 hb.2⟩
theorem DSeg_split_mem {nxt prv : Nat → Nat} {a b : Nat} {l1 : List Nat} {x : Nat}
    {l2 : List Nat} (h : DSeg nxt prv a (l1 ++ x :: l2) b) :
    prv x ∈ a :: l1 ∧ nxt x ∈ l2 ++ [b] := by
  rw [DSeg_append] at h
  obtain ⟨h1, h2⟩ := h
  constructor
  · rcases List.eq_nil_or_concat l1 with rfl | ⟨l0, y, rfl⟩
    · simp only [DSeg] at h1; rw [h1.2]; simp
    · rw [List.concat_eq_append, DSeg_snoc_iff] at h1; rw [h1.2.2]; simp
  · cases l2 with
    | nil => simp only [DSeg] at h2; rw [h2.1]; simp
    | cons y l2 => simp only [DSeg] at h2; rw [h2.1]; simp

theorem Heap.ext {s t : Heap} (h1 : s.left = t.left) (h2 : s.right = t.right)
    (h3 : s.up = t.up) (h4 : s.down = t.down) (h5 : s.rowID = t.rowID)
    (h6 : s.colID = t.colID) (h7 : s.nodeCount = t.nodeCount)
    (h8 : s.colHeader = t.colHeader) (h9 : s.next = t.next) : s = t := by
  cases s; cases t; simp_all

/-- One step of `uncover` undoes one step of `cover` on a node that is linked
into its vertical ring. -/
theorem uncoverNode_coverNode (s : Heap) (n : Nat)
    (h1 : s.down (s.up n) = n) (h2 : s.up (s.down n) = n)
    (h3 : n ≠ s.up n) (h4 : n ≠ s.down n) :
    uncoverNode (coverNode s n) n = s := by
  have e1 : Function.update s.down (s.up n) (s.down n) n = s.down n := by
    simp [Function.update_apply, h3]
  have e2 : Function.update s.up (s.down n) (s.up n) n = s.up n := by
    simp [Function.update_apply, h4]
  have e3 : Function.update (Function.update s.down (s.up n) (s.down n)) (s.up n) n = s.down := by
    rw [Function.update_idem]; funext y
    by_cases hy : y = s.up n
    · rw [hy, Function.update_same, h1]
    · rw [Function.update_noteq hy]
  have e4 : Function.update (Function.update s.up (s.down n) (s.up n)) (s.down n) n = s.up := by
    rw [Function.update_idem]; funext y
    by_cases hy : y = s.down n
    · rw [hy, Function.update_same, h2]
    · rw [Function.update_noteq hy]
  apply Heap.ext
  · rfl
  · rfl
  · show Function.update (Function.update s.up (Function.update s.down (s.up n) (s.down n) n)
      (s.up n)) (Function.update (Function.update s.down (s.up n) (s.down n))
        (Function.update s.up (Function.update s.down (s.up n) (s.down n) n) (s.up n) n) n n) n
      = s.up
    rw [e1, e2, e3, e4]
  · show Function.update (Function.update s.down (s.up n) (s.down n))
        (Function.update s.up (Function.update s.down (s.up n) (s.down n) n) (s.up n) n) n
      = s.down
    rw [e1, e2, e3]
  · rfl
  · rfl
  · show Function.update (Function.update s.nodeCount (s.colHeader n)
        (s.nodeCount (s.colHeader n) - 1)) (s.colHeader n)
        (Function.update s.nodeCount (s.colHeader n) (s.nodeCount (s.colHeader n) - 1)
          (s.colHeader n) + 1) = s.nodeCount
    rw [Function.update_idem, Function.update_same, Int.sub_add_cancel,
      Function.update_eq_self]
  · rfl
  · rfl
/-! ## The data nodes and their addresses -/

theorem cellsFrom_append (a : Nat) (P Q : List (Nat × Nat)) :
    cellsFrom a (P ++ Q) = cellsFrom a P ++ cellsFrom (a + P.length) Q := by
  induction P generalizing a with
  | nil => simp [cellsFrom]
  | cons x P ih => simp [cellsFrom, ih, Nat.add_assoc, Nat.add_comm 1]

theorem mem_cellsFrom {a : Nat} {P : List (Nat × Nat)} {e : Cell} (h : e ∈ cellsFrom a P) :
    a ≤ e.1 ∧ e.1 < a + P.length ∧ e.2 ∈ P := by
  induction P generalizing a with
  | nil => simp [cellsFrom] at h
  | cons x P ih =>
    simp only [cellsFrom, List.mem_cons] at h
    rcases h with rfl | h
    · simp
    · obtain ⟨h1, h2, h3⟩ := ih h
      simp only [List.length_cons, List.mem_cons]
      exact ⟨by omega, by omega, Or.inr h3⟩

theorem cellsFrom_addr_nodup (a : Nat) (P : List (Nat × Nat)) :
    ((cellsFrom a P).map (fun e => e.1)).Nodup := by
  induction P generalizing a with
  | nil => simp [cellsFrom]
  | cons x P ih =>
    simp only [cellsFrom, List.map_cons, List.nodup_cons, List.mem_map, not_exists, not_and]
    refine ⟨?_, ih (a + 1)⟩
    intro e he h
    have h1 := (mem_cellsFrom he).1
    omega

theorem mem_cellsFrom_of_mem {a : Nat} {P : List (Nat × Nat)} {x : Nat × Nat} (h : x ∈ P) :
    ∃ p, (p, x) ∈ cellsFrom a P := by
  induction P generalizing a with
  | nil => simp at h
  | cons y P ih =>
    simp only [List.mem_cons] at h
    rcases h with rfl | h
    · exact ⟨a, by simp [cellsFrom]⟩
    · obtain ⟨p, hp⟩ := ih (a := a + 1) h
      exact ⟨p, by simp [cellsFrom, hp]⟩

theorem cells_addr_nodup (nc : Nat) (P : List (Nat × Nat)) :
    ((cells nc P).map (fun e => e.1)).Nodup := cellsFrom_addr_nodup _ _

theorem cells_gt {nc : Nat} {P : List (Nat × Nat)} {e : Cell} (h : e ∈ cells nc P) :
    nc < e.1 := by
  have h1 : nc + 1 ≤ e.1 := (mem_cellsFrom h).1
  omega

theorem cells_mem_coords {nc : Nat} {P : List (Nat × Nat)} {e : Cell} (h : e ∈ cells nc P) :
    e.2 ∈ P := (mem_cellsFrom h).2.2

theorem cells_addr_inj {nc : Nat} {P : List (Nat × Nat)} {e1 e2 : Cell}
    (h1 : e1 ∈ cells nc P) (h2 : e2 ∈ cells nc P) (h : e1.1 = e2.1) : e1 = e2 :=
  List.inj_on_of_nodup_map (cells_addr_nodup nc P) h1 h2 h

theorem mem_colRing {nc : Nat} {P : List (Nat × Nat)} {lv : Cell → Bool} {c : Nat} {n : Nat} :
    n ∈ colRing nc P lv c ↔ ∃ r, (n, r, c) ∈ cells nc P ∧ lv (n, r, c) = true := by
  simp only [colRing, List.mem_map, List.mem_filter, Bool.and_eq_true, decide_eq_true_eq]
  constructor
  · rintro ⟨⟨a, r, c2⟩, ⟨h1, h2, h3⟩, rfl⟩
    simp only at h2; subst h2
    exact ⟨r, h1, h3⟩
  · rintro ⟨r, h1, h2⟩
    exact ⟨(n, r, c), ⟨h1, rfl, h2⟩, rfl⟩

theorem colRing_nodup (nc : Nat) (P : List (Nat × Nat)) (lv : Cell → Bool) (c : Nat) :
    (colRing nc P lv c).Nodup :=
  (cells_addr_nodup nc P).sublist ((List.filter_sublist _).map _)

theorem hdr_not_mem_colRing (nc : Nat) (P : List (Nat × Nat)) (lv : Cell → Bool) (c c2 : Nat)
    (hc : c2 < nc) : hdr c2 ∉ colRing nc P lv c := by
  rw [mem_colRing]
  rintro ⟨r, h, -⟩
  have := cells_gt h
  simp only [hdr] at this
  omega

theorem colRing_disjoint {nc : Nat} {P : List (Nat × Nat)} {lv lv2 : Cell → Bool} {c c2 : Nat}
    {n : Nat} (h1 : n ∈ colRing nc P lv c) (h2 : n ∈ colRing nc P lv2 c2) : c = c2 := by
  rw [mem_colRing] at h1 h2
  obtain ⟨r, h1, -⟩ := h1
  obtain ⟨r2, h2, -⟩ := h2
  have := cells_addr_inj h1 h2 rfl
  simp only [Prod.mk.injEq, true_and] at this
  exact this.2
/-! ## One step of cover -/

@[simp]
theorem coverNode_right (s : Heap) (n : Nat) : (coverNode s n).right = s.right := rfl
@[simp]
theorem coverNode_left (s : Heap) (n : Nat) : (coverNode s n).left = s.left := rfl
@[simp]
theorem coverNode_colHeader (s : Heap) (n : Nat) :
    (coverNode s n).colHeader = s.colHeader := rfl
@[simp]
theorem coverNode_rowID (s : Heap) (n : Nat) : (coverNode s n).rowID = s.rowID := rfl
@[simp]
theorem coverNode_colID (s : Heap) (n : Nat) : (coverNode s n).colID = s.colID := rfl
@[simp]
theorem coverNode_next (s : Heap) (n : Nat) : (coverNode s n).next = s.next := rfl
@[simp]
theorem uncoverNode_right (s : Heap) (n : Nat) : (uncoverNode s n).right = s.right := rfl
@[simp]
theorem uncoverNode_left (s : Heap) (n : Nat) : (uncoverNode s n).left = s.left := rfl
@[simp]
theorem uncoverNode_colHeader (s : Heap) (n : Nat) :
    (uncoverNode s n).colHeader = s.colHeader := rfl

theorem Static_of_eq {nc : Nat} {P : List (Nat × Nat)} {s t : Heap} (h : Static nc P s)
    (h1 : t.right = s.right) (h2 : t.left = s.left) (h3 : t.colHeader = s.colHeader)
    (h4 : t.rowID = s.rowID) : Static nc P t := by
  refine ⟨h.nodup, h.col_lt, ?_, ?_, ?_⟩
  · rw [h3]; exact h.colHeader_cell
  · rw [h4]; exact h.rowID_cell
  · rw [h1, h2]; exact h.rows

theorem Static_coverNode {nc : Nat} {P : List (Nat × Nat)} {s : Heap} (h : Static nc P s)
    (n : Nat) : Static nc P (coverNode s n) :=
  Static_of_eq h rfl rfl rfl rfl

theorem ring_disjoint {nc : Nat} {P : List (Nat × Nat)} {lv lv2 : Cell → Bool} {c c2 y z : Nat}
    (hy : y ∈ hdr c :: colRing nc P lv c) (hz : z ∈ hdr c2 :: colRing nc P lv2 c2)
    (hc : c < nc) (hc2 : c2 < nc) (hne : c ≠ c2) : y ≠ z := by
  rintro rfl
  simp only [List.mem_cons] at hy hz
  rcases hy with hy | hy <;> rcases hz with hz | hz
  · rw [hy] at hz; simp only [hdr] at hz; omega
  · rw [hy] at hz; exact hdr_not_mem_colRing nc P lv2 c2 c hc hz
  · rw [hz] at hy; exact hdr_not_mem_colRing nc P lv c c2 hc2 hy
  · exact hne (colRing_disjoint hy hz)

theorem colRing_remove (nc : Nat) (P : List (Nat × Nat)) (lv : Cell → Bool) (c n : Nat) :
    colRing nc P (fun e => lv e && decide (e.1 ≠ n)) c
      = (colRing nc P lv c).filter (fun y => decide (y ≠ n)) := by
  simp only [colRing, List.filter_map, List.filter_filter]
  congr 1
  apply List.filter_congr
  intro e _
  simp only [Function.comp, Bool.and_assoc, Bool.and_comm]
  cases lv e <;> simp

theorem filter_ne_split {l1 l2 : List Nat} {n : Nat} (h : (l1 ++ n :: l2).Nodup) :
    (l1 ++ n :: l2).filter (fun y => decide (y ≠ n)) = l1 ++ l2 := by
  have h1 := List.nodup_append.mp h
  have h2 := List.nodup_cons.mp h1.2.1
  have hn1 : n ∉ l1 := fun hm => h1.2.2 hm (by simp)
  rw [List.filter_append, List.filter_cons]
  simp only [ne_eq, not_true_eq_false, decide_False, Bool.false_eq_true, ↓reduceIte]
  congr 1
  · apply List.filter_eq_self.mpr
    intro y hy; simp; rintro rfl; exact hn1 hy
  · apply List.filter_eq_self.mpr
    intro y hy; simp; rintro rfl; exact h2.1 hy

/-- One step of `cover` removes the node from the vertical ring of its
column and keeps every vertical ring and node count consistent. -/
theorem VRings_coverNode {nc : Nat} {P : List (Nat × Nat)} {lv : Cell → Bool}
    {cols : Nat → Prop} {s : Heap} (hs : Static nc P s) (hv : VRings nc P lv cols s)
    {n r c : Nat} (he : (n, r, c) ∈ cells nc P) (hl : lv (n, r, c) = true)
    (hc : c < nc) (hcol : cols c) :
    VRings nc P (fun e => lv e && decide (e.1 ≠ n)) cols (coverNode s n) := by
  have hmem : n ∈ colRing nc P lv c := mem_colRing.mpr ⟨r, he, hl⟩
  obtain ⟨l1, l2, hL⟩ := List.append_of_mem hmem
  obtain ⟨hring, hcount⟩ := hv c hc hcol
  have hnd : (hdr c :: colRing nc P lv c).Nodup :=
    List.nodup_cons.mpr ⟨hdr_not_mem_colRing nc P lv c c hc, colRing_nodup nc P lv c⟩
  simp only [Cyc] at hring
  rw [hL] at hring hnd
  obtain ⟨hup, hdown⟩ := DSeg_split_mem hring
  have hnd1 := List.nodup_cons.mp hnd
  have hnd2 := List.nodup_append.mp hnd1.2
  have hnd3 := List.nodup_cons.mp hnd2.2.1
  have hn1 : n ∉ l1 := fun hm => hnd2.2.2 hm (by simp)
  have hnh : n ≠ hdr c := by
    intro e; apply hnd1.1; rw [← e]; simp
  have hupn : n ≠ s.up n := by
    intro e; rw [← e] at hup
    simp only [List.mem_cons] at hup
    tauto
  have hdownn : n ≠ s.down n := by
    intro e; rw [← e] at hdown
    simp only [List.mem_append, List.mem_singleton] at hdown
    rcases hdown with h | h
    · exact hnd3.1 h
    · exact hnh h
  have hch : s.colHeader n = hdr c := hs.colHeader_cell (n, r, c) he
  have edown : (coverNode s n).down = Function.update s.down (s.up n) (s.down n) := rfl
  have eup : (coverNode s n).up = Function.update s.up (s.down n) (s.up n) := by
    show Function.update s.up (Function.update s.down (s.up n) (s.down n) n) (s.up n) = _
    rw [Function.update_noteq hupn]
  have ecnt : (coverNode s n).nodeCount
      = Function.update s.nodeCount (hdr c) (s.nodeCount (hdr c) - 1) := by
    show Function.update s.nodeCount (s.colHeader n) (s.nodeCount (s.colHeader n) - 1) = _
    rw [hch]
  have hupm : s.up n ∈ hdr c :: colRing nc P lv c := by
    rw [hL]; simp only [List.mem_cons, List.mem_append] at hup ⊢; tauto
  have hdownm : s.down n ∈ hdr c :: colRing nc P lv c := by
    rw [hL]; simp only [List.mem_cons, List.mem_append, List.mem_singleton] at hdown ⊢; tauto
  intro c2 hc2 hcol2
  by_cases hcc : c2 = c
  · subst hcc
    rw [colRing_remove, hL, filter_ne_split hnd1.2]
    constructor
    · simp only [Cyc]
      rw [edown, eup]
      exact DSeg_remove l1 n l2 (hdr c2) hring hnd1.2 hnd1.1 hnd1.1
    · rw [ecnt, Function.update_same, hcount, hL]
      simp only [List.length_append, List.length_cons]
      push_cast; ring
  · obtain ⟨hring2, hcount2⟩ := hv c2 hc2 hcol2
    have hsame : colRing nc P (fun e => lv e && decide (e.1 ≠ n)) c2 = colRing nc P lv c2 := by
      rw [colRing_remove]
      apply List.filter_eq_self.mpr
      intro y hy
      simp only [ne_eq, decide_not, Bool.not_eq_eq_eq_not, Bool.not_true, decide_eq_false_iff_not]
      rintro rfl
      exact hcc (colRing_disjoint hy hmem)
    rw [hsame]
    constructor
    · simp only [Cyc] at hring2 ⊢
      apply DSeg_congr hring2
      · intro y hy
        rw [edown, Function.update_noteq]
        exact ring_disjoint hy hupm hc2 hc hcc
      · intro y hy
        rw [eup, Function.update_noteq]
        have hy2 : y ∈ hdr c2 :: colRing nc P lv c2 := by
          simp only [List.mem_append, List.mem_singleton, List.mem_cons] at hy ⊢; tauto
        exact ring_disjoint hy2 hdownm hc2 hc hcc
    · rw [ecnt, Function.update_noteq, hcount2]
      simp only [hdr]; omega
/-! ## Rows: the inner loops of cover and uncover -/

theorem splitAtNode_eq {a : Nat} {l1 l2 : List Nat} (h : a ∉ l1) :
    splitAtNode a (l1 ++ a :: l2) = (l1, l2) := by
  induction l1 with
  | nil => simp [splitAtNode]
  | cons x l1 ih =>
    simp only [List.mem_cons, not_or] at h
    have hx : x ≠ a := fun e => h.1 e.symm
    simp [splitAtNode, hx, ih h.2]

theorem coordOf_cellsFrom {b : Nat} {P : List (Nat × Nat)} {e : Cell}
    (h : e ∈ cellsFrom b P) : P.getD (e.1 - b) (0, 0) = e.2 := by
  induction P generalizing b with
  | nil => simp [cellsFrom] at h
  | cons x P ih =>
    simp only [cellsFrom, List.mem_cons] at h
    rcases h with rfl | h
    · simp
    · have h1 := (mem_cellsFrom h).1
      have h2 : e.1 - b = (e.1 - (b + 1)) + 1 := by omega
      rw [h2, List.getD_cons_succ]
      exact ih h

theorem coordOf_cell {nc : Nat} {P : List (Nat × Nat)} {e : Cell} (h : e ∈ cells nc P) :
    coordOf nc P e.1 = e.2 := coordOf_cellsFrom h

theorem cellsFrom_map_snd (b : Nat) (P : List (Nat × Nat)) :
    (cellsFrom b P).map (fun e => e.2) = P := by
  induction P generalizing b with
  | nil => rfl
  | cons x P ih => simp [cellsFrom, ih]

/-- With distinct (row, column) pairs, a pair determines its data node. -/
theorem cells_coord_inj {nc : Nat} {P : List (Nat × Nat)} (hP : P.Nodup) {e1 e2 : Cell}
    (h1 : e1 ∈ cells nc P) (h2 : e2 ∈ cells nc P) (h : e1.2 = e2.2) : e1 = e2 := by
  have hnd : ((cells nc P).map (fun e => e.2)).Nodup := by
    rw [cells, cellsFrom_map_snd]; exact hP
  exact List.inj_on_of_nodup_map hnd h1 h2 h

theorem mem_rowNodes {nc : Nat} {P : List (Nat × Nat)} {r n : Nat} :
    n ∈ rowNodes nc P r ↔ ∃ c, (n, r, c) ∈ cells nc P := by
  simp only [rowNodes, List.mem_map, List.mem_filter, decide_eq_true_eq]
  constructor
  · rintro ⟨⟨a, r2, c⟩, ⟨h1, h2⟩, rfl⟩
    simp only at h2; subst h2
    exact ⟨c, h1⟩
  · rintro ⟨c, h1⟩
    exact ⟨(n, r, c), ⟨h1, rfl⟩, rfl⟩

theorem rowNodes_nodup (nc : Nat) (P : List (Nat × Nat)) (r : Nat) :
    (rowNodes nc P r).Nodup :=
  (cells_addr_nodup nc P).sublist ((List.filter_sublist _).map _)

theorem others_split {nc : Nat} {P : List (Nat × Nat)} {a r c : Nat}
    (h : (a, r, c) ∈ cells nc P) :
    ∃ l1 l2, rowNodes nc P r = l1 ++ a :: l2 ∧ others nc P a = l2 ++ l1 := by
  have hm : a ∈ rowNodes nc P r := mem_rowNodes.mpr ⟨c, h⟩
  obtain ⟨l1, l2, hL⟩ := List.append_of_mem hm
  refine ⟨l1, l2, hL, ?_⟩
  have hnd := rowNodes_nodup nc P r
  rw [hL] at hnd
  have hn1 : a ∉ l1 := fun hm1 => (List.nodup_append.mp hnd).2.2 hm1 (by simp)
  have hco : coordOf nc P a = (r, c) := coordOf_cell h
  simp only [others, hco, hL, splitAtNode_eq hn1]

theorem mem_others {nc : Nat} {P : List (Nat × Nat)} {a r c : Nat}
    (h : (a, r, c) ∈ cells nc P) {n : Nat} :
    n ∈ others nc P a ↔ n ≠ a ∧ ∃ c2, (n, r, c2) ∈ cells nc P := by
  obtain ⟨l1, l2, hL, ho⟩ := others_split h
  have hnd := rowNodes_nodup nc P r
  rw [← mem_rowNodes, hL, ho]
  rw [hL] at hnd
  have h1 := List.nodup_append.mp hnd
  have h2 := List.nodup_cons.mp h1.2.1
  have hn1 : a ∉ l1 := fun hm1 => h1.2.2 hm1 (by simp)
  simp only [List.mem_append, List.mem_cons]
  constructor
  · rintro (hm | hm)
    · exact ⟨fun e => h2.1 (e ▸ hm), Or.inr (Or.inr hm)⟩
    · exact ⟨fun e => hn1 (e ▸ hm), Or.inl hm⟩
  · rintro ⟨hne, hm | hm | hm⟩
    · exact Or.inr hm
    · exact absurd hm hne
    · exact Or.inl hm

theorem others_nodup {nc : Nat} {P : List (Nat × Nat)} {a r c : Nat}
    (h : (a, r, c) ∈ cells nc P) : (others nc P a).Nodup := by
  obtain ⟨l1, l2, hL, ho⟩ := others_split h
  have hnd := rowNodes_nodup nc P r
  rw [hL] at hnd
  rw [ho]
  have h1 := List.nodup_append.mp hnd
  have h2 := List.nodup_cons.mp h1.2.1
  refine List.nodup_append.mpr ⟨h2.2, h1.1, ?_⟩
  intro x hx2 hx1
  exact h1.2.2 hx1 (List.mem_cons_of_mem _ hx2)

theorem Cyc_rotate {nxt prv : Nat → Nat} {l1 l2 : List Nat} {a : Nat}
    (h : Cyc nxt prv (l1 ++ a :: l2)) : DSeg nxt prv a (l2 ++ l1) a := by
  cases l1 with
  | nil => simpa [Cyc] using h
  | cons b l1 =>
    simp only [List.cons_append, Cyc] at h
    rw [DSeg_append] at h ⊢
    exact ⟨h.2, h.1⟩

/-- In every state of the search, walking right from a data node visits the
other nodes of its row, and walking left visits them in reverse. -/
theorem walk_others {nc : Nat} {P : List (Nat × Nat)} {s : Heap} (hs : Static nc P s)
    {a r c : Nat} (h : (a, r, c) ∈ cells nc P) :
    Walk s.right (s.right a) (others nc P a) a ∧
    Walk s.left (s.left a) (others nc P a).reverse a := by
  obtain ⟨l1, l2, hL, ho⟩ := others_split h
  have hseg : DSeg s.right s.left a (others nc P a) a := by
    rw [ho]; apply Cyc_rotate; rw [← hL]; exact hs.rows r
  have hna : a ∉ others nc P a := by
    rw [mem_others h]; simp
  exact ⟨DSeg_walk hseg hna, DSeg_walk (DSeg_reverse hseg) (by simpa using hna)⟩

theorem coverRow_spec {s : Heap} {x a : Nat} {T : List Nat} {fuel : Nat}
    (h : Walk s.right x T a) (hf : T.length < fuel) :
    coverRow fuel s a x = some (T.foldl coverNode s) := by
  induction T generalizing s x fuel with
  | nil =>
    cases fuel with
    | zero => simp at hf
    | succ fuel => simp only [Walk] at h; simp [coverRow, h]
  | cons y T ih =>
    cases fuel with
    | zero => simp at hf
    | succ fuel =>
      simp only [Walk] at h
      obtain ⟨rfl, hne, hw⟩ := h
      simp only [coverRow, hne, ↓reduceIte, List.foldl_cons, coverNode_right]
      apply ih
      · simpa using hw
      · simpa using hf

theorem uncoverRow_spec {s : Heap} {x a : Nat} {T : List Nat} {fuel : Nat}
    (h : Walk s.left x T a) (hf : T.length < fuel) :
    uncoverRow fuel s a x = some (T.foldl uncoverNode s) := by
  induction T generalizing s x fuel with
  | nil =>
    cases fuel with
    | zero => simp at hf
    | succ fuel => simp only [Walk] at h; simp [uncoverRow, h]
  | cons y T ih =>
    cases fuel with
    | zero => simp at hf
    | succ fuel =>
      simp only [Walk] at h
      obtain ⟨rfl, hne, hw⟩ := h
      simp only [uncoverRow, hne, ↓reduceIte, List.foldl_cons, uncoverNode_left]
      apply ih
      · simpa using hw
      · simpa using hf
/-! ## Unlinking and relinking lists of nodes -/

theorem colRing_congr {nc : Nat} {P : List (Nat × Nat)} {lv lv2 : Cell → Bool}
    (h : ∀ e, e ∈ cells nc P → lv e = lv2 e) (c : Nat) :
    colRing nc P lv c = colRing nc P lv2 c := by
  simp only [colRing]
  congr 1
  apply List.filter_congr
  intro e he
  rw [h e he]

theorem VRings_congr {nc : Nat} {P : List (Nat × Nat)} {lv lv2 : Cell → Bool}
    {cols : Nat → Prop} {s : Heap} (h : ∀ e, e ∈ cells nc P → lv e = lv2 e)
    (hv : VRings nc P lv cols s) : VRings nc P lv2 cols s := by
  intro c hc hcol
  rw [← colRing_congr h c]
  exact hv c hc hcol

theorem foldl_coverNode_right (T : List Nat) (s : Heap) :
    (T.foldl coverNode s).right = s.right := by
  induction T generalizing s with
  | nil => rfl
  | cons n T ih => simp [ih]

theorem foldl_coverNode_left (T : List Nat) (s : Heap) :
    (T.foldl coverNode s).left = s.left := by
  induction T generalizing s with
  | nil => rfl
  | cons n T ih => simp [ih]

theorem foldl_coverNode_colHeader (T : List Nat) (s : Heap) :
    (T.foldl coverNode s).colHeader = s.colHeader := by
  induction T generalizing s with
  | nil => rfl
  | cons n T ih => simp [ih]

theorem foldl_coverNode_rowID (T : List Nat) (s : Heap) :
    (T.foldl coverNode s).rowID = s.rowID := by
  induction T generalizing s with
  | nil => rfl
  | cons n T ih => simp [ih]

theorem Static_foldl_coverNode {nc : Nat} {P : List (Nat × Nat)} {s : Heap}
    (h : Static nc P s) (T : List Nat) : Static nc P (T.foldl coverNode s) :=
  Static_of_eq h (foldl_coverNode_right T s) (foldl_coverNode_left T s)
    (foldl_coverNode_colHeader T s) (foldl_coverNode_rowID T s)

theorem ValidTrav_cons {nc : Nat} {P : List (Nat × Nat)} {lv : Cell → Bool}
    {cols : Nat → Prop} {n : Nat} {T : List Nat} (h : ValidTrav nc P lv cols (n :: T)) :
    (∃ r c, (n, r, c) ∈ cells nc P ∧ lv (n, r, c) = true ∧ c < nc ∧ cols c) ∧
    ValidTrav nc P (fun e => lv e && decide (e.1 ≠ n)) cols T := by
  obtain ⟨hnd, hall⟩ := h
  have h1 := List.nodup_cons.mp hnd
  refine ⟨hall n (by simp), h1.2, ?_⟩
  intro m hm
  obtain ⟨r, c, h2, h3, h4, h5⟩ := hall m (List.mem_cons_of_mem _ hm)
  refine ⟨r, c, h2, ?_, h4, h5⟩
  have : m ≠ n := fun e => h1.1 (e ▸ hm)
  simp [h3, this]

/-- A node in a vertical ring is linked to its two neighbours. -/
theorem VRings_linked {nc : Nat} {P : List (Nat × Nat)} {lv : Cell → Bool}
    {cols : Nat → Prop} {s : Heap} (hv : VRings nc P lv cols s)
    {n r c : Nat} (he : (n, r, c) ∈ cells nc P) (hl : lv (n, r, c) = true)
    (hc : c < nc) (hcol : cols c) :
    s.down (s.up n) = n ∧ s.up (s.down n) = n ∧ n ≠ s.up n ∧ n ≠ s.down n := by
  have hmem : n ∈ colRing nc P lv c := mem_colRing.mpr ⟨r, he, hl⟩
  obtain ⟨l1, l2, hL⟩ := List.append_of_mem hmem
  obtain ⟨hring, -⟩ := hv c hc hcol
  have hnd : (hdr c :: colRing nc P lv c).Nodup :=
    List.nodup_cons.mpr ⟨hdr_not_mem_colRing nc P lv c c hc, colRing_nodup nc P lv c⟩
  simp only [Cyc] at hring
  obtain ⟨h1, h2, -, -⟩ := DSeg_mem hring hmem
  rw [hL] at hring hnd
  obtain ⟨hup, hdown⟩ := DSeg_split_mem hring
  have hnd1 := List.nodup_cons.mp hnd
  have hnd2 := List.nodup_append.mp hnd1.2
  have hnd3 := List.nodup_cons.mp hnd2.2.1
  have hn1 : n ∉ l1 := fun hm => hnd2.2.2 hm (by simp)
  have hnh : n ≠ hdr c := by
    intro e; apply hnd1.1; rw [← e]; simp
  refine ⟨h1, h2, ?_, ?_⟩
  · intro e; rw [← e] at hup
    simp only [List.mem_cons] at hup
    tauto
  · intro e; rw [← e] at hdown
    simp only [List.mem_append, List.mem_singleton] at hdown
    rcases hdown with h | h
    · exact hnd3.1 h
    · exact hnh h

/-- Unlinking a list of distinct linked nodes removes exactly these nodes from
the vertical rings. -/
theorem VRings_fold {nc : Nat} {P : List (Nat × Nat)} {cols : Nat → Prop} (T : List Nat)
    {lv : Cell → Bool} {s : Heap} (hs : Static nc P s) (hv : VRings nc P lv cols s)
    (hT : ValidTrav nc P lv cols T) :
    VRings nc P (fun e => lv e && decide (e.1 ∉ T)) cols (T.foldl coverNode s) := by
  induction T generalizing lv s with
  | nil =>
    simp only [List.foldl_nil]
    exact VRings_congr (fun e _ => by simp) hv
  | cons n T ih =>
    obtain ⟨⟨r, c, h1, h2, h3, h4⟩, hT2⟩ := ValidTrav_cons hT
    have hv2 := VRings_coverNode hs hv h1 h2 h3 h4
    have := ih (Static_coverNode hs n) hv2 hT2
    simp only [List.foldl_cons]
    refine VRings_congr ?_ this
    intro e _
    simp only [List.mem_cons, not_or, Bool.and_assoc]
    congr 1
    by_cases h5 : e.1 = n <;> simp [h5]

/-- Relinking the same nodes in reverse order restores the arena. -/
theorem uncover_fold {nc : Nat} {P : List (Nat × Nat)} {cols : Nat → Prop} (T : List Nat)
    {lv : Cell → Bool} {s : Heap} (hs : Static nc P s) (hv : VRings nc P lv cols s)
    (hT : ValidTrav nc P lv cols T) :
    T.reverse.foldl uncoverNode (T.foldl coverNode s) = s := by
  induction T generalizing lv s with
  | nil => rfl
  | cons n T ih =>
    obtain ⟨⟨r, c, h1, h2, h3, h4⟩, hT2⟩ := ValidTrav_cons hT
    have hv2 := VRings_coverNode hs hv h1 h2 h3 h4
    have := ih (Static_coverNode hs n) hv2 hT2
    obtain ⟨l1, l2, l3, l4⟩ := VRings_linked hv h1 h2 h3 h4
    simp only [List.foldl_cons, List.reverse_cons, List.foldl_append, List.foldl_nil, this]
    exact uncoverNode_coverNode s n l1 l2 l3 l4
/-! ## The outer loops of cover and uncover -/

theorem ValidTrav_append {nc : Nat} {P : List (Nat × Nat)} {lv : Cell → Bool}
    {cols : Nat → Prop} {T1 T2 : List Nat} (h : ValidTrav nc P lv cols (T1 ++ T2)) :
    ValidTrav nc P lv cols T1 ∧
    ValidTrav nc P (fun e => lv e && decide (e.1 ∉ T1)) cols T2 := by
  obtain ⟨hnd, hall⟩ := h
  have h1 := List.nodup_append.mp hnd
  refine ⟨⟨h1.1, fun n hn => hall n (List.mem_append_left _ hn)⟩, h1.2.1, ?_⟩
  intro m hm
  obtain ⟨r, c, h2, h3, h4, h5⟩ := hall m (List.mem_append_right _ hm)
  refine ⟨r, c, h2, ?_, h4, h5⟩
  have : m ∉ T1 := fun e => h1.2.2 e hm
  simp [h3, this]

theorem ValidTrav_mono {nc : Nat} {P : List (Nat × Nat)} {lv : Cell → Bool}
    {cols cols2 : Nat → Prop} {T : List Nat} (h : ValidTrav nc P lv cols T)
    (hc : ∀ c, cols c → cols2 c) : ValidTrav nc P lv cols2 T := by
  refine ⟨h.1, fun n hn => ?_⟩
  obtain ⟨r, c, h2, h3, h4, h5⟩ := h.2 n hn
  exact ⟨r, c, h2, h3, h4, hc c h5⟩

theorem others_length {nc : Nat} {P : List (Nat × Nat)} {a r c : Nat}
    (h : (a, r, c) ∈ cells nc P) : (others nc P a).length < P.length := by
  obtain ⟨l1, l2, hL, ho⟩ := others_split h
  have h1 : (rowNodes nc P r).length ≤ (cells nc P).length := by
    simp only [rowNodes, List.length_map]
    exact List.length_filter_le _ _
  have h2 : (cells nc P).length = P.length := by
    have := congrArg List.length (cellsFrom_map_snd (nc + 1) P)
    simpa [cells] using this
  rw [hL] at h1
  rw [ho]
  simp only [List.length_append, List.length_cons] at h1 ⊢
  omega

theorem colRing_filter_notin {nc : Nat} {P : List (Nat × Nat)} {lv : Cell → Bool} {c : Nat}
    {T : List Nat} (h : ∀ n, n ∈ T → n ∉ colRing nc P lv c) :
    colRing nc P (fun e => lv e && decide (e.1 ∉ T)) c = colRing nc P lv c := by
  simp only [colRing]
  congr 1
  apply List.filter_congr
  intro e he
  by_cases h1 : e.2.2 = c
  · by_cases h2 : lv e = true
    · have : e.1 ∉ T := by
        intro hm
        apply h e.1 hm
        rw [mem_colRing]
        refine ⟨e.2.1, ?_, ?_⟩
        · rw [← h1]; exact he
        · rw [← h1]; exact h2
      simp [h1, h2, this]
    · simp [h1, h2]
  · simp [h1]

/-- A traversal that stays out of column `c` leaves the ring of `c` alone. -/
theorem colRing_trav {nc : Nat} {P : List (Nat × Nat)} {lv : Cell → Bool} {c : Nat}
    {cols : Nat → Prop} {T : List Nat}
    (h : ValidTrav nc P lv (fun c2 => cols c2 ∧ c2 ≠ c) T) :
    colRing nc P (fun e => lv e && decide (e.1 ∉ T)) c = colRing nc P lv c := by
  apply colRing_filter_notin
  intro n hn hm
  obtain ⟨r, c2, h1, -, -, -, h5⟩ := h.2 n hn
  rw [mem_colRing] at hm
  obtain ⟨r2, h6, -⟩ := hm
  have := cells_addr_inj h1 h6 rfl
  simp only [Prod.mk.injEq, true_and] at this
  exact h5 this.2

theorem DSeg_head {nxt prv : Nat → Nat} {a : Nat} {l : List Nat} {b : Nat}
    (h : DSeg nxt prv a l b) : (l ++ [b]).head? = some (nxt a) := by
  cases l with
  | nil => simp only [DSeg] at h; simp [h.1]
  | cons x l => simp only [DSeg] at h; simp [h.1]

theorem DSeg_last {nxt prv : Nat → Nat} {a : Nat} {l : List Nat} {b : Nat}
    (h : DSeg nxt prv a l b) : (a :: l).getLast? = some (prv b) := by
  have := DSeg_head (DSeg_reverse h)
  rw [← this]
  rw [← List.reverse_cons, List.head?_reverse]

/-- The outer loop of `cover` unlinks the other nodes of every remaining row
of the column. -/
theorem coverRows_spec {nc : Nat} {P : List (Nat × Nat)} {cols : Nat → Prop} {c : Nat}
    (hc : c < nc) (hcol : cols c) (rest : List Nat) {pre : List Nat} {lv : Cell → Bool}
    {s : Heap} {fuel x : Nat} (hs : Static nc P s) (hv : VRings nc P lv cols s)
    (hL : colRing nc P lv c = pre ++ rest)
    (hT : ValidTrav nc P lv (fun c2 => cols c2 ∧ c2 ≠ c) (rest.flatMap (others nc P)))
    (hx : (rest ++ [hdr c]).head? = some x)
    (hf : rest.length + P.length < fuel) :
    coverRows fuel s (hdr c) x = some ((rest.flatMap (others nc P)).foldl coverNode s) := by
  induction rest generalizing pre lv s fuel x with
  | nil =>
    cases fuel with
    | zero => simp at hf
    | succ fuel =>
      simp only [List.nil_append, List.head?_cons, Option.some.injEq] at hx
      simp [coverRows, hx]
  | cons a rest ih =>
    cases fuel with
    | zero => simp at hf
    | succ fuel =>
      simp only [List.cons_append, List.head?_cons, Option.some.injEq] at hx
      subst hx
      have hmem : a ∈ colRing nc P lv c := by rw [hL]; simp
      obtain ⟨r, hcell, hlv⟩ := mem_colRing.mp hmem
      have hne : a ≠ hdr c := fun e => hdr_not_mem_colRing nc P lv c c hc (e ▸ hmem)
      simp only [List.length_cons] at hf
      have hlen := others_length hcell
      rw [List.flatMap_cons] at hT
      obtain ⟨hT1, hT2⟩ := ValidTrav_append hT
      have hw := (walk_others hs hcell).1
      have hs1 := Static_foldl_coverNode hs (others nc P a)
      have hv1 := VRings_fold (others nc P a) hs hv (ValidTrav_mono hT1 (fun _ h => h.1))
      have hL1 := colRing_trav hT1
      rw [hL] at hL1
      have hring := (hv1 c hc hcol).1
      simp only [Cyc] at hring
      rw [hL1, DSeg_append] at hring
      have hnext := DSeg_head hring.2
      simp only [coverRows, hne, ↓reduceIte, coverRow_spec hw (by omega : _ < fuel),
        List.flatMap_cons, List.foldl_append]
      have hL2 : colRing nc P (fun e => lv e && decide (e.1 ∉ others nc P a)) c
          = (pre ++ [a]) ++ rest := by rw [hL1]; simp
      exact ih hs1 hv1 hL2 hT2 hnext (by omega)

/-- The outer loop of `uncover` undoes what the outer loop of `cover` did. -/
theorem uncoverRows_spec {nc : Nat} {P : List (Nat × Nat)} {cols : Nat → Prop} {c : Nat}
    (hc : c < nc) (hcol : cols c) (pre : List Nat) {rest : List Nat} {lv : Cell → Bool}
    {s : Heap} {fuel x : Nat} (hs : Static nc P s) (hv : VRings nc P lv cols s)
    (hL : colRing nc P lv c = pre ++ rest)
    (hT : ValidTrav nc P lv (fun c2 => cols c2 ∧ c2 ≠ c) (pre.flatMap (others nc P)))
    (hx : (hdr c :: pre).getLast? = some x)
    (hf : pre.length + P.length < fuel) :
    uncoverRows fuel ((pre.flatMap (others nc P)).foldl coverNode s) (hdr c) x = some s := by
  induction pre using List.reverseRecOn generalizing rest fuel x with
  | nil =>
    cases fuel with
    | zero => simp at hf
    | succ fuel =>
      simp only [List.getLast?_singleton, Option.some.injEq] at hx
      simp [uncoverRows, hx]
  | append_singleton pre a ih =>
    cases fuel with
    | zero => simp at hf
    | succ fuel =>
      rw [← List.cons_append, List.getLast?_append] at hx
      simp only [List.getLast?_singleton, Option.or, Option.some.injEq] at hx
      subst hx
      have hmem : a ∈ colRing nc P lv c := by rw [hL]; simp
      obtain ⟨r, hcell, hlv⟩ := mem_colRing.mp hmem
      have hne : a ≠ hdr c := fun e => hdr_not_mem_colRing nc P lv c c hc (e ▸ hmem)
      simp only [List.length_append, List.length_singleton] at hf
      have hlen := others_length hcell
      rw [List.flatMap_append, List.flatMap_singleton] at hT
      obtain ⟨hT1, hT2⟩ := ValidTrav_append hT
      have hs1 := Static_foldl_coverNode hs (pre.flatMap (others nc P))
      have hv1 := VRings_fold (pre.flatMap (others nc P)) hs hv
        (ValidTrav_mono hT1 (fun _ h => h.1))
      have hs2 := Static_foldl_coverNode hs1 (others nc P a)
      have hw := (walk_others hs2 hcell).2
      have hback := uncover_fold (others nc P a) hs1 hv1 (ValidTrav_mono hT2 (fun _ h => h.1))
      have hL1 := colRing_trav hT1
      rw [hL] at hL1
      have hring := (hv1 c hc hcol).1
      simp only [Cyc] at hring
      rw [hL1, List.append_assoc, List.singleton_append, DSeg_append] at hring
      have hprev := DSeg_last hring.1
      rw [List.flatMap_append, List.flatMap_singleton, List.foldl_append]
      simp only [uncoverRows, hne, ↓reduceIte]
      rw [uncoverRow_spec hw (by simp; omega), hback]
      simp only
      have hL2 : colRing nc P lv c = pre ++ (a :: rest) := by rw [hL]; simp
      exact ih hL2 hT1 hprev (by omega)
/-! ## cover and uncover of a column -/

theorem rowLive_iff {P : List (Nat × Nat)} {K : List Nat} {r : Nat} :
    rowLive P K r = true ↔ ∀ c, (r, c) ∈ P → c ∉ K := by
  simp only [rowLive, List.all_eq_true, decide_eq_true_eq]
  constructor
  · intro h c hc; exact h (r, c) hc rfl
  · rintro h ⟨r2, c⟩ hx rfl; exact h c hx

theorem rowLive_cons {P : List (Nat × Nat)} {K : List Nat} {r c : Nat} :
    rowLive P (c :: K) r = true ↔ rowLive P K r = true ∧ (r, c) ∉ P := by
  simp only [rowLive_iff, List.mem_cons, not_or]
  constructor
  · intro h
    exact ⟨fun c2 h2 => (h c2 h2).2, fun h2 => (h c h2).1 rfl⟩
  · rintro ⟨h1, h2⟩ c2 h3
    exact ⟨fun e => h2 (e ▸ h3), h1 c2 h3⟩

theorem mem_coverTrav {nc : Nat} {P : List (Nat × Nat)} {lv : Cell → Bool}
    {c n r c2 : Nat} (hn : (n, r, c2) ∈ cells nc P) :
    n ∈ coverTrav nc P lv c ↔ ∃ a, (a, r, c) ∈ cells nc P ∧ lv (a, r, c) = true ∧ n ≠ a := by
  simp only [coverTrav, List.mem_flatMap]
  constructor
  · rintro ⟨a, ha, hna⟩
    obtain ⟨r2, hcell, hlv⟩ := mem_colRing.mp ha
    obtain ⟨hne, c3, h3⟩ := (mem_others hcell).mp hna
    have := cells_addr_inj hn h3 rfl
    simp only [Prod.mk.injEq, true_and] at this
    obtain ⟨rfl, rfl⟩ := this
    exact ⟨a, hcell, hlv, hne⟩
  · rintro ⟨a, hcell, hlv, hne⟩
    exact ⟨a, mem_colRing.mpr ⟨r, hcell, hlv⟩, (mem_others hcell).mpr ⟨hne, c2, hn⟩⟩

/-- The nodes `cover` unlinks are distinct, lie in live rows, and lie in
uncovered columns other than the covered one. -/
theorem validTrav_cover {nc : Nat} {P : List (Nat × Nat)} {s : Heap} (hs : Static nc P s)
    (K : List Nat) (c : Nat) :
    ValidTrav nc P (liveCell P K) (fun c2 => c2 ∉ K ∧ c2 ≠ c)
      (coverTrav nc P (liveCell P K) c) := by
  constructor
  · rw [coverTrav, List.nodup_flatMap]
    constructor
    · intro a ha
      obtain ⟨r, hcell, -⟩ := mem_colRing.mp ha
      exact others_nodup hcell
    · apply (colRing_nodup nc P _ c).pairwise_of_forall_ne
      intro a ha b hb hab
      obtain ⟨ra, hca, -⟩ := mem_colRing.mp ha
      obtain ⟨rb, hcb, -⟩ := mem_colRing.mp hb
      simp only [Function.onFun]
      rw [List.disjoint_left]
      intro n hna hnb
      obtain ⟨-, c3, h3⟩ := (mem_others hca).mp hna
      obtain ⟨-, c4, h4⟩ := (mem_others hcb).mp hnb
      have := cells_addr_inj h3 h4 rfl
      simp only [Prod.mk.injEq, true_and] at this
      obtain ⟨rfl, rfl⟩ := this
      have := cells_coord_inj hs.nodup hca hcb rfl
      simp only [Prod.mk.injEq, and_true] at this
      exact hab this
  · intro n hn
    simp only [coverTrav, List.mem_flatMap] at hn
    obtain ⟨a, ha, hna⟩ := hn
    obtain ⟨r, hcell, hlv⟩ := mem_colRing.mp ha
    obtain ⟨hne, c2, h2⟩ := (mem_others hcell).mp hna
    simp only [liveCell] at hlv
    refine ⟨r, c2, h2, hlv, hs.col_lt _ (cells_mem_coords h2), ?_, ?_⟩
    · exact rowLive_iff.mp hlv c2 (cells_mem_coords h2)
    · rintro rfl
      have := cells_coord_inj hs.nodup h2 hcell rfl
      simp only [Prod.mk.injEq, and_true] at this
      exact hne this
theorem DSeg_linked {nxt prv : Nat → Nat} {a : Nat} {l : List Nat}
    (h : DSeg nxt prv a l a) (hnd : (a :: l).Nodup) {n : Nat} (hn : n ∈ l) :
    nxt (prv n) = n ∧ prv (nxt n) = n ∧ n ≠ prv n ∧ n ≠ nxt n := by
  obtain ⟨h1, h2, -, -⟩ := DSeg_mem h hn
  obtain ⟨l1, l2, rfl⟩ := List.append_of_mem hn
  obtain ⟨hup, hdown⟩ := DSeg_split_mem h
  have hnd1 := List.nodup_cons.mp hnd
  have hnd2 := List.nodup_append.mp hnd1.2
  have hnd3 := List.nodup_cons.mp hnd2.2.1
  have hn1 : n ∉ l1 := fun hm => hnd2.2.2 hm (by simp)
  have hnh : n ≠ a := by
    intro e; apply hnd1.1; rw [← e]; simp
  refine ⟨h1, h2, ?_, ?_⟩
  · intro e; rw [← e] at hup
    simp only [List.mem_cons] at hup
    tauto
  · intro e; rw [← e] at hdown
    simp only [List.mem_append, List.mem_singleton] at hdown
    rcases hdown with h | h
    · exact hnd3.1 h
    · exact hnh h

theorem mem_liveCols {nc : Nat} {K : List Nat} {c : Nat} :
    c ∈ liveCols nc K ↔ c < nc ∧ c ∉ K := by
  simp [liveCols]

theorem liveCols_nodup (nc : Nat) (K : List Nat) : (liveCols nc K).Nodup :=
  (List.nodup_range nc).sublist (List.filter_sublist _)

theorem liveCols_cons (nc : Nat) (K : List Nat) (c : Nat) :
    liveCols nc (c :: K) = (liveCols nc K).filter (fun y => decide (y ≠ c)) := by
  simp only [liveCols, List.filter_filter]
  apply List.filter_congr
  intro x _
  simp only [List.mem_cons, not_or, ne_eq, decide_not, Bool.decide_and]

theorem hdr_injective : Function.Injective hdr := by
  intro a b h; simp only [hdr] at h; omega

theorem hring_nodup (nc : Nat) (K : List Nat) : (0 :: (liveCols nc K).map hdr).Nodup := by
  refine List.nodup_cons.mpr ⟨?_, (liveCols_nodup nc K).map hdr_injective⟩
  simp [hdr]

theorem hring_le {nc : Nat} {K : List Nat} {x : Nat}
    (h : x ∈ 0 :: (liveCols nc K).map hdr) : x ≤ nc := by
  simp only [List.mem_cons, List.mem_map] at h
  rcases h with rfl | ⟨c, hc, rfl⟩
  · omega
  · have := (mem_liveCols.mp hc).1
    simp only [hdr]; omega

theorem rowNodes_gt {nc : Nat} {P : List (Nat × Nat)} {r n : Nat}
    (h : n ∈ rowNodes nc P r) : nc < n := by
  obtain ⟨c, hc⟩ := mem_rowNodes.mp h
  exact cells_gt hc

theorem Cyc_congr {nxt prv nxt2 prv2 : Nat → Nat} {l : List Nat} (h : Cyc nxt prv l)
    (hn : ∀ y, y ∈ l → nxt2 y = nxt y) (hp : ∀ y, y ∈ l → prv2 y = prv y) :
    Cyc nxt2 prv2 l := by
  cases l with
  | nil => trivial
  | cons a l =>
    simp only [Cyc] at h ⊢
    apply DSeg_congr h hn
    intro y hy
    apply hp
    simp only [List.mem_append, List.mem_singleton, List.mem_cons] at hy ⊢
    tauto

theorem VRings_of_eq {nc : Nat} {P : List (Nat × Nat)} {lv : Cell → Bool} {cols : Nat → Prop}
    {s t : Heap} (hv : VRings nc P lv cols s) (h1 : t.down = s.down) (h2 : t.up = s.up)
    (h3 : t.nodeCount = s.nodeCount) : VRings nc P lv cols t := by
  intro c hc hcol
  rw [h1, h2, h3]
  exact hv c hc hcol

theorem setLR_coverNode (s : Heap) (l r : Nat → Nat) (n : Nat) :
    coverNode (setLR s l r) n = setLR (coverNode s n) l r := rfl

theorem setLR_foldl (T : List Nat) (s : Heap) (l r : Nat → Nat) :
    T.foldl coverNode (setLR s l r) = setLR (T.foldl coverNode s) l r := by
  induction T generalizing s with
  | nil => rfl
  | cons n T ih => simp only [List.foldl_cons, setLR_coverNode, ih]

/-- Unlinking the header of a live column `c` from the header ring. -/
theorem unlinkHorizontally_spec {nc : Nat} {P : List (Nat × Nat)} {K : List Nat} {s : Heap}
    (hi : Inv nc P K s) {c : Nat} (hc : c < nc) (hcK : c ∉ K) :
    Static nc P (unlinkHorizontally s (hdr c)) ∧
    HRing nc (c :: K) (unlinkHorizontally s (hdr c)) ∧
    setLR (unlinkHorizontally s (hdr c)) s.left s.right = s ∧
    Function.update (unlinkHorizontally s (hdr c)).right
      ((unlinkHorizontally s (hdr c)).left (hdr c)) (hdr c) = s.right ∧
    Function.update (unlinkHorizontally s (hdr c)).left (s.right (hdr c)) (hdr c) = s.left := by
  have hmem : c ∈ liveCols nc K := mem_liveCols.mpr ⟨hc, hcK⟩
  obtain ⟨l1, l2, hL⟩ := List.append_of_mem hmem
  have hring := hi.hring
  have hnd := hring_nodup nc K
  simp only [HRing, Cyc] at hring
  have hm2 : hdr c ∈ (liveCols nc K).map hdr := List.mem_map_of_mem _ hmem
  obtain ⟨k1, k2, k3, k4⟩ := DSeg_linked hring hnd hm2
  rw [hL, List.map_append, List.map_cons] at hring hnd
  have hnd1 := List.nodup_cons.mp hnd
  have eR : (unlinkHorizontally s (hdr c)).right
      = Function.update s.right (s.left (hdr c)) (s.right (hdr c)) := rfl
  have eL : (unlinkHorizontally s (hdr c)).left
      = Function.update s.left (s.right (hdr c)) (s.left (hdr c)) := by
    show Function.update s.left (Function.update s.right (s.left (hdr c)) (s.right (hdr c))
      (hdr c)) (s.left (hdr c)) = _
    rw [Function.update_noteq k3]
  obtain ⟨-, -, hlm, hrm⟩ := DSeg_mem (l := (liveCols nc K).map hdr)
    (by rw [hL, List.map_append, List.map_cons]; exact hring) hm2
  have hlle : s.left (hdr c) ≤ nc := hring_le hlm
  have hrle : s.right (hdr c) ≤ nc := by
    apply hring_le (K := K)
    simp only [List.mem_append, List.mem_singleton, List.mem_cons] at hrm ⊢
    tauto
  refine ⟨?_, ?_, ?_, ?_, ?_⟩
  · refine ⟨hi.static.nodup, hi.static.col_lt, hi.static.colHeader_cell,
      hi.static.rowID_cell, ?_⟩
    intro r
    apply Cyc_congr (hi.static.rows r)
    · intro y hy
      have := rowNodes_gt hy
      rw [eR, Function.update_noteq (by omega)]
    · intro y hy
      have := rowNodes_gt hy
      rw [eL, Function.update_noteq (by omega)]
  · simp only [HRing, Cyc]
    rw [liveCols_cons, hL, filter_ne_split (by rw [← hL]; exact liveCols_nodup nc K),
      List.map_append, eR, eL]
    exact DSeg_remove _ _ _ 0 hring hnd1.2 hnd1.1 hnd1.1
  · apply Heap.ext <;> rfl
  · rw [eL, Function.update_noteq k4, eR, Function.update_idem]
    funext y
    by_cases hy : y = s.left (hdr c)
    · rw [hy, Function.update_same, k1]
    · rw [Function.update_noteq hy]
  · rw [eL, Function.update_idem]
    funext y
    by_cases hy : y = s.right (hdr c)
    · rw [hy, Function.update_same, k2]
    · rw [Function.update_noteq hy]
theorem colRing_congr_col {nc : Nat} {P : List (Nat × Nat)} {lv lv2 : Cell → Bool} {c : Nat}
    (h : ∀ e, e ∈ cells nc P → e.2.2 = c → lv e = lv2 e) :
    colRing nc P lv c = colRing nc P lv2 c := by
  simp only [colRing]
  congr 1
  apply List.filter_congr
  intro e he
  by_cases h1 : e.2.2 = c
  · rw [h e he h1]
  · simp [h1]

theorem colRing_length_le (nc : Nat) (P : List (Nat × Nat)) (lv : Cell → Bool) (c : Nat) :
    (colRing nc P lv c).length ≤ P.length := by
  have h2 : (cells nc P).length = P.length := by
    have := congrArg List.length (cellsFrom_map_snd (nc + 1) P)
    simpa [cells] using this
  rw [← h2]
  simp only [colRing, List.length_map]
  exact List.length_filter_le _ _

/-- After `cover(c)` the rows that meet column `c` are gone from every other
uncovered column. -/
theorem colRing_cover {nc : Nat} {P : List (Nat × Nat)} (K : List Nat)
    {c c2 : Nat} (hne : c2 ≠ c) :
    colRing nc P (fun e => liveCell P K e &&
      decide (e.1 ∉ coverTrav nc P (liveCell P K) c)) c2 = colRing nc P (liveCell P (c :: K)) c2 := by
  apply colRing_congr_col
  rintro ⟨n, r, c3⟩ he h3
  simp only at h3; subst h3
  rw [Bool.eq_iff_iff]
  simp only [Bool.and_eq_true, decide_eq_true_eq, liveCell, rowLive_cons, mem_coverTrav he]
  constructor
  · rintro ⟨h1, h2⟩
    refine ⟨h1, fun hm => h2 ?_⟩
    obtain ⟨a, ha⟩ := mem_cellsFrom_of_mem (a := nc + 1) hm
    refine ⟨a, ha, h1, ?_⟩
    rintro rfl
    have := cells_addr_inj he ha rfl
    simp only [Prod.mk.injEq, true_and] at this
    exact hne this
  · rintro ⟨h1, h2⟩
    refine ⟨h1, ?_⟩
    rintro ⟨a, ha, -, -⟩
    exact h2 (cells_mem_coords ha)

theorem cover_eq {nc : Nat} {P : List (Nat × Nat)} {K : List Nat} {s : Heap}
    (hi : Inv nc P K s) {c : Nat} (hc : c < nc) (hcK : c ∉ K) {fuel : Nat}
    (hf : 2 * P.length < fuel) :
    cover fuel s (hdr c) = some (coverAbs nc P K s c) := by
  obtain ⟨hs1, -, -, -, -⟩ := unlinkHorizontally_spec hi hc hcK
  have hv1 : VRings nc P (liveCell P K) (fun c => c ∉ K) (unlinkHorizontally s (hdr c)) :=
    VRings_of_eq hi.vrings rfl rfl rfl
  have hring := (hv1 c hc hcK).1
  simp only [Cyc] at hring
  have hlen := colRing_length_le nc P (liveCell P K) c
  exact coverRows_spec hc hcK (colRing nc P (liveCell P K) c) hs1 hv1
    (List.nil_append _).symm
    (validTrav_cover hi.static K c) (DSeg_head hring) (by omega)

theorem cover_vrings {nc : Nat} {P : List (Nat × Nat)} {K : List Nat} {s : Heap}
    (hi : Inv nc P K s) {c : Nat} (hc : c < nc) (hcK : c ∉ K) :
    VRings nc P (fun e => liveCell P K e && decide (e.1 ∉ coverTrav nc P (liveCell P K) c))
      (fun c => c ∉ K) (coverAbs nc P K s c) := by
  obtain ⟨hs1, -, -, -, -⟩ := unlinkHorizontally_spec hi hc hcK
  have hv1 : VRings nc P (liveCell P K) (fun c => c ∉ K) (unlinkHorizontally s (hdr c)) :=
    VRings_of_eq hi.vrings rfl rfl rfl
  exact VRings_fold _ hs1 hv1 (ValidTrav_mono (validTrav_cover hi.static K c) (fun _ h => h.1))

/-- Function `cover` on a live column leads to the state with that column covered. -/
theorem cover_inv {nc : Nat} {P : List (Nat × Nat)} {K : List Nat} {s : Heap}
    (hi : Inv nc P K s) {c : Nat} (hc : c < nc) (hcK : c ∉ K) :
    Inv nc P (c :: K) (coverAbs nc P K s c) := by
  obtain ⟨hs1, hh1, -, -, -⟩ := unlinkHorizontally_spec hi hc hcK
  refine ⟨Static_foldl_coverNode hs1 _, ?_, ?_⟩
  · simp only [HRing, coverAbs, foldl_coverNode_right, foldl_coverNode_left]
    exact hh1
  · intro c2 hc2 hcK2
    simp only [List.mem_cons, not_or] at hcK2
    rw [← colRing_cover K hcK2.1]
    exact cover_vrings hi hc hcK c2 hc2 hcK2.2

/-- After `cover(c)` the vertical ring of column `c` itself is as before. -/
theorem cover_colRing {nc : Nat} {P : List (Nat × Nat)} {K : List Nat} {s : Heap}
    (hi : Inv nc P K s) {c : Nat} (hc : c < nc) (hcK : c ∉ K) :
    Cyc (coverAbs nc P K s c).down (coverAbs nc P K s c).up
      (hdr c :: colRing nc P (liveCell P K) c) ∧
    (coverAbs nc P K s c).nodeCount (hdr c) = ((colRing nc P (liveCell P K) c).length : Int) := by
  have := cover_vrings hi hc hcK c hc hcK
  rw [colRing_trav (validTrav_cover hi.static K c)] at this
  exact this

/-- Function `uncover` undoes `cover`: the arena is exactly the one before `cover`. -/
theorem uncover_cover {nc : Nat} {P : List (Nat × Nat)} {K : List Nat} {s : Heap}
    (hi : Inv nc P K s) {c : Nat} (hc : c < nc) (hcK : c ∉ K) {fuel : Nat}
    (hf : 2 * P.length < fuel) :
    uncover fuel (coverAbs nc P K s c) (hdr c) = some s := by
  obtain ⟨hs1, -, h3, h4, h5⟩ := unlinkHorizontally_spec hi hc hcK
  have e1 : (coverAbs nc P K s c).right = (unlinkHorizontally s (hdr c)).right :=
    foldl_coverNode_right _ _
  have e2 : (coverAbs nc P K s c).left = (unlinkHorizontally s (hdr c)).left :=
    foldl_coverNode_left _ _
  have e3 : uncover fuel (coverAbs nc P K s c) (hdr c)
      = uncoverRows fuel (setLR (coverAbs nc P K s c) s.left s.right) (hdr c)
          ((coverAbs nc P K s c).up (hdr c)) := by
    show uncoverRows fuel (setLR (coverAbs nc P K s c)
      (Function.update (coverAbs nc P K s c).left
        (Function.update (coverAbs nc P K s c).right ((coverAbs nc P K s c).left (hdr c)) (hdr c)
          (hdr c)) (hdr c))
      (Function.update (coverAbs nc P K s c).right ((coverAbs nc P K s c).left (hdr c)) (hdr c)))
      (hdr c) ((coverAbs nc P K s c).up (hdr c)) = _
    rw [e1, e2, h4, h5]
  rw [e3]
  have e4 : setLR (coverAbs nc P K s c) s.left s.right
      = (coverTrav nc P (liveCell P K) c).foldl coverNode s := by
    rw [coverAbs, ← setLR_foldl, h3]
  rw [e4]
  have hring := (cover_colRing hi hc hcK).1
  simp only [Cyc] at hring
  have hlen := colRing_length_le nc P (liveCell P K) c
  exact uncoverRows_spec hc hcK (colRing nc P (liveCell P K) c) hi.static
    hi.vrings (List.append_nil _).symm (validTrav_cover hi.static K c) (DSeg_last hring)
    (by omega)
/-! ## Covering the columns of a row -/

theorem DSeg_unique {f g f2 g2 : Nat → Nat} {a : Nat} {l : List Nat} {b : Nat}
    (h : DSeg f g a l b) (h2 : DSeg f2 g2 a l b) :
    (∀ y, y ∈ a :: l → f2 y = f y) ∧ (∀ y, y ∈ l ++ [b] → g2 y = g y) := by
  induction l generalizing a with
  | nil =>
    simp only [DSeg] at h h2
    constructor
    · intro y hy; simp only [List.mem_singleton] at hy; subst hy; rw [h.1, h2.1]
    · intro y hy; simp only [List.nil_append, List.mem_singleton] at hy; subst hy; rw [h.2, h2.2]
  | cons x l ih =>
    simp only [DSeg] at h h2
    obtain ⟨i1, i2⟩ := ih h.2.2 h2.2.2
    constructor
    · intro y hy
      simp only [List.mem_cons] at hy
      rcases hy with rfl | hy
      · rw [h.1, h2.1]
      · exact i1 y (by simpa using hy)
    · intro y hy
      simp only [List.cons_append, List.mem_cons] at hy
      rcases hy with rfl | hy
      · rw [h.2.1, h2.2.1]
      · exact i2 y hy

/-- The horizontal links of a data node are the same in all states of the
search. -/
theorem Static_links_eq {nc : Nat} {P : List (Nat × Nat)} {s t : Heap} (hs : Static nc P s)
    (ht : Static nc P t) {n r c : Nat} (h : (n, r, c) ∈ cells nc P) :
    t.right n = s.right n ∧ t.left n = s.left n := by
  have hm : n ∈ rowNodes nc P r := mem_rowNodes.mpr ⟨c, h⟩
  have h1 := hs.rows r
  have h2 := ht.rows r
  cases hrn : rowNodes nc P r with
  | nil => rw [hrn] at hm; simp at hm
  | cons a l =>
    rw [hrn] at h1 h2 hm
    simp only [Cyc] at h1 h2
    obtain ⟨i1, i2⟩ := DSeg_unique h1 h2
    refine ⟨i1 n hm, i2 n ?_⟩
    simp only [List.mem_cons, List.mem_append, List.mem_singleton] at hm ⊢
    tauto

theorem coverAll_append (nc : Nat) (P : List (Nat × Nat)) (cs : List Nat) (c : Nat)
    (K : List Nat) (s : Heap) :
    coverAll nc P (cs ++ [c]) K s
      = coverAbs nc P (cs.reverse ++ K) (coverAll nc P cs K s) c := by
  induction cs generalizing K s with
  | nil => rfl
  | cons d cs ih =>
    show coverAll nc P (cs ++ [c]) (d :: K) (coverAbs nc P K s d) = _
    rw [ih]
    simp only [coverAll, List.reverse_cons, List.append_assoc, List.singleton_append]

/-- Covering distinct live columns one after the other. -/
theorem coverAll_inv {nc : Nat} {P : List (Nat × Nat)} (cs : List Nat) {K : List Nat}
    {s : Heap} (hi : Inv nc P K s) (hlt : ∀ c, c ∈ cs → c < nc) (hnd : cs.Nodup)
    (hK : ∀ c, c ∈ cs → c ∉ K) : Inv nc P (cs.reverse ++ K) (coverAll nc P cs K s) := by
  induction cs generalizing K s with
  | nil => exact hi
  | cons c cs ih =>
    have h1 := List.nodup_cons.mp hnd
    have := ih (cover_inv hi (hlt c (by simp)) (hK c (by simp)))
      (fun d hd => hlt d (List.mem_cons_of_mem _ hd)) h1.2
      (fun d hd => by
        simp only [List.mem_cons, not_or]
        exact ⟨fun e => h1.1 (e ▸ hd), hK d (List.mem_cons_of_mem _ hd)⟩)
    simpa [coverAll, List.reverse_cons, List.append_assoc] using this

theorem colOf_cell {nc : Nat} {P : List (Nat × Nat)} {n r c : Nat}
    (h : (n, r, c) ∈ cells nc P) : colOf nc P n = c := by
  simp [colOf, coordOf_cell h]

theorem Walk_static {nc : Nat} {P : List (Nat × Nat)} {s t : Heap} (hs : Static nc P s)
    (ht : Static nc P t) {x a : Nat} {T : List Nat}
    (hT : ∀ n, n ∈ T → ∃ r c, (n, r, c) ∈ cells nc P) :
    (Walk s.right x T a → Walk t.right x T a) ∧ (Walk s.left x T a → Walk t.left x T a) := by
  constructor
  · intro h
    apply Walk_congr h
    intro y hy
    obtain ⟨r, c, hc⟩ := hT y hy
    exact (Static_links_eq hs ht hc).1
  · intro h
    apply Walk_congr h
    intro y hy
    obtain ⟨r, c, hc⟩ := hT y hy
    exact (Static_links_eq hs ht hc).2

/-- The loop of `solve` that covers the columns of the other nodes of a row. -/
theorem coverRowCols_spec {nc : Nat} {P : List (Nat × Nat)} {a : Nat} (T : List Nat)
    {K : List Nat} {s : Heap} {x fuel : Nat} (hi : Inv nc P K s)
    (hw : Walk s.right x T a) (hT : ∀ n, n ∈ T → ∃ r c, (n, r, c) ∈ cells nc P)
    (hnd : (T.map (colOf nc P)).Nodup) (hK : ∀ c, c ∈ T.map (colOf nc P) → c ∉ K)
    (hf : T.length + 2 * P.length < fuel) :
    coverRowCols fuel s a x = some (coverAll nc P (T.map (colOf nc P)) K s) := by
  induction T generalizing K s x fuel with
  | nil =>
    cases fuel with
    | zero => simp at hf
    | succ fuel => simp only [Walk] at hw; simp [coverRowCols, hw, coverAll]
  | cons n T ih =>
    cases fuel with
    | zero => simp at hf
    | succ fuel =>
      simp only [Walk] at hw
      obtain ⟨rfl, hne, hw⟩ := hw
      obtain ⟨r, c, hcell⟩ := hT x (by simp)
      have hcol : colOf nc P x = c := colOf_cell hcell
      have hc : c < nc := hi.static.col_lt _ (cells_mem_coords hcell)
      simp only [List.map_cons, hcol] at hnd hK ⊢
      have h1 := List.nodup_cons.mp hnd
      have hcK : c ∉ K := hK c (by simp)
      simp only [List.length_cons] at hf
      have hch : s.colHeader x = hdr c := hi.static.colHeader_cell _ hcell
      have hi2 := cover_inv hi hc hcK
      have hr : (coverAbs nc P K s c).right x = s.right x :=
        (Static_links_eq hi.static hi2.static hcell).1
      simp only [coverRowCols, hne, ↓reduceIte, hch, cover_eq hi hc hcK (by omega : _ < fuel),
        coverAll, hr]
      apply ih hi2
      · exact (Walk_static hi.static hi2.static
          (fun m hm => hT m (List.mem_cons_of_mem _ hm))).1 hw
      · exact fun m hm => hT m (List.mem_cons_of_mem _ hm)
      · exact h1.2
      · intro d hd
        simp only [List.mem_cons, not_or]
        exact ⟨fun e => h1.1 (e ▸ hd), hK d (List.mem_cons_of_mem _ hd)⟩
      · omega

/-- The loop of `solve` that uncovers the same columns walking left restores
the arena. -/
theorem uncoverRowCols_spec {nc : Nat} {P : List (Nat × Nat)} {a : Nat} (T : List Nat)
    {K : List Nat} {s : Heap} {x fuel : Nat} (hi : Inv nc P K s)
    (hw : Walk (coverAll nc P (T.map (colOf nc P)) K s).left x T.reverse a)
    (hT : ∀ n, n ∈ T → ∃ r c, (n, r, c) ∈ cells nc P)
    (hnd : (T.map (colOf nc P)).Nodup) (hK : ∀ c, c ∈ T.map (colOf nc P) → c ∉ K)
    (hf : T.length + 2 * P.length < fuel) :
    uncoverRowCols fuel (coverAll nc P (T.map (colOf nc P)) K s) a x = some s := by
  induction T using List.reverseRecOn generalizing x fuel with
  | nil =>
    cases fuel with
    | zero => simp at hf
    | succ fuel =>
      simp only [List.reverse_nil, Walk] at hw
      simp [uncoverRowCols, hw, coverAll]
  | append_singleton T n ih =>
    cases fuel with
    | zero => simp at hf
    | succ fuel =>
      simp only [List.reverse_append, List.reverse_cons, List.reverse_nil, List.nil_append,
        List.singleton_append, Walk] at hw
      obtain ⟨rfl, hne, hw⟩ := hw
      obtain ⟨r, c, hcell⟩ := hT x (by simp)
      have hcol : colOf nc P x = c := colOf_cell hcell
      have hc : c < nc := hi.static.col_lt _ (cells_mem_coords hcell)
      simp only [List.map_append, List.map_cons, List.map_nil, hcol] at hnd hK hw ⊢
      have h1 := List.nodup_append.mp hnd
      have hT1 : ∀ m, m ∈ T → ∃ r c, (m, r, c) ∈ cells nc P :=
        fun m hm => hT m (List.mem_append_left _ hm)
      have hlt : ∀ d, d ∈ T.map (colOf nc P) → d < nc := by
        intro d hd
        obtain ⟨m, hm, rfl⟩ := List.mem_map.mp hd
        obtain ⟨r2, c2, h2⟩ := hT1 m hm
        rw [colOf_cell h2]
        exact hi.static.col_lt _ (cells_mem_coords h2)
      have hK1 : ∀ d, d ∈ T.map (colOf nc P) → d ∉ K :=
        fun d hd => hK d (List.mem_append_left _ hd)
      have hi1 := coverAll_inv (T.map (colOf nc P)) hi hlt h1.1 hK1
      have hcK : c ∉ (T.map (colOf nc P)).reverse ++ K := by
        simp only [List.mem_append, List.mem_reverse, not_or]
        exact ⟨fun hm => h1.2.2 hm (by simp), hK c (by simp)⟩
      have hi2 := cover_inv hi1 hc hcK
      simp only [List.length_append, List.length_singleton] at hf
      rw [coverAll_append] at hw ⊢
      have hch : (coverAbs nc P ((T.map (colOf nc P)).reverse ++ K)
          (coverAll nc P (T.map (colOf nc P)) K s) c).colHeader x = hdr c :=
        hi2.static.colHeader_cell _ hcell
      have hl : (coverAbs nc P ((T.map (colOf nc P)).reverse ++ K)
          (coverAll nc P (T.map (colOf nc P)) K s) c).left x
          = (coverAll nc P (T.map (colOf nc P)) K s).left x :=
        (Static_links_eq hi1.static hi2.static hcell).2
      simp only [uncoverRowCols, hne, ↓reduceIte, hch,
        uncover_cover hi1 hc hcK (by omega : _ < fuel)]
      apply ih _ hT1 h1.1 hK1 (by omega)
      rw [← hl]
      exact (Walk_static hi2.static hi1.static
        (fun m hm => hT1 m (by simpa using hm))).2 hw
/-! ## The column choice and the abstract search -/

theorem chooseCol_spec {s : Heap} {cnt : Nat → Nat} (cs : List Nat) {best x fuel : Nat}
    (hw : Walk s.right x (cs.map hdr) 0)
    (hcnt : ∀ c, c ∈ best :: cs → s.nodeCount (hdr c) = (cnt c : Int))
    (hf : cs.length < fuel) :
    chooseCol fuel s 0 (hdr best) x = some (hdr (chooseAbs cnt best cs)) := by
  induction cs generalizing best x fuel with
  | nil =>
    cases fuel with
    | zero => simp at hf
    | succ fuel => simp only [List.map_nil, Walk] at hw; simp [chooseCol, hw, chooseAbs]
  | cons c cs ih =>
    cases fuel with
    | zero => simp at hf
    | succ fuel =>
      simp only [List.map_cons, Walk] at hw
      obtain ⟨rfl, hne, hw⟩ := hw
      simp only [chooseCol, hne, ↓reduceIte, chooseAbs, hcnt c (by simp), hcnt best (by simp),
        Nat.cast_lt]
      have e : (if cnt c < cnt best then hdr c else hdr best)
          = hdr (if cnt c < cnt best then c else best) := by
        split_ifs <;> rfl
      rw [e]
      apply ih hw
      · intro d hd
        apply hcnt
        simp only [List.mem_cons] at hd ⊢
        rcases hd with rfl | hd
        · split_ifs <;> simp
        · exact Or.inr (Or.inr hd)
      · simpa using hf

theorem chooseAbs_mem (cnt : Nat → Nat) (best : Nat) (cs : List Nat) :
    chooseAbs cnt best cs ∈ best :: cs := by
  induction cs generalizing best with
  | nil => simp [chooseAbs]
  | cons c cs ih =>
    simp only [chooseAbs]
    have := ih (if cnt c < cnt best then c else best)
    simp only [List.mem_cons] at this ⊢
    rcases this with h | h
    · rw [h]; split_ifs <;> simp
    · exact Or.inr (Or.inr h)

theorem rowLive_congr {P : List (Nat × Nat)} {K K2 : List Nat} (h : ∀ c, c ∈ K ↔ c ∈ K2)
    (r : Nat) : rowLive P K r = rowLive P K2 r := by
  rw [Bool.eq_iff_iff, rowLive_iff, rowLive_iff]
  simp only [h]

theorem liveCols_congr {K K2 : List Nat} (h : ∀ c, c ∈ K ↔ c ∈ K2) (nc : Nat) :
    liveCols nc K = liveCols nc K2 := by
  simp only [liveCols]
  apply List.filter_congr
  intro c _
  simp only [h]

/-- The state of the graph depends only on the set of covered columns. -/
theorem Inv_congr {nc : Nat} {P : List (Nat × Nat)} {K K2 : List Nat} {s : Heap}
    (h : ∀ c, c ∈ K ↔ c ∈ K2) (hi : Inv nc P K s) : Inv nc P K2 s := by
  refine ⟨hi.static, ?_, ?_⟩
  · simp only [HRing, ← liveCols_congr h nc]; exact hi.hring
  · intro c hc hcK
    have := hi.vrings c hc (fun hm => hcK ((h c).mp hm))
    have e : colRing nc P (liveCell P K2) c = colRing nc P (liveCell P K) c := by
      apply colRing_congr
      intro e _
      simp only [liveCell, rowLive_congr h]
    rw [e]; exact this

theorem cellsFrom_filter_map {α : Type} (b : Nat) (P : List (Nat × Nat))
    (p : Nat × Nat → Bool) (f : Nat × Nat → α) :
    ((cellsFrom b P).filter (fun e => p e.2)).map (fun e => f e.2) = (P.filter p).map f := by
  induction P generalizing b with
  | nil => rfl
  | cons x P ih =>
    simp only [cellsFrom, List.filter_cons]
    split_ifs <;> simp [ih]

theorem rowOf_cell {nc : Nat} {P : List (Nat × Nat)} {n r c : Nat}
    (h : (n, r, c) ∈ cells nc P) : rowOf nc P n = r := by
  simp [rowOf, coordOf_cell h]

/-- The rows of the vertical ring of a live column. -/
theorem colRing_map_rowOf (nc : Nat) (P : List (Nat × Nat)) (K : List Nat) (c : Nat) :
    (colRing nc P (liveCell P K) c).map (rowOf nc P) = colRows P K c := by
  rw [colRows, ← cellsFrom_filter_map (nc + 1) P _ (fun x => x.1), colRing, List.map_map]
  apply List.map_congr_left
  intro e he
  have he2 := (List.mem_filter.mp he).1
  simp only [Function.comp]
  exact rowOf_cell (c := e.2.2) he2

theorem colRows_length (nc : Nat) (P : List (Nat × Nat)) (K : List Nat) (c : Nat) :
    (colRows P K c).length = (colRing nc P (liveCell P K) c).length := by
  rw [← colRing_map_rowOf nc, List.length_map]

theorem mem_rowColsOf {P : List (Nat × Nat)} {r c : Nat} :
    c ∈ rowColsOf P r ↔ (r, c) ∈ P := by
  simp only [rowColsOf, List.mem_map, List.mem_filter, decide_eq_true_eq]
  constructor
  · rintro ⟨⟨r2, c2⟩, ⟨h1, h2⟩, rfl⟩
    simp only at h2; subst h2; exact h1
  · intro h; exact ⟨(r, c), ⟨h, rfl⟩, rfl⟩

theorem liveCols_length_lt {nc : Nat} {K K2 : List Nat} {c : Nat} (hc : c < nc) (hcK : c ∉ K)
    (hcK2 : c ∈ K2) (hsub : ∀ d, d ∈ K → d ∈ K2) :
    (liveCols nc K2).length < (liveCols nc K).length := by
  have h1 : liveCols nc K2 = (liveCols nc K).filter (fun d => decide (d ∉ K2)) := by
    simp only [liveCols, List.filter_filter]
    apply List.filter_congr
    intro d _
    by_cases hd : d ∈ K2
    · simp [hd]
    · have : d ∉ K := fun hm => hd (hsub d hm)
      simp [hd, this]
  rw [h1]
  apply List.length_filter_lt_length_iff_exists.mpr
  exact ⟨c, mem_liveCols.mpr ⟨hc, hcK⟩, by simp [hcK2]⟩
/-! ## The 32-bit counter -/

theorem wrap32_of_range {x : Int} (h1 : -2147483648 ≤ x) (h2 : x < 2147483648) :
    wrap32 x = x := by
  simp only [wrap32]; omega

theorem wrap32_range (x : Int) : -2147483648 ≤ wrap32 x ∧ wrap32 x < 2147483648 := by
  simp only [wrap32]; omega

theorem wrap32_add_left (x y : Int) : wrap32 (wrap32 x + y) = wrap32 (x + y) := by
  simp only [wrap32]; omega

theorem wrap32_one : wrap32 1 = 1 := by decide

theorem countUp_zero (x : Int) : countUp 0 x = x := rfl

theorem countUp_one (x : Int) : countUp 1 x = wrap32 (x + 1) := rfl

theorem countUp_add (a b : Nat) (x : Int) : countUp (a + b) x = countUp b (countUp a x) := by
  induction a generalizing x with
  | zero => simp [countUp]
  | succ a ih =>
    rw [Nat.succ_add]
    simp only [countUp]
    exact ih _

theorem countUp_succ (n : Nat) (x : Int) : countUp (n + 1) x = wrap32 (x + (n + 1 : Nat)) := by
  induction n generalizing x with
  | zero => simp [countUp]
  | succ n ih =>
    have h : countUp (n + 1 + 1) x = countUp (n + 1) (wrap32 (x + 1)) := rfl
    rw [h, ih, wrap32_add_left]
    congr 1
    push_cast
    ring

theorem countUp_of_lt {n : Nat} {x : Int} (h1 : -2147483648 ≤ x)
    (h2 : x + (n : Int) < 2147483648) : countUp n x = x + (n : Int) := by
  cases n with
  | zero => simp [countUp]
  | succ n =>
    rw [countUp_succ]
    exact wrap32_of_range (by push_cast at h2 ⊢; omega) h2

/-! ## The search -/

theorem emit_append (pr : Bool) (sol : List Int) (ps qs : List (List Nat)) :
    emit pr sol (ps ++ qs) = emit pr sol ps ++ emit pr sol qs := by
  cases pr <;> simp [emit]

theorem emit_cons_map (pr : Bool) (sol : List Int) (r : Nat) (ps : List (List Nat)) :
    emit pr (sol ++ [(r : Int)]) ps = emit pr sol (ps.map (fun p => r :: p)) := by
  cases pr <;> simp [emit]

/-- The columns of the other nodes of a row are distinct, live, and together
with the column of the node itself they are the columns of the row. -/
theorem others_cols {nc : Nat} {P : List (Nat × Nat)} {s : Heap} (hs : Static nc P s)
    {K : List Nat} {a r c : Nat} (hcell : (a, r, c) ∈ cells nc P)
    (hlive : rowLive P K r = true) :
    (∀ n, n ∈ others nc P a → ∃ r2 c2, (n, r2, c2) ∈ cells nc P) ∧
    ((others nc P a).map (colOf nc P)).Nodup ∧
    (∀ d, d ∈ (others nc P a).map (colOf nc P) → d < nc) ∧
    (∀ d, d ∈ (others nc P a).map (colOf nc P) → d ∉ c :: K) ∧
    (∀ d, d ∈ ((others nc P a).map (colOf nc P)).reverse ++ c :: K ↔
      d ∈ rowColsOf P r ++ K) := by
  have hmem : ∀ n, n ∈ others nc P a → ∃ c2, (n, r, c2) ∈ cells nc P ∧ n ≠ a := by
    intro n hn
    obtain ⟨hne, c2, h2⟩ := (mem_others hcell).mp hn
    exact ⟨c2, h2, hne⟩
  have hcolne : ∀ n c2, (n, r, c2) ∈ cells nc P → n ≠ a → c2 ≠ c := by
    rintro n c2 h2 hne rfl
    have := cells_coord_inj hs.nodup h2 hcell rfl
    simp only [Prod.mk.injEq, and_true] at this
    exact hne this
  refine ⟨?_, ?_, ?_, ?_, ?_⟩
  · intro n hn
    obtain ⟨c2, h2, -⟩ := hmem n hn
    exact ⟨r, c2, h2⟩
  · apply List.Nodup.map_on _ (others_nodup hcell)
    intro n1 h1 n2 h2 he
    obtain ⟨c1, k1, -⟩ := hmem n1 h1
    obtain ⟨c2, k2, -⟩ := hmem n2 h2
    rw [colOf_cell k1, colOf_cell k2] at he
    subst he
    have := cells_coord_inj hs.nodup k1 k2 rfl
    simp only [Prod.mk.injEq, and_true] at this
    exact this
  · intro d hd
    obtain ⟨n, hn, rfl⟩ := List.mem_map.mp hd
    obtain ⟨c2, h2, -⟩ := hmem n hn
    rw [colOf_cell h2]
    exact hs.col_lt _ (cells_mem_coords h2)
  · intro d hd
    obtain ⟨n, hn, rfl⟩ := List.mem_map.mp hd
    obtain ⟨c2, h2, hne⟩ := hmem n hn
    rw [colOf_cell h2]
    simp only [List.mem_cons, not_or]
    exact ⟨hcolne n c2 h2 hne, rowLive_iff.mp hlive c2 (cells_mem_coords h2)⟩
  · intro d
    simp only [List.mem_append, List.mem_reverse, List.mem_map, List.mem_cons, mem_rowColsOf]
    constructor
    · rintro (⟨n, hn, rfl⟩ | rfl | hd)
      · obtain ⟨c2, h2, -⟩ := hmem n hn
        rw [colOf_cell h2]
        exact Or.inl (cells_mem_coords h2)
      · exact Or.inl (cells_mem_coords hcell)
      · exact Or.inr hd
    · rintro (hd | hd)
      · by_cases hdc : d = c
        · exact Or.inr (Or.inl hdc)
        · obtain ⟨n, hn⟩ := mem_cellsFrom_of_mem (a := nc + 1) hd
          have hna : n ≠ a := by
            rintro rfl
            have := cells_addr_inj hn hcell rfl
            simp only [Prod.mk.injEq, true_and] at this
            exact hdc this
          exact Or.inl ⟨n, (mem_others hcell).mpr ⟨hna, d, hn⟩, colOf_cell hn⟩
      · exact Or.inr (Or.inr hd)

/-- The row loop of `solve`, given the contract of the recursive call. -/
theorem solveRows_spec {nc : Nat} {P : List (Nat × Nat)} {K : List Nat} {s : Heap}
    (hi : Inv nc P K s) {c : Nat} (hc : c < nc) (hcK : c ∉ K) {ga : Nat} {pr : Bool}
    {recur : SearchState → Option SearchState} (hrec : RecOK nc P ga pr recur)
    (hga : (liveCols nc K).length ≤ ga) (rest : List Nat) {pre : List Nat}
    (hL : colRing nc P (liveCell P K) c = pre ++ rest) {x fuel : Nat} {sol : List Int}
    {num : Int} {out : List (List Int)} (hx : (rest ++ [hdr c]).head? = some x)
    (hf : rest.length + 3 * P.length < fuel) :
    solveRows recur fuel (hdr c) x ⟨coverAbs nc P K s c, sol, num, out⟩ =
      some ⟨coverAbs nc P K s c, sol, countUp (rowsAbs nc P ga K rest).length num,
        out ++ emit pr sol (rowsAbs nc P ga K rest)⟩ := by
  induction rest generalizing pre x fuel num out with
  | nil =>
    cases fuel with
    | zero => simp at hf
    | succ fuel =>
      simp only [List.nil_append, List.head?_cons, Option.some.injEq] at hx
      simp [solveRows, hx, rowsAbs, emit, countUp_zero]
  | cons a rest ih =>
    cases fuel with
    | zero => simp at hf
    | succ fuel =>
      simp only [List.cons_append, List.head?_cons, Option.some.injEq] at hx
      subst hx
      have hmem : a ∈ colRing nc P (liveCell P K) c := by rw [hL]; simp
      obtain ⟨r, hcell, hlv⟩ := mem_colRing.mp hmem
      simp only [liveCell] at hlv
      have hne : a ≠ hdr c := fun e => hdr_not_mem_colRing nc P _ c c hc (e ▸ hmem)
      simp only [List.length_cons] at hf
      have hlen := others_length hcell
      have hi1 := cover_inv hi hc hcK
      obtain ⟨o1, o2, o3, o4, o5⟩ := others_cols hi.static (K := K) hcell hlv
      have hcov := coverRowCols_spec (a := a) (others nc P a) hi1
        (walk_others hi1.static hcell).1 o1 o2 o4 (by omega : _ < fuel)
      have hi2c := coverAll_inv ((others nc P a).map (colOf nc P)) hi1 o3 o2 o4
      have hi2 := Inv_congr o5 hi2c
      have hunc := uncoverRowCols_spec (a := a) (others nc P a) hi1
        (walk_others hi2.static hcell).2 o1 o2 o4 (by omega : _ < fuel)
      have hlt : (liveCols nc (rowColsOf P r ++ K)).length < ga := by
        have := @liveCols_length_lt nc K (rowColsOf P r ++ K) c hc hcK
          (by simp [mem_rowColsOf, cells_mem_coords hcell])
          (fun d hd => List.mem_append_right _ hd)
        omega
      have hrow : rowOf nc P a = r := rowOf_cell hcell
      have hrid : (coverAbs nc P K s c).rowID a = (r : Int) := hi1.static.rowID_cell _ hcell
      have hring := (cover_colRing hi hc hcK).1
      simp only [Cyc] at hring
      rw [hL, DSeg_append] at hring
      have hnext := DSeg_head hring.2
      have hrecv := hrec _ _ (sol ++ [(r : Int)]) num out hi2 hlt
      simp only [solveRows, hne, ↓reduceIte, hcov, hrid, hrecv, List.dropLast_concat, hunc]
      have hL2 : colRing nc P (liveCell P K) c = (pre ++ [a]) ++ rest := by rw [hL]; simp
      rw [ih hL2 hnext (by omega)]
      simp only [rowsAbs, List.flatMap_cons, hrow, emit_append, emit_cons_map,
        List.length_append, List.length_map, countUp_add, List.append_assoc]
theorem liveCols_length_le (nc : Nat) (K : List Nat) : (liveCols nc K).length ≤ nc := by
  have := List.length_filter_le (fun c => decide (c ∉ K)) (List.range nc)
  simpa [liveCols] using this

theorem rowsAbs_eq (nc : Nat) (P : List (Nat × Nat)) (ga : Nat) (K : List Nat) (c : Nat) :
    rowsAbs nc P ga K (colRing nc P (liveCell P K) c)
      = (colRows P K c).flatMap
          (fun r => (absSolve nc P ga (rowColsOf P r ++ K)).map (fun p => r :: p)) := by
  rw [← colRing_map_rowOf nc, List.flatMap_map]
  rfl

/-- Function `solve` refines the abstract search: with enough fuel it returns, restores
the arena and the `solution` vector, increments `numSolutions` once for each
row sequence found, and (when printing) writes them below `solution`. -/
theorem solve_spec {nc : Nat} {P : List (Nat × Nat)} (pr : Bool) (ga : Nat) {fuel : Nat}
    (hf : loopFuel nc P + ga ≤ fuel) : RecOK nc P ga pr (solve fuel 0 pr) := by
  induction ga generalizing fuel with
  | zero => intro K s sol num out _ h; simp at h
  | succ ga ih =>
    cases fuel with
    | zero => simp [loopFuel] at hf
    | succ fuel =>
      have hf2 : loopFuel nc P + ga ≤ fuel := by omega
      have hrec := ih hf2
      intro K s sol num out hi hlen
      have hring := hi.hring
      simp only [HRing, Cyc] at hring
      have hnd := hring_nodup nc K
      cases hlc : liveCols nc K with
      | nil =>
        rw [hlc] at hring
        simp only [List.map_nil, DSeg] at hring
        cases pr <;> simp [solve, hring.1, absSolve, hlc, emit, countUp_one]
      | cons c0 rest =>
        have hlle := liveCols_length_le nc K
        rw [hlc] at hring hnd hlen hlle
        have hr0 : s.right 0 = hdr c0 := by
          simp only [List.map_cons, DSeg] at hring; exact hring.1
        have hne0 : hdr c0 ≠ 0 := by simp [hdr]
        have hw : Walk s.right (s.right 0) ((c0 :: rest).map hdr) 0 :=
          DSeg_walk hring (List.nodup_cons.mp hnd).1
        have hcnt : ∀ d, d ∈ c0 :: c0 :: rest →
            s.nodeCount (hdr d) = (((fun c => (colRows P K c).length) d : Nat) : Int) := by
          intro d hd
          have hd2 : d ∈ liveCols nc K := by
            rw [hlc]; simp only [List.mem_cons] at hd ⊢; tauto
          obtain ⟨k1, k2⟩ := mem_liveCols.mp hd2
          rw [(hi.vrings d k1 k2).2]
          show _ = (((colRows P K d).length : Nat) : Int)
          rw [colRows_length nc]
        have hchoose := chooseCol_spec (c0 :: rest) hw hcnt
          (by simp only [loopFuel] at hf2; simp only [List.length_cons] at hlle ⊢; omega :
            (c0 :: rest).length < fuel)
        rw [hr0] at hchoose
        obtain ⟨c, hcdef⟩ :
            ∃ c, c = chooseAbs (fun c => (colRows P K c).length) c0 (c0 :: rest) := ⟨_, rfl⟩
        rw [← hcdef] at hchoose
        have hcm : c ∈ liveCols nc K := by
          have := chooseAbs_mem (fun c => (colRows P K c).length) c0 (c0 :: rest)
          rw [hlc, hcdef]; simp only [List.mem_cons] at this ⊢; tauto
        obtain ⟨hc, hcK⟩ := mem_liveCols.mp hcm
        have hP2 : 2 * P.length < fuel := by simp only [loopFuel] at hf2; omega
        have hcl := colRing_length_le nc P (liveCell P K) c
        have hvr := (cover_colRing hi hc hcK).1
        simp only [Cyc] at hvr
        have hrows : solveRows (solve fuel 0 pr) fuel (hdr c)
            ((coverAbs nc P K s c).down (hdr c)) ⟨coverAbs nc P K s c, sol, num, out⟩
            = some ⟨coverAbs nc P K s c, sol,
                countUp (rowsAbs nc P ga K (colRing nc P (liveCell P K) c)).length num,
                out ++ emit pr sol (rowsAbs nc P ga K (colRing nc P (liveCell P K) c))⟩ :=
          solveRows_spec hi hc hcK hrec
            (by rw [hlc]; simp only [List.length_cons] at hlen ⊢; omega)
            (colRing nc P (liveCell P K) c) (List.nil_append _).symm (DSeg_head hvr)
            (by simp only [loopFuel] at hf2; omega)
        simp only [solve, hr0, hne0, ↓reduceIte, hchoose, cover_eq hi hc hcK hP2, hrows,
          uncover_cover hi hc hcK hP2, absSolve, hlc, rowsAbs_eq, ← hcdef]
/-! ## The builder: one data node -/

theorem insertNode_snd (s : Heap) (r c hc : Nat) (rowHead : Option Nat) :
    (insertNode s r c hc rowHead).2 = s.next := by
  cases rowHead <;> rfl

theorem insertNode_vfields (s : Heap) (r c hc : Nat) (rowHead : Option Nat)
    (hne : hc ≠ s.next) :
    (∀ y, (insertNode s r c hc rowHead).1.down y
      = if y = s.next then hc else if y = s.up hc then s.next else s.down y) ∧
    (∀ y, (insertNode s r c hc rowHead).1.up y
      = if y = hc then s.next else if y = s.next then s.up hc else s.up y) ∧
    (∀ y, (insertNode s r c hc rowHead).1.nodeCount y
      = if y = hc then s.nodeCount hc + 1 else if y = s.next then 0 else s.nodeCount y) ∧
    (∀ y, (insertNode s r c hc rowHead).1.colHeader y
      = if y = s.next then hc else s.colHeader y) ∧
    (∀ y, (insertNode s r c hc rowHead).1.rowID y
      = if y = s.next then (r : Int) else s.rowID y) ∧
    (∀ y, (insertNode s r c hc rowHead).1.colID y
      = if y = s.next then (c : Int) else s.colID y) ∧
    (insertNode s r c hc rowHead).1.next = s.next + 1 := by
  cases rowHead <;>
  · refine ⟨?_, ?_, ?_, ?_, ?_, ?_, rfl⟩ <;> intro y <;>
      simp only [insertNode, newNode, Function.update_apply, hne, ↓reduceIte] <;>
      split_ifs <;> simp_all

theorem insertNode_hfields_none (s : Heap) (r c hc : Nat) :
    (∀ y, (insertNode s r c hc none).1.right y = if y = s.next then s.next else s.right y) ∧
    (∀ y, (insertNode s r c hc none).1.left y = if y = s.next then s.next else s.left y) := by
  constructor <;> intro y <;>
    simp only [insertNode, newNode, Function.update_apply] <;>
    split_ifs <;> simp_all

theorem insertNode_hfields_some (s : Heap) (r c hc rh : Nat) (hne : rh ≠ s.next) :
    (∀ y, (insertNode s r c hc (some rh)).1.right y
      = if y = s.next then rh else if y = s.left rh then s.next else s.right y) ∧
    (∀ y, (insertNode s r c hc (some rh)).1.left y
      = if y = rh then s.next else if y = s.next then s.left rh else s.left y) := by
  constructor <;> intro y <;>
    simp only [insertNode, newNode, Function.update_apply, hne, ↓reduceIte] <;>
    split_ifs <;> simp_all
theorem cells_length (nc : Nat) (P : List (Nat × Nat)) : (cells nc P).length = P.length := by
  have := congrArg List.length (cellsFrom_map_snd (nc + 1) P)
  simpa [cells] using this

theorem cells_snoc (nc : Nat) (P : List (Nat × Nat)) (x : Nat × Nat) :
    cells nc (P ++ [x]) = cells nc P ++ [(nc + 1 + P.length, x)] := by
  simp [cells, cellsFrom_append, cellsFrom]

theorem cells_lt {nc : Nat} {P : List (Nat × Nat)} {e : Cell} (h : e ∈ cells nc P) :
    e.1 < nc + 1 + P.length := (mem_cellsFrom h).2.1

theorem colRing_snoc (nc : Nat) (P : List (Nat × Nat)) (r c c2 : Nat) :
    colRing nc (P ++ [(r, c)]) (fun _ => true) c2
      = colRing nc P (fun _ => true) c2 ++ (if c = c2 then [nc + 1 + P.length] else []) := by
  simp only [colRing, cells_snoc, List.filter_append, List.map_append]
  congr 1
  by_cases h : c = c2 <;> simp [List.filter_cons, h]

theorem rowNodes_snoc (nc : Nat) (P : List (Nat × Nat)) (r c r2 : Nat) :
    rowNodes nc (P ++ [(r, c)]) r2
      = rowNodes nc P r2 ++ (if r = r2 then [nc + 1 + P.length] else []) := by
  simp only [rowNodes, cells_snoc, List.filter_append, List.map_append]
  congr 1
  by_cases h : r = r2 <;> simp [List.filter_cons, h]

theorem colRing_lt {nc : Nat} {P : List (Nat × Nat)} {lv : Cell → Bool} {c n : Nat}
    (h : n ∈ colRing nc P lv c) : nc < n ∧ n < nc + 1 + P.length := by
  obtain ⟨r, h1, -⟩ := mem_colRing.mp h
  exact ⟨cells_gt h1, cells_lt h1⟩

theorem rowNodes_lt {nc : Nat} {P : List (Nat × Nat)} {r n : Nat}
    (h : n ∈ rowNodes nc P r) : nc < n ∧ n < nc + 1 + P.length := by
  obtain ⟨c, h1⟩ := mem_rowNodes.mp h
  exact ⟨cells_gt h1, cells_lt h1⟩

theorem rowNodes_disjoint {nc : Nat} {P : List (Nat × Nat)} {r r2 n : Nat}
    (h1 : n ∈ rowNodes nc P r) (h2 : n ∈ rowNodes nc P r2) : r = r2 := by
  obtain ⟨c, k1⟩ := mem_rowNodes.mp h1
  obtain ⟨c2, k2⟩ := mem_rowNodes.mp h2
  have := cells_addr_inj k1 k2 rfl
  simp only [Prod.mk.injEq, true_and] at this
  exact this.1

theorem DSeg_anchor_prev {nxt prv : Nat → Nat} {a : Nat} {l : List Nat}
    (h : DSeg nxt prv a l a) : prv a ∈ a :: l :=
  List.mem_of_getLast?_eq_some (DSeg_last h)
/-- The body of the inner loop of `createNodes` extends the graph by the data
node of one more set bit. -/
theorem Built_insertNode {nc : Nat} {P : List (Nat × Nat)} {s : Heap} (hb : Built nc P s)
    (r : Nat) {c : Nat} (hc : c < nc) :
    Built nc (P ++ [(r, c)]) (insertNode s r c (hdr c) (rowNodes nc P r).head?).1 := by
  have hnext := hb.next_eq
  have hhc : hdr c ≠ s.next := by rw [hnext]; simp only [hdr]; omega
  obtain ⟨fd, fu, fc, fh, fr, fi, fn⟩ :=
    insertNode_vfields s r c (hdr c) (rowNodes nc P r).head? hhc
  have hcellne : ∀ e, e ∈ cells nc P → e.1 ≠ s.next := by
    intro e he; have := cells_lt he; omega
  have hvr := hb.vrings c hc trivial
  have hcyc := hvr.1
  simp only [Cyc] at hcyc
  have hcnd : (hdr c :: colRing nc P (fun _ => true) c).Nodup :=
    List.nodup_cons.mpr ⟨hdr_not_mem_colRing nc P _ c c hc, colRing_nodup nc P _ c⟩
  have hlast := DSeg_anchor_prev hcyc
  have hlastne : s.up (hdr c) ≠ s.next := by
    simp only [List.mem_cons] at hlast
    rcases hlast with h | h
    · rw [h]; exact hhc
    · have := (colRing_lt h).2; omega
  have hlast0 : s.up (hdr c) ≠ 0 := by
    simp only [List.mem_cons] at hlast
    rcases hlast with h | h
    · rw [h]; simp [hdr]
    · have := (colRing_lt h).1; omega
  -- the horizontal fields away from the data nodes
  have hh : (∀ y, y ≤ nc → (insertNode s r c (hdr c) (rowNodes nc P r).head?).1.right y
        = s.right y ∧ (insertNode s r c (hdr c) (rowNodes nc P r).head?).1.left y = s.left y) ∧
      (∀ r2, Cyc (insertNode s r c (hdr c) (rowNodes nc P r).head?).1.right
        (insertNode s r c (hdr c) (rowNodes nc P r).head?).1.left
        (rowNodes nc (P ++ [(r, c)]) r2)) := by
    cases hrn : rowNodes nc P r with
    | nil =>
      simp only [List.head?_nil]
      obtain ⟨gr, gl⟩ := insertNode_hfields_none s r c (hdr c)
      constructor
      · intro y hy
        have : y ≠ s.next := by omega
        simp [gr, gl, this]
      · intro r2
        rw [rowNodes_snoc]
        by_cases hr : r = r2
        · subst hr
          simp [hrn, Cyc, DSeg, gr, gl, ← hnext]
        · simp only [hr, ↓reduceIte, List.append_nil]
          apply Cyc_congr (hb.rows r2)
          · intro y hy
            have := (rowNodes_lt hy).2
            rw [gr, if_neg (by omega)]
          · intro y hy
            have := (rowNodes_lt hy).2
            rw [gl, if_neg (by omega)]
    | cons rh l =>
      simp only [List.head?_cons]
      have hrhm : rh ∈ rowNodes nc P r := by rw [hrn]; simp
      have hrhlt := rowNodes_lt hrhm
      have hrhne : rh ≠ s.next := by omega
      obtain ⟨gr, gl⟩ := insertNode_hfields_some s r c (hdr c) rh hrhne
      have hrow := hb.rows r
      rw [hrn] at hrow
      simp only [Cyc] at hrow
      have hrnd : (rh :: l).Nodup := by rw [← hrn]; exact rowNodes_nodup nc P r
      have hlr := DSeg_anchor_prev hrow
      rw [← hrn] at hlr
      have hlrlt := rowNodes_lt hlr
      constructor
      · intro y hy
        have h1 : y ≠ s.next := by omega
        have h2 : y ≠ s.left rh := by omega
        have h3 : y ≠ rh := by omega
        simp [gr, gl, h1, h2, h3]
      · intro r2
        rw [rowNodes_snoc]
        by_cases hr : r = r2
        · subst hr
          simp only [↓reduceIte, hrn, Cyc, ← hnext]
          apply DSeg_insert_last hrow hrnd
          · rw [gr, if_neg (by omega), if_pos rfl]
          · rw [gr, if_pos rfl]
          · intro y hy hyne
            have : y ≠ s.next := by
              rw [← hrn] at hy; have := (rowNodes_lt hy).2; omega
            rw [gr, if_neg this, if_neg hyne]
          · rw [gl, if_pos rfl]
          · rw [gl, if_neg (by omega), if_pos rfl]
          · intro y hy
            have h1 : y ≠ s.next := by
              have : y ∈ rowNodes nc P r := by rw [hrn]; exact List.mem_cons_of_mem _ hy
              have := (rowNodes_lt this).2; omega
            have h2 : y ≠ rh := fun e => (List.nodup_cons.mp hrnd).1 (e ▸ hy)
            rw [gl, if_neg h2, if_neg h1]
        · simp only [hr, ↓reduceIte, List.append_nil]
          apply Cyc_congr (hb.rows r2)
          · intro y hy
            have := (rowNodes_lt hy).2
            have h2 : y ≠ s.left rh := fun e => hr (rowNodes_disjoint hlr (e ▸ hy))
            rw [gr, if_neg (by omega), if_neg h2]
          · intro y hy
            have := (rowNodes_lt hy).2
            have h2 : y ≠ rh := fun e => hr (rowNodes_disjoint hrhm (e ▸ hy))
            rw [gl, if_neg h2, if_neg (by omega)]
  obtain ⟨hh1, hh2⟩ := hh
  refine ⟨?_, ?_, ?_, ?_, hh2, ?_, ?_, ?_, ?_⟩
  · rw [fn, hnext]; simp only [List.length_append, List.length_singleton]; omega
  · intro e he
    rw [cells_snoc, List.mem_append, List.mem_singleton] at he
    rcases he with he | rfl
    · rw [fh, if_neg (hcellne e he)]; exact hb.colHeader_cell e he
    · rw [fh, ← hnext, if_pos rfl]
  · intro e he
    rw [cells_snoc, List.mem_append, List.mem_singleton] at he
    rcases he with he | rfl
    · rw [fr, if_neg (hcellne e he)]; exact hb.rowID_cell e he
    · rw [fr, ← hnext, if_pos rfl]
  · intro e he
    rw [cells_snoc, List.mem_append, List.mem_singleton] at he
    rcases he with he | rfl
    · rw [fi, if_neg (hcellne e he)]; exact hb.colID_cell e he
    · rw [fi, ← hnext, if_pos rfl]
  · apply Cyc_congr hb.hring
    · intro y hy; exact (hh1 y (hring_le hy)).1
    · intro y hy; exact (hh1 y (hring_le hy)).2
  · intro c2 hc2 _
    rw [colRing_snoc]
    by_cases hcc : c = c2
    · subst hcc
      simp only [↓reduceIte, ← hnext]
      constructor
      · simp only [Cyc]
        apply DSeg_insert_last hcyc hcnd
        · rw [fd, if_neg hlastne, if_pos rfl]
        · rw [fd, if_pos rfl]
        · intro y hy hyne
          have : y ≠ s.next := by
            simp only [List.mem_cons] at hy
            rcases hy with h | h
            · rw [h]; exact hhc
            · have := (colRing_lt h).2; omega
          rw [fd, if_neg this, if_neg hyne]
        · rw [fu, if_pos rfl]
        · rw [fu, if_neg (Ne.symm hhc), if_pos rfl]
        · intro y hy
          have h1 : y ≠ s.next := by have := (colRing_lt hy).2; omega
          have h2 : y ≠ hdr c := fun e => (List.nodup_cons.mp hcnd).1 (e ▸ hy)
          rw [fu, if_neg h2, if_neg h1]
      · rw [fc, if_pos rfl, hvr.2]
        simp
    · simp only [hcc, ↓reduceIte, List.append_nil]
      obtain ⟨k1, k2⟩ := hb.vrings c2 hc2 trivial
      have hmemlt : ∀ y, y ∈ hdr c2 :: colRing nc P (fun _ => true) c2 → y ≠ s.next := by
        intro y hy
        simp only [List.mem_cons] at hy
        rcases hy with h | h
        · rw [h, hnext]; simp only [hdr]; omega
        · have := (colRing_lt h).2; omega
      constructor
      · apply Cyc_congr k1
        · intro y hy
          have h2 : y ≠ s.up (hdr c) :=
            ring_disjoint hy hlast hc2 hc (fun e => hcc e.symm)
          rw [fd, if_neg (hmemlt y hy), if_neg h2]
        · intro y hy
          have h2 : y ≠ hdr c :=
            ring_disjoint hy
              (List.mem_cons_self _ _ : hdr c ∈ hdr c :: colRing nc P (fun _ => true) c)
              hc2 hc (fun e => hcc e.symm)
          rw [fu, if_neg h2, if_neg (hmemlt y hy)]
      · have h1 : hdr c2 ≠ hdr c := fun e => hcc (hdr_injective e).symm
        rw [fc, if_neg h1, if_neg (hmemlt _ (by simp))]
        exact k2
  · intro c2 hc2
    have h1 : hdr c2 ≠ s.next := by rw [hnext]; simp only [hdr]; omega
    rw [fh, fr, fi, if_neg h1, if_neg h1, if_neg h1]
    exact hb.hdr_fields c2 hc2
  · have h1 : (0 : Nat) ≠ s.next := by omega
    have h2 : (0 : Nat) ≠ hdr c := by simp [hdr]
    rw [fr, fi, fu, fd, fh, fc, if_neg h1, if_neg h1, if_neg h2, if_neg h1, if_neg h1,
      if_neg (Ne.symm hlast0), if_neg h1, if_neg h2, if_neg h1]
    exact hb.master_fields
/-! ## The builder: master node and header ring -/

theorem newNode_spec (s : Heap) (r c : Int) :
    (newNode s r c).1 = s.next ∧ (newNode s r c).2.next = s.next + 1 ∧
    FreshAt (newNode s r c).2 s.next r c ∧
    (∀ y, y ≠ s.next → SameAt s (newNode s r c).2 y) := by
  refine ⟨rfl, rfl, ?_, ?_⟩
  · simp [FreshAt, newNode]
  · intro y hy
    simp [SameAt, newNode, Function.update_noteq hy]

theorem SameAt_trans {s t u : Heap} {y : Nat} (h1 : SameAt s t y) (h2 : SameAt t u y) :
    SameAt s u y := by
  obtain ⟨a1, a2, a3, a4, a5, a6, a7, a8⟩ := h1
  obtain ⟨b1, b2, b3, b4, b5, b6, b7, b8⟩ := h2
  exact ⟨b1.trans a1, b2.trans a2, b3.trans a3, b4.trans a4, b5.trans a5, b6.trans a6,
    b7.trans a7, b8.trans a8⟩

theorem FreshAt_of_SameAt {s t : Heap} {y : Nat} {r c : Int} (h1 : FreshAt s y r c)
    (h2 : SameAt s t y) : FreshAt t y r c := by
  obtain ⟨a1, a2, a3, a4, a5, a6, a7, a8⟩ := h1
  obtain ⟨b1, b2, b3, b4, b5, b6, b7, b8⟩ := h2
  exact ⟨b1.trans a1, b2.trans a2, b3.trans a3, b4.trans a4, b5.trans a5, b6.trans a6,
    b7.trans a7, b8.trans a8⟩

/-- The first loop of `createHeaderList` allocates `k` consecutive fresh
header nodes. -/
theorem allocHeaders_spec (k i : Nat) (s : Heap) :
    (allocHeaders k i s).1 = List.range' s.next k ∧
    (allocHeaders k i s).2.next = s.next + k ∧
    (∀ j, j < k → FreshAt (allocHeaders k i s).2 (s.next + j) (-1) ((i + j : Nat) : Int)) ∧
    (∀ y, y < s.next → SameAt s (allocHeaders k i s).2 y) := by
  induction k generalizing i s with
  | zero =>
    refine ⟨rfl, rfl, ?_, ?_⟩
    · intro j hj; omega
    · intro y _; simp [allocHeaders, SameAt]
  | succ k ih =>
    obtain ⟨n1, n2, n3, n4⟩ := newNode_spec s (-1) (i : Int)
    obtain ⟨i1, i2, i3, i4⟩ := ih (i + 1) (newNode s (-1) (i : Int)).2
    rw [n2] at i1 i2 i3 i4
    refine ⟨?_, ?_, ?_, ?_⟩
    · simp only [allocHeaders, n1, i1, List.range'_succ]
    · simp only [allocHeaders, i2]; omega
    · intro j hj
      simp only [allocHeaders]
      cases j with
      | zero =>
        have := i4 s.next (by omega)
        simpa using FreshAt_of_SameAt n3 this
      | succ j =>
        have := i3 j (by omega)
        have e1 : s.next + (j + 1) = s.next + 1 + j := by omega
        have e2 : i + (j + 1) = i + 1 + j := by omega
        rw [e1, e2]; exact this
    · intro y hy
      simp only [allocHeaders]
      exact SameAt_trans (n4 y (by omega)) (i4 y (by omega))

theorem linkHeaders_append (headers : List Nat) (nc : Nat) (l1 l2 : List Nat) (s : Heap) :
    linkHeaders headers nc (l1 ++ l2) s = linkHeaders headers nc l2 (linkHeaders headers nc l1 s) := by
  induction l1 generalizing s with
  | nil => rfl
  | cons i l1 ih =>
    show linkHeaders headers nc (l1 ++ l2) _ = _
    rw [ih]; rfl

theorem linkHorizontal_spec (s : Heap) (a b : Nat) :
    (linkHorizontal s a b).right = Function.update s.right a b ∧
    (linkHorizontal s a b).left = Function.update s.left b a ∧
    (linkHorizontal s a b).up = s.up ∧ (linkHorizontal s a b).down = s.down ∧
    (linkHorizontal s a b).rowID = s.rowID ∧ (linkHorizontal s a b).colID = s.colID ∧
    (linkHorizontal s a b).nodeCount = s.nodeCount ∧
    (linkHorizontal s a b).colHeader = s.colHeader ∧
    (linkHorizontal s a b).next = s.next :=
  ⟨rfl, rfl, rfl, rfl, rfl, rfl, rfl, rfl, rfl⟩

theorem linkHeaders_fields (headers : List Nat) (nc : Nat) (l : List Nat) (s : Heap) :
    (linkHeaders headers nc l s).up = s.up ∧ (linkHeaders headers nc l s).down = s.down ∧
    (linkHeaders headers nc l s).rowID = s.rowID ∧ (linkHeaders headers nc l s).colID = s.colID ∧
    (linkHeaders headers nc l s).nodeCount = s.nodeCount ∧
    (linkHeaders headers nc l s).colHeader = s.colHeader ∧
    (linkHeaders headers nc l s).next = s.next := by
  induction l generalizing s with
  | nil => exact ⟨rfl, rfl, rfl, rfl, rfl, rfl, rfl⟩
  | cons i l ih =>
    simp only [linkHeaders]
    obtain ⟨a1, a2, a3, a4, a5, a6, a7⟩ := ih
      (linkHorizontal s (headers.getD i 0) (headers.getD ((i + 1) % nc) 0))
    exact ⟨a1, a2, a3, a4, a5, a6, a7⟩

theorem range'_getD (a k i : Nat) (h : i < k) : (List.range' a k).getD i 0 = a + i := by
  rw [List.getD_eq_getElem _ _ (by simpa using h)]
  simp

/-- The second loop of `createHeaderList`, up to (not including) the step
that wraps around: header `i` is linked to header `i + 1`. -/
theorem linkHeaders_chain (nc k : Nat) (s : Heap) (hk : k + 1 ≤ nc) :
    (∀ i, i < k → (linkHeaders (List.range' 1 nc) nc (List.range k) s).right (hdr i) = hdr (i + 1) ∧
      (linkHeaders (List.range' 1 nc) nc (List.range k) s).left (hdr (i + 1)) = hdr i) ∧
    (∀ y, (y = 0 ∨ k < y) →
      (linkHeaders (List.range' 1 nc) nc (List.range k) s).right y = s.right y) ∧
    (∀ y, (y ≤ 1 ∨ k + 1 < y) →
      (linkHeaders (List.range' 1 nc) nc (List.range k) s).left y = s.left y) := by
  induction k with
  | zero =>
    refine ⟨?_, ?_, ?_⟩
    · intro i hi; omega
    · intro y _; rfl
    · intro y _; rfl
  | succ k ih =>
    obtain ⟨i1, i2, i3⟩ := ih (by omega)
    rw [List.range_succ, linkHeaders_append]
    simp only [linkHeaders]
    have e1 : (List.range' 1 nc).getD k 0 = hdr k := by
      rw [range'_getD 1 nc k (by omega)]; simp only [hdr]; omega
    have e2 : (List.range' 1 nc).getD ((k + 1) % nc) 0 = hdr (k + 1) := by
      rw [Nat.mod_eq_of_lt (by omega), range'_getD 1 nc (k + 1) (by omega)]
      simp only [hdr]; omega
    rw [e1, e2]
    obtain ⟨l1, l2, -⟩ := linkHorizontal_spec
      (linkHeaders (List.range' 1 nc) nc (List.range k) s) (hdr k) (hdr (k + 1))
    rw [l1, l2]
    refine ⟨?_, ?_, ?_⟩
    · intro i hi
      by_cases hik : i = k
      · subst hik; simp
      · have h1 : hdr i ≠ hdr k := fun e => hik (hdr_injective e)
        have h2 : hdr (i + 1) ≠ hdr (k + 1) := fun e => hik (by have := hdr_injective e; omega)
        rw [Function.update_noteq h1, Function.update_noteq h2]
        exact i1 i (by omega)
    · intro y hy
      have h1 : y ≠ hdr k := by simp only [hdr]; omega
      rw [Function.update_noteq h1]
      exact i2 y (by omega)
    · intro y hy
      have h1 : y ≠ hdr (k + 1) := by simp only [hdr]; omega
      rw [Function.update_noteq h1]
      exact i3 y (by omega)
theorem DSeg_chain (f g : Nat → Nat) (b : Nat) (m a : Nat)
    (h1 : ∀ i, a ≤ i → i < a + m → f (hdr i) = hdr (i + 1) ∧ g (hdr (i + 1)) = hdr i)
    (h2 : f (hdr (a + m)) = b) (h3 : g b = hdr (a + m)) :
    DSeg f g (hdr a) ((List.range' (a + 1) m).map hdr) b := by
  induction m generalizing a with
  | zero => simpa [DSeg] using ⟨h2, h3⟩
  | succ m ih =>
    simp only [List.range'_succ, List.map_cons, DSeg]
    obtain ⟨k1, k2⟩ := h1 a (by omega) (by omega)
    refine ⟨k1, k2, ih (a + 1) ?_ ?_ ?_⟩
    · intro i hi1 hi2; exact h1 i (by omega) (by omega)
    · rw [← h2]; congr 2; omega
    · rw [h3]; congr 1; omega

theorem liveCols_nil (nc : Nat) : liveCols nc [] = List.range nc := by
  simp [liveCols]

theorem headerHeap_spec (nc : Nat) (hnc : 0 < nc) :
    (createHeaderList (linkHorizontal (newNode emptyHeap (-1) (-1)).2 0 0) nc).1
      = List.range' 1 nc ∧ Built nc [] (headerHeap nc) := by
  obtain ⟨n1, n2, n3, n4⟩ := newNode_spec emptyHeap (-1) (-1)
  have e0 : emptyHeap.next = 0 := rfl
  rw [e0] at n1 n2 n3 n4
  obtain ⟨a1, a2, a3, a4, a5, a6, a7, a8, a9⟩ :=
    linkHorizontal_spec (newNode emptyHeap (-1) (-1)).2 0 0
  obtain ⟨b1, b2, b3, b4⟩ :=
    allocHeaders_spec nc 0 (linkHorizontal (newNode emptyHeap (-1) (-1)).2 0 0)
  rw [a9, n2] at b1 b2 b3 b4
  simp only [Nat.zero_add] at b1 b2 b3 b4
  have hcl : createHeaderList (linkHorizontal (newNode emptyHeap (-1) (-1)).2 0 0) nc
      = (List.range' 1 nc, linkHeaders (List.range' 1 nc) nc (List.range nc)
          (allocHeaders nc 0 (linkHorizontal (newNode emptyHeap (-1) (-1)).2 0 0)).2) := by
    simp only [createHeaderList, b1]
  refine ⟨by rw [hcl], ?_⟩
  obtain ⟨m, rfl⟩ : ∃ m, nc = m + 1 := ⟨nc - 1, by omega⟩
  obtain ⟨c1, c2, c3, c4, c5, c6, c7⟩ := linkHeaders_fields (List.range' 1 (m + 1)) (m + 1)
    (List.range (m + 1)) (allocHeaders (m + 1) 0 (linkHorizontal (newNode emptyHeap (-1) (-1)).2 0 0)).2
  obtain ⟨d1, d2, d3⟩ := linkHeaders_chain (m + 1) m
    (allocHeaders (m + 1) 0 (linkHorizontal (newNode emptyHeap (-1) (-1)).2 0 0)).2 (le_refl _)
  have e1 : (List.range' 1 (m + 1)).getD m 0 = hdr m := by
    rw [range'_getD 1 (m + 1) m (by omega)]; simp only [hdr]; omega
  have e2 : (List.range' 1 (m + 1)).getD ((m + 1) % (m + 1)) 0 = hdr 0 := by
    rw [Nat.mod_self, range'_getD 1 (m + 1) 0 (by omega)]; rfl
  have hR : (headerHeap (m + 1)).right
      = Function.update (Function.update (Function.update
          (linkHeaders (List.range' 1 (m + 1)) (m + 1) (List.range m)
            (allocHeaders (m + 1) 0 (linkHorizontal (newNode emptyHeap (-1) (-1)).2 0 0)).2).right
          (hdr m) (hdr 0)) 0 (hdr 0)) (hdr m) 0 := by
    simp only [headerHeap, hcl, List.range_succ, linkHeaders_append, linkHeaders, e1, e2,
      Nat.add_sub_cancel]
    rfl
  have hL : (headerHeap (m + 1)).left
      = Function.update (Function.update (Function.update
          (linkHeaders (List.range' 1 (m + 1)) (m + 1) (List.range m)
            (allocHeaders (m + 1) 0 (linkHorizontal (newNode emptyHeap (-1) (-1)).2 0 0)).2).left
          (hdr 0) (hdr m)) (hdr 0) 0) 0 (hdr m) := by
    simp only [headerHeap, hcl, List.range_succ, linkHeaders_append, linkHeaders, e1, e2,
      Nat.add_sub_cancel]
    rfl
  have hfix : (headerHeap (m + 1)).up
        = (allocHeaders (m + 1) 0 (linkHorizontal (newNode emptyHeap (-1) (-1)).2 0 0)).2.up ∧
      (headerHeap (m + 1)).down
        = (allocHeaders (m + 1) 0 (linkHorizontal (newNode emptyHeap (-1) (-1)).2 0 0)).2.down ∧
      (headerHeap (m + 1)).rowID
        = (allocHeaders (m + 1) 0 (linkHorizontal (newNode emptyHeap (-1) (-1)).2 0 0)).2.rowID ∧
      (headerHeap (m + 1)).colID
        = (allocHeaders (m + 1) 0 (linkHorizontal (newNode emptyHeap (-1) (-1)).2 0 0)).2.colID ∧
      (headerHeap (m + 1)).nodeCount
        = (allocHeaders (m + 1) 0
            (linkHorizontal (newNode emptyHeap (-1) (-1)).2 0 0)).2.nodeCount ∧
      (headerHeap (m + 1)).colHeader
        = (allocHeaders (m + 1) 0
            (linkHorizontal (newNode emptyHeap (-1) (-1)).2 0 0)).2.colHeader ∧
      (headerHeap (m + 1)).next
        = (allocHeaders (m + 1) 0 (linkHorizontal (newNode emptyHeap (-1) (-1)).2 0 0)).2.next := by
    simp only [headerHeap, hcl]
    exact ⟨c1, c2, c3, c4, c5, c6, c7⟩
  obtain ⟨f1, f2, f3, f4, f5, f6, f7⟩ := hfix
  have hfresh : ∀ c, c < m + 1 → FreshAt
      (allocHeaders (m + 1) 0 (linkHorizontal (newNode emptyHeap (-1) (-1)).2 0 0)).2
      (hdr c) (-1) (c : Int) := by
    intro c hc
    have := b3 c hc
    simp only [Nat.zero_add] at this
    have e : hdr c = 1 + c := by simp only [hdr]; omega
    rw [e]; exact this
  have hm0 := b4 0 (by omega)
  refine ⟨?_, ?_, ?_, ?_, ?_, ?_, ?_, ?_, ?_⟩
  · rw [f7, b2]; simp; omega
  · intro e he; simp [cells, cellsFrom] at he
  · intro e he; simp [cells, cellsFrom] at he
  · intro e he; simp [cells, cellsFrom] at he
  · intro r; simp [rowNodes, cells, cellsFrom, Cyc]
  · simp only [HRing, Cyc, liveCols_nil, List.range_eq_range', List.range'_succ,
      List.map_cons, DSeg]
    have h0m : (0 : Nat) ≠ hdr m := by simp [hdr]
    have hm0' : hdr 0 ≠ 0 := by simp [hdr]
    refine ⟨?_, ?_, ?_⟩
    · rw [hR, Function.update_noteq h0m, Function.update_same]
    · rw [hL, Function.update_noteq hm0', Function.update_same]
    · have := DSeg_chain (headerHeap (m + 1)).right (headerHeap (m + 1)).left 0 m 0 ?_ ?_ ?_
      · simpa using this
      · intro i _ hi
        have g1 : hdr i ≠ hdr m := fun e => by have := hdr_injective e; omega
        have g2 : hdr i ≠ 0 := by simp [hdr]
        have g3 : hdr (i + 1) ≠ 0 := by simp [hdr]
        have g4 : hdr (i + 1) ≠ hdr 0 := fun e => by have := hdr_injective e; omega
        rw [hR, hL, Function.update_noteq g1, Function.update_noteq g2,
          Function.update_noteq g1, Function.update_noteq g3, Function.update_noteq g4,
          Function.update_noteq g4]
        exact d1 i (by omega)
      · rw [hR, Nat.zero_add, Function.update_same]
      · rw [hL, Nat.zero_add, Function.update_same]
  · intro c hc _
    obtain ⟨-, -, g3, g4, -, -, g7, -⟩ := hfresh c hc
    simp only [colRing, cells, cellsFrom, List.filter_nil, List.map_nil, Cyc, DSeg,
      List.length_nil, Nat.cast_zero]
    rw [f1, f2, f5]
    exact ⟨⟨g4, g3⟩, g7⟩
  · intro c hc
    obtain ⟨-, -, -, -, g5, g6, -, g8⟩ := hfresh c hc
    rw [f3, f4, f6]
    exact ⟨g8, g5, g6⟩
  · obtain ⟨-, -, g3, g4, g5, g6, g7, g8⟩ := hm0
    obtain ⟨-, -, k3, k4, k5, k6, k7, k8⟩ := n3
    rw [f1, f2, f3, f4, f5, f6, g3, g4, g5, g6, g7, g8, a3, a4, a5, a6, a7, a8]
    exact ⟨k5, k6, k3, k4, k8, k7⟩
/-! ## The builder: createNodes -/

theorem mem_rowCoords {row : List Char} {r k c : Nat} {x : Nat × Nat} :
    x ∈ rowCoords row r k c ↔
      x.1 = r ∧ c ≤ x.2 ∧ x.2 < c + k ∧ strAt row (2 * x.2) = some '1' := by
  induction k generalizing c with
  | zero =>
    simp only [rowCoords, List.not_mem_nil, false_iff, not_and]
    intro _ h1 h2; omega
  | succ k ih =>
    simp only [rowCoords]
    split_ifs with h
    · simp only [List.mem_cons, ih]
      constructor
      · rintro (rfl | ⟨h1, h2, h3, h4⟩)
        · exact ⟨rfl, le_refl _, by omega, h⟩
        · exact ⟨h1, by omega, by omega, h4⟩
      · rintro ⟨h1, h2, h3, h4⟩
        by_cases hc : x.2 = c
        · left; ext <;> simp [h1, hc]
        · right; exact ⟨h1, by omega, by omega, h4⟩
    · rw [ih]
      constructor
      · rintro ⟨h1, h2, h3, h4⟩
        exact ⟨h1, by omega, by omega, h4⟩
      · rintro ⟨h1, h2, h3, h4⟩
        have hc : x.2 ≠ c := by rintro rfl; exact h h4
        exact ⟨h1, by omega, by omega, h4⟩

theorem rowCoords_nodup (row : List Char) (r k c : Nat) : (rowCoords row r k c).Nodup := by
  induction k generalizing c with
  | zero => simp [rowCoords]
  | succ k ih =>
    simp only [rowCoords]
    split_ifs with h
    · refine List.nodup_cons.mpr ⟨?_, ih (c + 1)⟩
      rw [mem_rowCoords]
      simp
    · exact ih (c + 1)

theorem mem_dataCoords {nc : Nat} {data : List (List Char)} {r0 : Nat} {x : Nat × Nat} :
    x ∈ dataCoords nc data r0 ↔
      r0 ≤ x.1 ∧ x.1 < r0 + data.length ∧ x.2 < nc ∧
        strAt (data.getD (x.1 - r0) []) (2 * x.2) = some '1' := by
  induction data generalizing r0 with
  | nil =>
    simp only [dataCoords, List.not_mem_nil, List.length_nil, false_iff, not_and]
    intro h1 h2; omega
  | cons row rest ih =>
    simp only [dataCoords, List.mem_append, mem_rowCoords, ih, List.length_cons]
    constructor
    · rintro (⟨h1, -, h3, h4⟩ | ⟨h1, h2, h3, h4⟩)
      · refine ⟨by omega, by omega, by omega, ?_⟩
        rw [h1, Nat.sub_self]; exact h4
      · refine ⟨by omega, by omega, h3, ?_⟩
        have e : x.1 - r0 = (x.1 - (r0 + 1)) + 1 := by omega
        rw [e, List.getD_cons_succ]; exact h4
    · rintro ⟨h1, h2, h3, h4⟩
      by_cases hr : x.1 = r0
      · left
        rw [hr, Nat.sub_self] at h4
        exact ⟨hr, by omega, by omega, h4⟩
      · right
        have e : x.1 - r0 = (x.1 - (r0 + 1)) + 1 := by omega
        rw [e, List.getD_cons_succ] at h4
        exact ⟨by omega, by omega, h3, h4⟩

theorem dataCoords_nodup (nc : Nat) (data : List (List Char)) (r0 : Nat) :
    (dataCoords nc data r0).Nodup := by
  induction data generalizing r0 with
  | nil => simp [dataCoords]
  | cons row rest ih =>
    simp only [dataCoords]
    refine List.nodup_append.mpr ⟨rowCoords_nodup _ _ _ _, ih (r0 + 1), ?_⟩
    intro x h1 h2
    rw [mem_rowCoords] at h1
    rw [mem_dataCoords] at h2
    omega

/-- The set bits of the input are the pairs `(r, c)` with `r` a row, `c` a
column and the entry `'1'`. -/
theorem mem_coords {nc : Nat} {data : List (List Char)} {r c : Nat} :
    (r, c) ∈ coords nc data ↔ r < data.length ∧ c < nc ∧ bit data r c = true := by
  simp only [coords, mem_dataCoords, bit, decide_eq_true_eq, Nat.sub_zero, Nat.zero_add]
  constructor
  · rintro ⟨-, h2, h3, h4⟩; exact ⟨h2, h3, h4⟩
  · rintro ⟨h2, h3, h4⟩; exact ⟨Nat.zero_le _, h2, h3, h4⟩

theorem coords_nodup (nc : Nat) (data : List (List Char)) : (coords nc data).Nodup :=
  dataCoords_nodup nc data 0

theorem coords_col_lt {nc : Nat} {data : List (List Char)} {x : Nat × Nat}
    (h : x ∈ coords nc data) : x.2 < nc := (mem_dataCoords.mp h).2.2.1

theorem range'_map_hdr (c k : Nat) : (List.range' c k).map hdr = List.range' (c + 1) k := by
  induction k generalizing c with
  | zero => rfl
  | succ k ih => simp [List.range'_succ, ih, hdr]

theorem rowNodes_head_snoc (nc : Nat) (P : List (Nat × Nat)) (r c : Nat) :
    (rowNodes nc (P ++ [(r, c)]) r).head?
      = some ((rowNodes nc P r).head?.getD (nc + 1 + P.length)) := by
  rw [rowNodes_snoc]
  cases rowNodes nc P r <;> simp

/-- The inner loop of `createNodes` creates the data nodes of the set bits of
the row, when every read stays inside the row text. -/
theorem createRow_spec {nc : Nat} (row : List Char) (r : Nat)
    (hrow : ∀ c, c < nc → 2 * c ≤ row.length) (k : Nat) {c : Nat} {P : List (Nat × Nat)}
    {s : Heap} (hck : c + k = nc) (hb : Built nc P s) :
    ∃ s2, createRow row r (List.range' (c + 1) k) c s (rowNodes nc P r).head? = some s2 ∧
      Built nc (P ++ rowCoords row r k c) s2 := by
  induction k generalizing c P s with
  | zero => exact ⟨s, rfl, by simpa [rowCoords] using hb⟩
  | succ k ih =>
    have hc : c < nc := by omega
    have hr := hrow c hc
    have hsome : ∃ ch, strAt row (2 * c) = some ch := by
      simp only [strAt]
      by_cases h1 : 2 * c < row.length
      · simp only [h1, ↓reduceIte]
        exact ⟨row[2 * c], List.get?_eq_get h1⟩
      · have : 2 * c = row.length := by omega
        simp [this]
    obtain ⟨ch, hch⟩ := hsome
    simp only [List.range'_succ, createRow, hch, rowCoords]
    by_cases h1 : ch = '1'
    · subst h1
      simp only [↓reduceIte]
      have hb2 := Built_insertNode hb r hc
      have hsnd := insertNode_snd s r c (hdr c) (rowNodes nc P r).head?
      have hhead := rowNodes_head_snoc nc P r c
      rw [← hb.next_eq, ← hsnd] at hhead
      obtain ⟨s2, h2, h3⟩ := ih (c := c + 1) (by omega) hb2
      refine ⟨s2, ?_, ?_⟩
      · rw [← h2, hhead]; rfl
      · simpa using h3
    · have h2 : ¬ (some ch = some '1') := by simpa using h1
      simp only [h1, h2, ↓reduceIte]
      exact ih (c := c + 1) (by omega) hb

theorem rowNodes_eq_nil {nc : Nat} {P : List (Nat × Nat)} {r : Nat}
    (h : ∀ x, x ∈ P → x.1 < r) : rowNodes nc P r = [] := by
  rw [List.eq_nil_iff_forall_not_mem]
  intro n hn
  obtain ⟨c, hc⟩ := mem_rowNodes.mp hn
  have := h _ (cells_mem_coords hc)
  simp at this

/-- The outer loop of `createNodes`. -/
theorem createRows_spec {nc : Nat} (data : List (List Char))
    (hrows : ∀ row, row ∈ data → ∀ c, c < nc → 2 * c ≤ row.length) {r : Nat}
    {P : List (Nat × Nat)} {s : Heap} (hb : Built nc P s) (hP : ∀ x, x ∈ P → x.1 < r) :
    ∃ s2, createRows data r (List.range' 1 nc) s = some s2 ∧
      Built nc (P ++ dataCoords nc data r) s2 := by
  induction data generalizing r P s with
  | nil => exact ⟨s, rfl, by simpa [dataCoords] using hb⟩
  | cons row rest ih =>
    obtain ⟨s1, h1, h2⟩ := createRow_spec row r (hrows row (by simp)) nc (c := 0)
      (by omega) hb
    rw [rowNodes_eq_nil hP] at h1
    simp only [List.head?_nil, Nat.zero_add] at h1
    obtain ⟨s2, h3, h4⟩ := ih (fun row2 hr2 => hrows row2 (List.mem_cons_of_mem _ hr2))
      (r := r + 1) h2 (by
        intro x hx
        rw [List.mem_append, mem_rowCoords] at hx
        rcases hx with hx | hx
        · have := hP x hx; omega
        · omega)
    refine ⟨s2, ?_, ?_⟩
    · simp only [createRows, h1, h3]
    · simpa [dataCoords] using h4
theorem rowWF_reads {nc : Nat} {row : List Char} (h : rowWF nc row = true) :
    ∀ c, c < nc → 2 * c ≤ row.length := by
  simp only [rowWF, Bool.and_eq_true, decide_eq_true_eq] at h
  intro c hc
  omega

theorem rowLive_nil (P : List (Nat × Nat)) (r : Nat) : rowLive P [] r = true := by
  rw [rowLive_iff]; intro c _; simp

/-- The graph `main` builds when there is at least one column and every read
`data[r][2 * c]` stays inside the row text: the master node is at address 0
and no column is covered. -/
theorem build_reads {nc : Nat} {data : List (List Char)} (hnc : 0 < nc)
    (hrows : ∀ row, row ∈ data → ∀ c, c < nc → 2 * c ≤ row.length) :
    ∃ s, build nc data = some (0, s) ∧ Built nc (coords nc data) s ∧
      Inv nc (coords nc data) [] s := by
  obtain ⟨h1, h2⟩ := headerHeap_spec nc hnc
  obtain ⟨s, h3, h4⟩ := createRows_spec data hrows
    (r := 0) h2 (by simp)
  simp only [List.nil_append] at h4
  refine ⟨s, ?_, h4, ?_⟩
  · have hhead : (List.range' 1 nc).head? = some (hdr 0) := by
      obtain ⟨m, rfl⟩ : ∃ m, nc = m + 1 := ⟨nc - 1, by omega⟩
      simp [List.range'_succ, hdr]
    have hlast : (List.range' 1 nc).getLast? = some (hdr (nc - 1)) := by
      obtain ⟨m, rfl⟩ : ∃ m, nc = m + 1 := ⟨nc - 1, by omega⟩
      rw [List.range'_concat]
      simp [hdr, Nat.add_comm]
    have hcn : createNodes data (List.range' 1 nc) (headerHeap nc) = some s := by
      simp only [createNodes]
      split_ifs with hd
      · have : data = [] := List.length_eq_zero.mp hd
        subst this
        simpa [createRows] using h3
      · exact h3
    have e1 : (newNode emptyHeap (-1) (-1)).1 = 0 := rfl
    simp only [build, e1]
    rw [show createHeaderList (linkHorizontal (newNode emptyHeap (-1) (-1)).2 0 0) nc
        = (List.range' 1 nc,
          (createHeaderList (linkHorizontal (newNode emptyHeap (-1) (-1)).2 0 0) nc).2) from
      Prod.ext h1 rfl]
    simp only [hhead, hlast]
    have e2 : linkHorizontal (linkHorizontal
        (createHeaderList (linkHorizontal (newNode emptyHeap (-1) (-1)).2 0 0) nc).2 0 (hdr 0))
        (hdr (nc - 1)) 0 = headerHeap nc := rfl
    rw [e2, hcn]
  · refine ⟨⟨coords_nodup nc data, fun x hx => coords_col_lt hx, h4.colHeader_cell,
      h4.rowID_cell, h4.rows⟩, h4.hring, ?_⟩
    intro c hc _
    have := h4.vrings c hc trivial
    have e : colRing nc (coords nc data) (liveCell (coords nc data) []) c
        = colRing nc (coords nc data) (fun _ => true) c := by
      apply colRing_congr
      intro e _
      simp [liveCell, rowLive_nil]
    rw [e]; exact this

/-- The graph `main` builds from a well-formed input with at least one
column. -/
theorem build_spec {nc : Nat} {data : List (List Char)} (hnc : 0 < nc)
    (hwf : WellFormed nc data) :
    ∃ s, build nc data = some (0, s) ∧ Built nc (coords nc data) s ∧
      Inv nc (coords nc data) [] s :=
  build_reads hnc (fun row hr => rowWF_reads (hwf row hr))
theorem strAt_isSome {row : List Char} {i : Nat} :
    strAt row i ≠ none ↔ i ≤ row.length := by
  simp only [strAt]
  by_cases h1 : i < row.length
  · simp only [h1, ↓reduceIte, ne_eq]
    constructor
    · intro _; omega
    · intro _; rw [List.get?_eq_get h1]; simp
  · by_cases h2 : i = row.length
    · simp [h2]
    · simp only [h1, h2, ↓reduceIte, ne_eq, not_true_eq_false, false_iff]
      omega

theorem createRow_some {row : List Char} {r : Nat} {hs : List Nat} {c : Nat} {s s2 : Heap}
    {rh : Option Nat} (h : createRow row r hs c s rh = some s2) :
    ∀ j, j < hs.length → 2 * (c + j) ≤ row.length := by
  induction hs generalizing c s rh with
  | nil => intro j hj; simp at hj
  | cons hc hs ih =>
    simp only [createRow] at h
    cases hst : strAt row (2 * c) with
    | none => rw [hst] at h; simp at h
    | some ch =>
      rw [hst] at h
      simp only at h
      have h0 : 2 * c ≤ row.length := strAt_isSome.mp (by rw [hst]; simp)
      have hrest : ∀ j, j < hs.length → 2 * (c + 1 + j) ≤ row.length := by
        split_ifs at h
        · exact ih h
        · exact ih h
      intro j hj
      cases j with
      | zero => simpa using h0
      | succ j =>
        have := hrest j (by simpa using hj)
        have e : c + (j + 1) = c + 1 + j := by omega
        rw [e]; exact this

theorem createRows_some {data : List (List Char)} {r : Nat} {hs : List Nat} {s s2 : Heap}
    (h : createRows data r hs s = some s2) :
    ∀ row, row ∈ data → ∀ j, j < hs.length → 2 * j ≤ row.length := by
  induction data generalizing r s with
  | nil => intro row hr; simp at hr
  | cons row rest ih =>
    simp only [createRows] at h
    cases hc : createRow row r hs 0 s none with
    | none => rw [hc] at h; simp at h
    | some s1 =>
      rw [hc] at h
      simp only at h
      intro row2 hr2 j hj
      simp only [List.mem_cons] at hr2
      rcases hr2 with rfl | hr2
      · have := createRow_some hc j hj
        simpa using this
      · exact ih h row2 hr2 j hj

/-- Function `build` returns a graph only when there is at least one column and
every read `data[r][2 * c]` stays inside the row text. -/
theorem build_isSome {nc : Nat} {data : List (List Char)} (h : (build nc data).isSome = true) :
    0 < nc ∧ ∀ row, row ∈ data → ∀ c, c < nc → 2 * c ≤ row.length := by
  have hnc : 0 < nc := by
    by_contra h0
    have : nc = 0 := by omega
    subst this
    simp [build, createHeaderList, allocHeaders] at h
  refine ⟨hnc, ?_⟩
  obtain ⟨h1, -⟩ := headerHeap_spec nc hnc
  have hhead : (List.range' 1 nc).head? = some (hdr 0) := by
    obtain ⟨m, rfl⟩ : ∃ m, nc = m + 1 := ⟨nc - 1, by omega⟩
    simp [List.range'_succ, hdr]
  have hlast : (List.range' 1 nc).getLast? = some (hdr (nc - 1)) := by
    obtain ⟨m, rfl⟩ : ∃ m, nc = m + 1 := ⟨nc - 1, by omega⟩
    rw [List.range'_concat]
    simp [hdr, Nat.add_comm]
  simp only [build] at h
  rw [show createHeaderList (linkHorizontal (newNode emptyHeap (-1) (-1)).2
      (newNode emptyHeap (-1) (-1)).1 (newNode emptyHeap (-1) (-1)).1) nc
      = (List.range' 1 nc,
        (createHeaderList (linkHorizontal (newNode emptyHeap (-1) (-1)).2 0 0) nc).2) from
    Prod.ext h1 rfl] at h
  simp only [hhead, hlast] at h
  cases hcn : createNodes data (List.range' 1 nc)
      (linkHorizontal (linkHorizontal
        (createHeaderList (linkHorizontal (newNode emptyHeap (-1) (-1)).2 0 0) nc).2
        (newNode emptyHeap (-1) (-1)).1 (hdr 0)) (hdr (nc - 1)) (newNode emptyHeap (-1) (-1)).1) with
  | none => rw [hcn] at h; simp at h
  | some s =>
    simp only [createNodes] at hcn
    split_ifs at hcn with hd
    · have : data = [] := List.length_eq_zero.mp hd
      subst this
      intro row hr; simp at hr
    · intro row hr c hc
      exact createRows_some hcn row hr c (by simpa using hc)

/-- Every graph `build` returns has the master node at address 0 and is in
the state with no column covered. -/
theorem build_inv {nc : Nat} {data : List (List Char)} {h : Nat} {s : Heap}
    (hb : build nc data = some (h, s)) :
    h = 0 ∧ 0 < nc ∧ Built nc (coords nc data) s ∧ Inv nc (coords nc data) [] s := by
  obtain ⟨hnc, hrows⟩ := build_isSome (by rw [hb]; rfl)
  obtain ⟨s2, h1, h2, h3⟩ := build_reads hnc hrows
  rw [hb] at h1
  simp only [Option.some.injEq, Prod.mk.injEq] at h1
  obtain ⟨rfl, rfl⟩ := h1
  exact ⟨rfl, hnc, h2, h3⟩
/-! ## countSolutions against solve -/

theorem countRows_sim {recS : SearchState → Option SearchState}
    {recC : Heap × Int → Option (Heap × Int)}
    (hrec : ∀ st, (recS st).map countView = recC (countView st)) (fuel col row : Nat)
    (st : SearchState) :
    (solveRows recS fuel col row st).map countView
      = countRows recC fuel col row (countView st) := by
  induction fuel generalizing row st with
  | zero => rfl
  | succ fuel ih =>
    simp only [solveRows, countRows]
    by_cases h : row = col
    · simp [h, countView]
    · simp only [h, ↓reduceIte, countView]
      cases hc : coverRowCols fuel st.heap row (st.heap.right row) with
      | none => rfl
      | some hp2 =>
        simp only
        have := hrec ⟨hp2, st.solution ++ [st.heap.rowID row], st.numSolutions, st.out⟩
        simp only [countView] at this
        rw [← this]
        cases hr : recS ⟨hp2, st.solution ++ [st.heap.rowID row], st.numSolutions, st.out⟩ with
        | none => rfl
        | some st3 =>
          simp only [Option.map_some']
          cases hu : uncoverRowCols fuel st3.heap row (st3.heap.left row) with
          | none => simp [countView, hu]
          | some hp5 =>
            simp only [countView, hu]
            exact ih _ _

/-- Function `countSolutions` is `solve` without the `solution` vector and the output:
on every arena, with every fuel and either value of `printSolutions`, both
return or both run out of fuel, and they leave the same arena and the same
`numSolutions`. -/
theorem countSolutions_sim (fuel h : Nat) (pr : Bool) (st : SearchState) :
    (solve fuel h pr st).map countView = countSolutions fuel h (countView st) := by
  induction fuel generalizing st with
  | zero => rfl
  | succ fuel ih =>
    simp only [solve, countSolutions]
    by_cases h0 : st.heap.right h = h
    · simp [h0, countView]
    · simp only [countView, h0, ↓reduceIte]
      cases hc : chooseCol fuel st.heap h (st.heap.right h) (st.heap.right h) with
      | none => rfl
      | some col =>
        simp only
        cases hcv : cover fuel st.heap col with
        | none => rfl
        | some hp1 =>
          simp only
          have := @countRows_sim (solve fuel h pr) (countSolutions fuel h)
            (fun st => ih st) fuel col (hp1.down col)
            ⟨hp1, st.solution, st.numSolutions, st.out⟩
          simp only [countView] at this
          rw [← this]
          cases hr : solveRows (solve fuel h pr) fuel col (hp1.down col)
            ⟨hp1, st.solution, st.numSolutions, st.out⟩ with
          | none => rfl
          | some st2 =>
            simp only [Option.map_some']
            cases hu : uncover fuel st2.heap col with
            | none => simp [countView, hu]
            | some hp3 => simp [countView, hu]
/-! ## Exact covers and the abstract search -/

theorem mem_colRows {P : List (Nat × Nat)} {K : List Nat} {c r : Nat} :
    r ∈ colRows P K c ↔ (r, c) ∈ P ∧ rowLive P K r = true := by
  simp only [colRows, List.mem_map, List.mem_filter, Bool.and_eq_true, decide_eq_true_eq]
  constructor
  · rintro ⟨⟨r2, c2⟩, ⟨h1, h2, h3⟩, rfl⟩
    simp only at h2; subst h2
    exact ⟨h1, h3⟩
  · rintro ⟨h1, h2⟩
    exact ⟨(r, c), ⟨h1, rfl, h2⟩, rfl⟩

theorem colRows_nodup {P : List (Nat × Nat)} (hP : P.Nodup) (K : List Nat) (c : Nat) :
    (colRows P K c).Nodup := by
  apply List.Nodup.map_on _ (hP.filter _)
  rintro ⟨r1, c1⟩ h1 ⟨r2, c2⟩ h2 h
  simp only [List.mem_filter, Bool.and_eq_true, decide_eq_true_eq] at h1 h2
  simp only at h
  obtain ⟨-, rfl, -⟩ := h1
  obtain ⟨-, rfl, -⟩ := h2
  rw [h]

/-- Choosing a live row `r` through column `c`: an exact cover of what is left
extends to an exact cover. -/
theorem Cov_insert {nc : Nat} {P : List (Nat × Nat)} {K : List Nat} {r : Nat}
    (hex : ∃ c, (r, c) ∈ P) (hlive : rowLive P K r = true) {S : Finset Nat}
    (h : Cov nc P (rowColsOf P r ++ K) S) : r ∉ S ∧ Cov nc P K (insert r S) := by
  obtain ⟨h1, h2, h3⟩ := h
  have hr : r ∉ S := by
    intro hm
    obtain ⟨c, hc⟩ := hex
    exact (h1 r hm).2 c hc (List.mem_append_left _ (mem_rowColsOf.mpr hc))
  refine ⟨hr, ?_, ?_, ?_⟩
  · intro r2 hr2
    rw [Finset.mem_insert] at hr2
    rcases hr2 with rfl | hr2
    · exact ⟨hex, rowLive_iff.mp hlive⟩
    · exact ⟨(h1 r2 hr2).1, fun c hc hm => (h1 r2 hr2).2 c hc (List.mem_append_right _ hm)⟩
  · intro c hc hcK
    by_cases hrc : (r, c) ∈ P
    · exact ⟨r, Finset.mem_insert_self _ _, hrc⟩
    · obtain ⟨r2, hr2, hr2c⟩ := h2 c hc (by
        rw [List.mem_append, mem_rowColsOf]; tauto)
      exact ⟨r2, Finset.mem_insert_of_mem hr2, hr2c⟩
  · have key : ∀ r2, r2 ∈ S → ∀ c, (r, c) ∈ P → (r2, c) ∈ P → False := by
      intro r2 hr2 c hc hc2
      exact (h1 r2 hr2).2 c hc2 (List.mem_append_left _ (mem_rowColsOf.mpr hc))
    intro r1 hr1 r2 hr2 c hc1 hc2
    rw [Finset.mem_insert] at hr1 hr2
    rcases hr1 with rfl | hr1 <;> rcases hr2 with rfl | hr2
    · rfl
    · exact (key r2 hr2 c hc1 hc2).elim
    · exact (key r1 hr1 c hc2 hc1).elim
    · exact h3 r1 hr1 r2 hr2 c hc1 hc2

/-- Removing a row from an exact cover leaves an exact cover of the columns
the row does not take. -/
theorem Cov_erase {nc : Nat} {P : List (Nat × Nat)} {K : List Nat} {r : Nat} {S : Finset Nat}
    (h : Cov nc P K S) (hr : r ∈ S) : Cov nc P (rowColsOf P r ++ K) (S.erase r) := by
  obtain ⟨h1, h2, h3⟩ := h
  refine ⟨?_, ?_, ?_⟩
  · intro r2 hr2
    rw [Finset.mem_erase] at hr2
    refine ⟨(h1 r2 hr2.2).1, ?_⟩
    intro c hc hm
    rw [List.mem_append, mem_rowColsOf] at hm
    rcases hm with hm | hm
    · exact hr2.1 (h3 r2 hr2.2 r hr c hc hm)
    · exact (h1 r2 hr2.2).2 c hc hm
  · intro c hc hcK
    rw [List.mem_append, mem_rowColsOf, not_or] at hcK
    obtain ⟨r2, hr2, hr2c⟩ := h2 c hc hcK.2
    refine ⟨r2, Finset.mem_erase.mpr ⟨?_, hr2⟩, hr2c⟩
    rintro rfl
    exact hcK.1 hr2c
  · intro r1 hr1 r2 hr2 c hc1 hc2
    exact h3 r1 (Finset.mem_of_mem_erase hr1) r2 (Finset.mem_of_mem_erase hr2) c hc1 hc2
/-- The abstract search enumerates the exact covers of the columns outside
`K`: every sequence found is duplicate-free and its rows form an exact cover,
distinct sequences have distinct row sets, and every exact cover is found. -/
theorem absSolve_spec {nc : Nat} {P : List (Nat × Nat)} (hP : P.Nodup)
    (hlt : ∀ x, x ∈ P → x.2 < nc) (ga : Nat) (K : List Nat)
    (hga : (liveCols nc K).length < ga) :
    (∀ p, p ∈ absSolve nc P ga K → p.Nodup ∧ Cov nc P K p.toFinset) ∧
    ((absSolve nc P ga K).map List.toFinset).Nodup ∧
    (∀ S, Cov nc P K S → ∃ p, p ∈ absSolve nc P ga K ∧ p.toFinset = S) := by
  induction ga generalizing K with
  | zero => simp at hga
  | succ ga ih =>
    cases hlc : liveCols nc K with
    | nil =>
      have hres : absSolve nc P (ga + 1) K = [[]] := by simp only [absSolve, hlc]
      rw [hres]
      have hno : ∀ c, c < nc → c ∉ K → False := by
        intro c h1 h2
        have := mem_liveCols.mpr ⟨h1, h2⟩
        rw [hlc] at this
        simp at this
      refine ⟨?_, by simp, ?_⟩
      · intro p hp
        simp only [List.mem_singleton] at hp
        subst hp
        refine ⟨List.nodup_nil, ?_, ?_, ?_⟩
        · intro r hr; simp at hr
        · intro c h1 h2; exact (hno c h1 h2).elim
        · intro r hr; simp at hr
      · intro S hS
        refine ⟨[], by simp, ?_⟩
        symm
        rw [List.toFinset_nil, Finset.eq_empty_iff_forall_not_mem]
        intro r hr
        obtain ⟨⟨c, hc⟩, h2⟩ := hS.1 r hr
        exact hno c (hlt _ hc) (h2 c hc)
    | cons c0 rest =>
      obtain ⟨c, hcdef⟩ : ∃ c, c = chooseAbs (fun c => (colRows P K c).length) c0 (c0 :: rest) :=
        ⟨_, rfl⟩
      have hcm : c ∈ liveCols nc K := by
        have := chooseAbs_mem (fun c => (colRows P K c).length) c0 (c0 :: rest)
        rw [hlc, hcdef]; simp only [List.mem_cons] at this ⊢; tauto
      obtain ⟨hc, hcK⟩ := mem_liveCols.mp hcm
      have hres : absSolve nc P (ga + 1) K = (colRows P K c).flatMap
          (fun r => (absSolve nc P ga (rowColsOf P r ++ K)).map (fun p => r :: p)) := by
        simp only [absSolve, hlc, hcdef]
      rw [hres]
      have hih : ∀ r, r ∈ colRows P K c →
          (∀ p, p ∈ absSolve nc P ga (rowColsOf P r ++ K) →
            p.Nodup ∧ Cov nc P (rowColsOf P r ++ K) p.toFinset) ∧
          ((absSolve nc P ga (rowColsOf P r ++ K)).map List.toFinset).Nodup ∧
          (∀ S, Cov nc P (rowColsOf P r ++ K) S →
            ∃ p, p ∈ absSolve nc P ga (rowColsOf P r ++ K) ∧ p.toFinset = S) := by
        intro r hr
        apply ih
        have := @liveCols_length_lt nc K (rowColsOf P r ++ K) c hc hcK
          (by simp [mem_rowColsOf, (mem_colRows.mp hr).1])
          (fun d hd => List.mem_append_right _ hd)
        omega
      have hsound : ∀ r, r ∈ colRows P K c → ∀ p, p ∈ absSolve nc P ga (rowColsOf P r ++ K) →
          p.Nodup ∧ r ∉ p ∧ Cov nc P K (insert r p.toFinset) := by
        intro r hr p hp
        obtain ⟨hrc, hlive⟩ := mem_colRows.mp hr
        obtain ⟨h1, h2⟩ := (hih r hr).1 p hp
        obtain ⟨h3, h4⟩ := Cov_insert ⟨c, hrc⟩ hlive h2
        exact ⟨h1, by simpa using h3, h4⟩
      refine ⟨?_, ?_, ?_⟩
      · intro q hq
        simp only [List.mem_flatMap, List.mem_map] at hq
        obtain ⟨r, hr, p, hp, rfl⟩ := hq
        obtain ⟨h1, h2, h3⟩ := hsound r hr p hp
        exact ⟨List.nodup_cons.mpr ⟨h2, h1⟩, by simpa using h3⟩
      · apply List.Nodup.map_on
        · intro q1 hq1 q2 hq2 he
          simp only [List.mem_flatMap, List.mem_map] at hq1 hq2
          obtain ⟨r1, hr1, p1, hp1, rfl⟩ := hq1
          obtain ⟨r2, hr2, p2, hp2, rfl⟩ := hq2
          obtain ⟨-, n1, c1⟩ := hsound r1 hr1 p1 hp1
          obtain ⟨-, n2, c2⟩ := hsound r2 hr2 p2 hp2
          simp only [List.toFinset_cons] at he
          have hr12 : r1 = r2 := by
            apply c1.2.2 r1 (Finset.mem_insert_self _ _) r2 _ c (mem_colRows.mp hr1).1
              (mem_colRows.mp hr2).1
            rw [he]; exact Finset.mem_insert_self _ _
          subst hr12
          have hp12 : p1.toFinset = p2.toFinset := by
            have e1 := Finset.erase_insert (s := p1.toFinset) (a := r1) (by simpa using n1)
            have e2 := Finset.erase_insert (s := p2.toFinset) (a := r1) (by simpa using n2)
            rw [← e1, ← e2, he]
          have := List.inj_on_of_nodup_map (hih r1 hr1).2.1 hp1 hp2 hp12
          rw [this]
        · rw [List.nodup_flatMap]
          constructor
          · intro r hr
            apply List.Nodup.map
            · intro p1 p2 h; exact (List.cons_injective h)
            · exact List.Nodup.of_map _ (hih r hr).2.1
          · apply (colRows_nodup hP K c).pairwise_of_forall_ne
            intro r1 _ r2 _ hne
            simp only [Function.onFun]
            rw [List.disjoint_left]
            intro q h1 h2
            simp only [List.mem_map] at h1 h2
            obtain ⟨p1, -, rfl⟩ := h1
            obtain ⟨p2, -, h⟩ := h2
            simp only [List.cons.injEq] at h
            exact hne h.1.symm
      · intro S hS
        obtain ⟨r, hrS, hrc⟩ := hS.2.1 c hc hcK
        have hr : r ∈ colRows P K c :=
          mem_colRows.mpr ⟨hrc, rowLive_iff.mpr (hS.1 r hrS).2⟩
        obtain ⟨p, hp, hpS⟩ := (hih r hr).2.2 _ (Cov_erase hS hrS)
        refine ⟨r :: p, ?_, ?_⟩
        · simp only [List.mem_flatMap, List.mem_map]
          exact ⟨r, hr, p, hp, rfl⟩
        · rw [List.toFinset_cons, hpS, Finset.insert_erase hrS]
/-! ## The search on a built graph -/

/-- Function `solve` on a built graph, with enough fuel. -/
theorem solve_built {nc : Nat} {data : List (List Char)} {h : Nat} {s : Heap}
    (hb : build nc data = some (h, s)) {fuel : Nat} (hf : searchFuel nc data ≤ fuel)
    (pr : Bool) (sol : List Int) (num : Int) (out : List (List Int)) :
    solve fuel h pr ⟨s, sol, num, out⟩ =
      some ⟨s, sol, countUp (solutions nc data).length num,
        out ++ emit pr sol (solutions nc data)⟩ := by
  obtain ⟨rfl, hnc, -, hi⟩ := build_inv hb
  have hlen : (liveCols nc []).length < nc + 1 := by
    have := liveCols_length_le nc []; omega
  exact solve_spec pr (nc + 1) (by simp only [searchFuel] at hf; omega) [] s sol num out hi hlen

/-- Function `countSolutions` on a built graph, with enough fuel. -/
theorem count_built {nc : Nat} {data : List (List Char)} {h : Nat} {s : Heap}
    (hb : build nc data = some (h, s)) {fuel : Nat} (hf : searchFuel nc data ≤ fuel)
    (num : Int) :
    countSolutions fuel h (s, num) = some (s, countUp (solutions nc data).length num) := by
  have h1 := countSolutions_sim fuel h false ⟨s, [], num, []⟩
  rw [solve_built hb hf false [] num []] at h1
  simpa [countView] using h1.symm

theorem DSeg_next_mem {nxt prv : Nat → Nat} {a : Nat} {l : List Nat}
    (h : DSeg nxt prv a l a) {x : Nat} (hx : x ∈ a :: l) : nxt x ∈ a :: l := by
  simp only [List.mem_cons] at hx
  rcases hx with rfl | hx
  · have := DSeg_head h
    have h2 := List.mem_of_mem_head? this
    simp only [List.mem_append, List.mem_singleton, List.mem_cons] at h2 ⊢
    tauto
  · obtain ⟨-, -, -, h4⟩ := DSeg_mem h hx
    simp only [List.mem_append, List.mem_singleton, List.mem_cons] at h4 ⊢
    tauto

/-- The nodes of the header ring other than the master node are the headers
of the live columns. -/
theorem inHeaderRing_hdr {nc : Nat} {K : List Nat} {s : Heap} (hr : HRing nc K s) {X : Nat}
    (hX : InHeaderRing s 0 X) : ∃ c, c < nc ∧ c ∉ K ∧ X = hdr c := by
  obtain ⟨hne, k, hk⟩ := hX
  have hmem : ∀ k, (s.right)^[k] 0 ∈ 0 :: (liveCols nc K).map hdr := by
    intro k
    induction k with
    | zero => simp
    | succ k ih =>
      rw [Function.iterate_succ_apply']
      exact DSeg_next_mem hr ih
  have := hmem k
  rw [hk] at this
  simp only [List.mem_cons, List.mem_map] at this
  rcases this with h0 | ⟨c, hc, rfl⟩
  · exact absurd h0 hne
  · obtain ⟨h1, h2⟩ := mem_liveCols.mp hc
    exact ⟨c, h1, h2, rfl⟩
/-- The abstract search of the whole input enumerates its exact covers. -/
theorem solutions_spec (nc : Nat) (data : List (List Char)) :
    (∀ p, p ∈ solutions nc data → p.Nodup ∧ Cov nc (coords nc data) [] p.toFinset) ∧
    ((solutions nc data).map List.toFinset).Nodup ∧
    (∀ S, Cov nc (coords nc data) [] S → ∃ p, p ∈ solutions nc data ∧ p.toFinset = S) := by
  apply absSolve_spec (coords_nodup nc data) (fun x hx => coords_col_lt hx)
  have := liveCols_length_le nc []
  omega

theorem mem_rowColumns {nc : Nat} {data : List (List Char)} {r c : Nat} :
    c ∈ rowColumns nc data r ↔ c < nc ∧ bit data r c = true := by
  simp [rowColumns]

/-- On the set bits of the input, `Cov` with no column covered is
`IsExactCover`. -/
theorem Cov_iff_exactCover {nc : Nat} {data : List (List Char)} {S : Finset Nat} :
    Cov nc (coords nc data) [] S ↔ IsExactCover nc data S := by
  constructor
  · rintro ⟨h1, h2, h3⟩
    have hlt : ∀ r, r ∈ S → r < data.length := by
      intro r hr
      obtain ⟨⟨c, hc⟩, -⟩ := h1 r hr
      exact (mem_coords.mp hc).1
    refine ⟨?_, ?_⟩
    · intro r hr
      obtain ⟨⟨c, hc⟩, -⟩ := h1 r hr
      obtain ⟨k1, k2, k3⟩ := mem_coords.mp hc
      exact ⟨k1, ⟨c, mem_rowColumns.mpr ⟨k2, k3⟩⟩⟩
    · intro c hc
      obtain ⟨r0, hr0, hr0c⟩ := h2 c hc (by simp)
      rw [Finset.card_eq_one]
      refine ⟨r0, ?_⟩
      ext r
      simp only [Finset.mem_filter, Finset.mem_singleton]
      constructor
      · rintro ⟨hr, hb⟩
        exact h3 r hr r0 hr0 c (mem_coords.mpr ⟨hlt r hr, hc, hb⟩) hr0c
      · rintro rfl
        exact ⟨hr0, (mem_coords.mp hr0c).2.2⟩
  · rintro ⟨h1, h2⟩
    refine ⟨?_, ?_, ?_⟩
    · intro r hr
      obtain ⟨k1, ⟨c, hc⟩⟩ := h1 r hr
      obtain ⟨k2, k3⟩ := mem_rowColumns.mp hc
      exact ⟨⟨c, mem_coords.mpr ⟨k1, k2, k3⟩⟩, fun _ _ => by simp⟩
    · intro c hc _
      obtain ⟨r0, hr0⟩ := Finset.card_eq_one.mp (h2 c hc)
      have : r0 ∈ S.filter (fun r => bit data r c = true) := by rw [hr0]; simp
      obtain ⟨k1, k2⟩ := Finset.mem_filter.mp this
      exact ⟨r0, k1, mem_coords.mpr ⟨(h1 r0 k1).1, hc, k2⟩⟩
    · intro r hr r2 hr2 c hc hc2
      obtain ⟨-, k2, k3⟩ := mem_coords.mp hc
      obtain ⟨-, -, k5⟩ := mem_coords.mp hc2
      obtain ⟨r0, hr0⟩ := Finset.card_eq_one.mp (h2 c k2)
      have m1 : r ∈ S.filter (fun r => bit data r c = true) :=
        Finset.mem_filter.mpr ⟨hr, k3⟩
      have m2 : r2 ∈ S.filter (fun r => bit data r c = true) :=
        Finset.mem_filter.mpr ⟨hr2, k5⟩
      rw [hr0, Finset.mem_singleton] at m1 m2
      rw [m1, m2]

theorem emit_true_nil (ps : List (List Nat)) :
    emit true [] ps = ps.map (fun p => p.map Int.ofNat) := by
  simp [emit]

theorem mem_foldr_union {α : Type} [DecidableEq α] (l : List (Finset α)) (x : α) :
    x ∈ l.foldr (fun a b => a ∪ b) ∅ ↔ ∃ a, a ∈ l ∧ x ∈ a := by
  induction l with
  | nil => simp
  | cons a l ih => simp [ih]

/-- What an emitted sequence looks like: distinct valid row indices, whose
column sets are pairwise disjoint and have union `{0, ..., nc - 1}`. -/
theorem emitted_sound {nc : Nat} {data : List (List Char)} {p : List Nat} (hnd : p.Nodup)
    (hcov : Cov nc (coords nc data) [] p.toFinset) :
    (p.map Int.ofNat).Nodup ∧
    (∀ i, i ∈ p.map Int.ofNat → 0 ≤ i ∧ i.toNat < data.length ∧
      (rowColumns nc data i.toNat).Nonempty) ∧
    ((p.map Int.ofNat).map (fun i => rowColumns nc data i.toNat)).Pairwise Disjoint ∧
    ((p.map Int.ofNat).map (fun i => rowColumns nc data i.toNat)).foldr (fun a b => a ∪ b) ∅
      = Finset.range nc ∧
    (∀ c, c < nc → ∃! i, i ∈ p.map Int.ofNat ∧ bit data i.toNat c = true) := by
  have hx := Cov_iff_exactCover.mp hcov
  obtain ⟨h1, h2, h3⟩ := hcov
  have hmap : (p.map Int.ofNat).map (fun i => rowColumns nc data i.toNat)
      = p.map (fun r => rowColumns nc data r) := by
    rw [List.map_map]; apply List.map_congr_left; intro r _; simp
  refine ⟨?_, ?_, ?_, ?_, ?_⟩
  · exact hnd.map (fun a b h => by simpa using h)
  · intro i hi
    obtain ⟨r, hr, rfl⟩ := List.mem_map.mp hi
    have := hx.1 r (List.mem_toFinset.mpr hr)
    simpa using this
  · rw [hmap, List.pairwise_map]
    apply List.Pairwise.imp_of_mem _ hnd
    intro r r2 hr hr2 hne
    rw [Finset.disjoint_left]
    intro c hc hc2
    obtain ⟨k1, k2⟩ := mem_rowColumns.mp hc
    obtain ⟨-, k3⟩ := mem_rowColumns.mp hc2
    have hr' := List.mem_toFinset.mpr hr
    have hr2' := List.mem_toFinset.mpr hr2
    exact hne (h3 r hr' r2 hr2' c (mem_coords.mpr ⟨(hx.1 r hr').1, k1, k2⟩)
      (mem_coords.mpr ⟨(hx.1 r2 hr2').1, k1, k3⟩))
  · rw [hmap]
    ext c
    rw [mem_foldr_union, Finset.mem_range]
    constructor
    · rintro ⟨a, ha, hca⟩
      obtain ⟨r, -, rfl⟩ := List.mem_map.mp ha
      exact (mem_rowColumns.mp hca).1
    · intro hc
      obtain ⟨r, hr, hrc⟩ := h2 c hc (by simp)
      exact ⟨rowColumns nc data r, List.mem_map.mpr ⟨r, List.mem_toFinset.mp hr, rfl⟩,
        mem_rowColumns.mpr ⟨hc, (mem_coords.mp hrc).2.2⟩⟩
  · intro c hc
    obtain ⟨r, hr, hrc⟩ := h2 c hc (by simp)
    refine ⟨Int.ofNat r, ⟨List.mem_map.mpr ⟨r, List.mem_toFinset.mp hr, rfl⟩, ?_⟩, ?_⟩
    · simpa using (mem_coords.mp hrc).2.2
    · rintro i ⟨hi, hb⟩
      obtain ⟨r2, hr2, rfl⟩ := List.mem_map.mp hi
      simp only [Int.ofNat_eq_coe, Int.toNat_ofNat] at hb
      have hr2' := List.mem_toFinset.mpr hr2
      have := h3 r2 hr2' r hr c (mem_coords.mpr ⟨(hx.1 r2 hr2').1, hc, hb⟩) hrc
      rw [this]
/-- A column without a set bit leaves the search without any result. -/
theorem solutions_eq_nil {nc : Nat} {data : List (List Char)} {c : Nat} (hc : c < nc)
    (hcol : ∀ r, r < data.length → bit data r c = false) : solutions nc data = [] := by
  rw [List.eq_nil_iff_forall_not_mem]
  intro p hp
  obtain ⟨-, -, h2, -⟩ := (solutions_spec nc data).1 p hp
  obtain ⟨r, -, hrc⟩ := h2 c hc (by simp)
  obtain ⟨k1, -, k3⟩ := mem_coords.mp hrc
  rw [hcol r k1] at k3
  simp at k3

theorem createRow_congr {row row2 : List Char} (r : Nat) (hs : List Nat) (c : Nat) (s : Heap)
    (rh : Option Nat)
    (h : ∀ j, j < hs.length → strAt row (2 * (c + j)) = strAt row2 (2 * (c + j))) :
    createRow row r hs c s rh = createRow row2 r hs c s rh := by
  induction hs generalizing c s rh with
  | nil => rfl
  | cons hc hs ih =>
    have h0 := h 0 (by simp)
    simp only [Nat.add_zero] at h0
    have hrest : ∀ j, j < hs.length →
        strAt row (2 * (c + 1 + j)) = strAt row2 (2 * (c + 1 + j)) := by
      intro j hj
      have := h (j + 1) (by simpa using hj)
      have e : c + (j + 1) = c + 1 + j := by omega
      rw [e] at this; exact this
    simp only [createRow, h0]
    cases strAt row2 (2 * c) with
    | none => rfl
    | some ch =>
      simp only
      split_ifs
      · exact ih _ _ _ hrest
      · exact ih _ _ _ hrest

theorem createRows_congr (f : List Char → List Char) (data : List (List Char)) (r : Nat)
    (hs : List Nat) (s : Heap)
    (h : ∀ row, row ∈ data → ∀ j, j < hs.length → strAt row (2 * j) = strAt (f row) (2 * j)) :
    createRows data r hs s = createRows (data.map f) r hs s := by
  induction data generalizing r s with
  | nil => rfl
  | cons row rest ih =>
    simp only [List.map_cons, createRows]
    rw [@createRow_congr row (f row) r hs 0 s none
      (fun j hj => by simpa using h row (by simp) j hj)]
    cases createRow (f row) r hs 0 s none with
    | none => rfl
    | some s1 =>
      simp only
      exact ih _ _ (fun row2 hr2 => h row2 (List.mem_cons_of_mem _ hr2))

theorem strAt_take {row : List Char} {n i : Nat} (hi : i < n) (hn : n ≤ row.length) :
    strAt row i = strAt (row.take n) i := by
  have h1 : i < row.length := by omega
  have h2 : i < (row.take n).length := by simp; omega
  simp only [strAt, h1, h2, ↓reduceIte]
  rw [List.get?_eq_getElem?, List.get?_eq_getElem?, List.getElem?_take_of_lt hi]

/-- Function `build` reads only the first `numColumns` entries of every row. -/
theorem build_take (nc : Nat) (data : List (List Char))
    (hlen : ∀ row, row ∈ data → 2 * nc - 1 ≤ row.length) :
    build nc data = build nc (data.map (List.take (2 * nc - 1))) := by
  by_cases hnc : 0 < nc
  · obtain ⟨h1, -⟩ := headerHeap_spec nc hnc
    have hcn : ∀ s, createNodes data (List.range' 1 nc) s
        = createNodes (data.map (List.take (2 * nc - 1))) (List.range' 1 nc) s := by
      intro s
      simp only [createNodes, List.length_map]
      split_ifs
      · rfl
      · apply createRows_congr
        intro row hr j hj
        simp only [List.length_range'] at hj
        exact strAt_take (by omega) (hlen row hr)
    simp only [build]
    rw [show createHeaderList (linkHorizontal (newNode emptyHeap (-1) (-1)).2
        (newNode emptyHeap (-1) (-1)).1 (newNode emptyHeap (-1) (-1)).1) nc
        = (List.range' 1 nc,
          (createHeaderList (linkHorizontal (newNode emptyHeap (-1) (-1)).2 0 0) nc).2) from
      Prod.ext h1 rfl]
    simp only [hcn]
  · have : nc = 0 := by omega
    subst this
    simp [build, createHeaderList, allocHeaders]
theorem DSeg_iterate {nxt prv : Nat → Nat} {a : Nat} {l : List Nat} {b : Nat}
    (h : DSeg nxt prv a l b) {x : Nat} (hx : x ∈ l) : ∃ k, (nxt)^[k] a = x := by
  induction l generalizing a with
  | nil => simp at hx
  | cons y l ih =>
    simp only [DSeg] at h
    simp only [List.mem_cons] at hx
    rcases hx with rfl | hx
    · exact ⟨1, by simpa using h.1⟩
    · obtain ⟨k, hk⟩ := ih h.2.2 hx
      refine ⟨k + 1, ?_⟩
      rw [Function.iterate_succ_apply, h.1]
      exact hk

/-- The header of every live column is in the header ring. -/
theorem hdr_inHeaderRing {nc : Nat} {K : List Nat} {s : Heap} (hr : HRing nc K s) {c : Nat}
    (hc : c < nc) (hcK : c ∉ K) : InHeaderRing s 0 (hdr c) := by
  refine ⟨by simp [hdr], ?_⟩
  simp only [HRing, Cyc] at hr
  exact DSeg_iterate hr (List.mem_map_of_mem _ (mem_liveCols.mpr ⟨hc, hcK⟩))
/-! ## Fuel monotonicity of `cover` and `uncover` -/


theorem coverRow_mono {f : Nat} {s : Heap} {row n : Nat} {r : Heap}
    (h : coverRow f s row n = some r) {f2 : Nat} (hle : f ≤ f2) :
    coverRow f2 s row n = some r := by
  induction f generalizing s n f2 with
  | zero => simp [coverRow] at h
  | succ f ih =>
    obtain ⟨g, rfl⟩ : ∃ g, f2 = g + 1 := ⟨f2 - 1, by omega⟩
    simp only [coverRow] at h ⊢
    split_ifs at h ⊢ with hn
    · exact h
    · exact ih h (by omega)

theorem coverRows_mono {f : Nat} {s : Heap} {col row : Nat} {r : Heap}
    (h : coverRows f s col row = some r) {f2 : Nat} (hle : f ≤ f2) :
    coverRows f2 s col row = some r := by
  induction f generalizing s row f2 with
  | zero => simp [coverRows] at h
  | succ f ih =>
    obtain ⟨g, rfl⟩ : ∃ g, f2 = g + 1 := ⟨f2 - 1, by omega⟩
    simp only [coverRows] at h ⊢
    split_ifs at h ⊢ with hn
    · exact h
    · cases h1 : coverRow f s row (s.right row) with
      | none => simp [h1] at h
      | some s1 =>
        rw [h1] at h
        rw [coverRow_mono h1 (by omega : f ≤ g)]
        exact ih h (by omega)

theorem cover_mono {f : Nat} {s : Heap} {col : Nat} {r : Heap}
    (h : cover f s col = some r) {f2 : Nat} (hle : f ≤ f2) : cover f2 s col = some r :=
  coverRows_mono h hle

theorem uncoverRow_mono {f : Nat} {s : Heap} {row n : Nat} {r : Heap}
    (h : uncoverRow f s row n = some r) {f2 : Nat} (hle : f ≤ f2) :
    uncoverRow f2 s row n = some r := by
  induction f generalizing s n f2 with
  | zero => simp [uncoverRow] at h
  | succ f ih =>
    obtain ⟨g, rfl⟩ : ∃ g, f2 = g + 1 := ⟨f2 - 1, by omega⟩
    simp only [uncoverRow] at h ⊢
    split_ifs at h ⊢ with hn
    · exact h
    · exact ih h (by omega)

theorem uncoverRows_mono {f : Nat} {s : Heap} {col row : Nat} {r : Heap}
    (h : uncoverRows f s col row = some r) {f2 : Nat} (hle : f ≤ f2) :
    uncoverRows f2 s col row = some r := by
  induction f generalizing s row f2 with
  | zero => simp [uncoverRows] at h
  | succ f ih =>
    obtain ⟨g, rfl⟩ : ∃ g, f2 = g + 1 := ⟨f2 - 1, by omega⟩
    simp only [uncoverRows] at h ⊢
    split_ifs at h ⊢ with hn
    · exact h
    · cases h1 : uncoverRow f s row (s.left row) with
      | none => simp [h1] at h
      | some s1 =>
        rw [h1] at h
        rw [uncoverRow_mono h1 (by omega : f ≤ g)]
        exact ih h (by omega)

theorem uncover_mono {f : Nat} {s : Heap} {col : Nat} {r : Heap}
    (h : uncover f s col = some r) {f2 : Nat} (hle : f ≤ f2) : uncover f2 s col = some r :=
  uncoverRows_mono h hle
/-! ## The emitted sequences are paths of choices -/

theorem absSolve_choicePath (nc : Nat) (P : List (Nat × Nat)) (ga : Nat) (K : List Nat)
    {p : List Nat} (hp : p ∈ absSolve nc P ga K) : ChoicePath nc P K p := by
  induction ga generalizing K p with
  | zero => simp [absSolve] at hp
  | succ ga ih =>
    cases hl : liveCols nc K with
    | nil =>
      simp only [absSolve, hl, List.mem_singleton] at hp
      subst hp
      exact hl
    | cons c0 rest =>
      simp only [absSolve, hl, List.mem_flatMap, List.mem_map] at hp
      obtain ⟨r, hr, q, hq, rfl⟩ := hp
      refine ⟨⟨c0, by simp [hl], ?_⟩, ih _ hq⟩
      rw [hl]
      exact hr

/-! ## The graph at rest -/

theorem DSeg_consistent {nxt prv : Nat → Nat} {a : Nat} {l : List Nat} {b : Nat}
    (h : DSeg nxt prv a l b) :
    (∀ n, n ∈ a :: l → prv (nxt n) = n) ∧ (∀ n, n ∈ l ++ [b] → nxt (prv n) = n) := by
  induction l generalizing a with
  | nil =>
    simp only [DSeg] at h
    constructor
    · intro n hn
      simp only [List.mem_singleton] at hn
      subst hn; rw [h.1, h.2]
    · intro n hn
      simp only [List.nil_append, List.mem_singleton] at hn
      subst hn; rw [h.2, h.1]
  | cons x l ih =>
    simp only [DSeg] at h
    obtain ⟨i1, i2⟩ := ih h.2.2
    constructor
    · intro n hn
      rcases List.mem_cons.mp hn with rfl | hn
      · rw [h.1, h.2.1]
      · exact i1 n hn
    · intro n hn
      rcases List.mem_cons.mp hn with rfl | hn
      · rw [h.2.1, h.1]
      · exact i2 n hn

theorem Cyc_consistent {nxt prv : Nat → Nat} {l : List Nat} (h : Cyc nxt prv l) {n : Nat}
    (hn : n ∈ l) : prv (nxt n) = n ∧ nxt (prv n) = n := by
  cases l with
  | nil => simp at hn
  | cons a l =>
    obtain ⟨i1, i2⟩ := DSeg_consistent (show DSeg nxt prv a l a from h)
    refine ⟨i1 n hn, i2 n ?_⟩
    rcases List.mem_cons.mp hn with rfl | hn
    · simp
    · simp [hn]

theorem Walk_unique {f : Nat → Nat} {x : Nat} {l1 l2 : List Nat} {stop : Nat}
    (h1 : Walk f x l1 stop) (h2 : Walk f x l2 stop) : l1 = l2 := by
  induction l1 generalizing x l2 with
  | nil =>
    cases l2 with
    | nil => rfl
    | cons y l2 =>
      simp only [Walk] at h1 h2
      exact absurd (h2.1.symm.trans h1) h2.2.1
  | cons y l1 ih =>
    cases l2 with
    | nil =>
      simp only [Walk] at h1 h2
      exact absurd (h1.1.symm.trans h2) h1.2.1
    | cons z l2 =>
      simp only [Walk] at h1 h2
      obtain rfl : y = z := h1.1.symm.trans h2.1
      rw [ih h1.2.2 h2.2.2]

theorem Cyc_walk {nxt prv : Nat → Nat} {a : Nat} {l : List Nat} (h : Cyc nxt prv (a :: l))
    (hnd : (a :: l).Nodup) : Walk nxt (nxt a) l a :=
  DSeg_walk h (List.nodup_cons.mp hnd).1

theorem cellsFrom_of_addr (a : Nat) (P : List (Nat × Nat)) {n : Nat} (h1 : a ≤ n)
    (h2 : n < a + P.length) : ∃ x, (n, x) ∈ cellsFrom a P := by
  induction P generalizing a with
  | nil => simp at h2; omega
  | cons y P ih =>
    by_cases hn : n = a
    · exact ⟨y, by simp [cellsFrom, hn]⟩
    · obtain ⟨x, hx⟩ := ih (a + 1) (by omega) (by simp at h2; omega)
      exact ⟨x, by simp [cellsFrom, hx]⟩

theorem cells_of_addr {nc : Nat} {P : List (Nat × Nat)} {n : Nat} (h1 : nc < n)
    (h2 : n < nc + 1 + P.length) : ∃ r c, (n, r, c) ∈ cells nc P := by
  obtain ⟨⟨r, c⟩, hx⟩ := cellsFrom_of_addr (nc + 1) P (by omega : nc + 1 ≤ n) h2
  exact ⟨r, c, hx⟩

theorem vring_nodup (nc : Nat) (P : List (Nat × Nat)) (lv : Cell → Bool) {c : Nat}
    (hc : c < nc) : (hdr c :: colRing nc P lv c).Nodup :=
  List.nodup_cons.mpr ⟨hdr_not_mem_colRing nc P lv c c hc, colRing_nodup nc P lv c⟩

theorem Built_consistent {nc : Nat} {P : List (Nat × Nat)} {s : Heap} (hb : Built nc P s)
    (hlt : ∀ x, x ∈ P → x.2 < nc) : Consistent s := by
  intro n hn
  rw [hb.next_eq] at hn
  by_cases h0 : n = 0
  · subst h0
    obtain ⟨i1, i2⟩ := Cyc_consistent hb.hring (List.mem_cons_self _ _)
    obtain ⟨-, -, m1, m2, -, -⟩ := hb.master_fields
    exact ⟨i1, i2, by rw [m2, m1], by rw [m1, m2]⟩
  by_cases h1 : n ≤ nc
  · obtain ⟨c, rfl⟩ : ∃ c, n = hdr c := ⟨n - 1, by simp only [hdr]; omega⟩
    have hc : c < nc := by simp only [hdr] at h1; omega
    have hm : hdr c ∈ 0 :: (liveCols nc []).map hdr := by
      rw [liveCols_nil]
      exact List.mem_cons_of_mem _ (List.mem_map_of_mem _ (List.mem_range.mpr hc))
    obtain ⟨i1, i2⟩ := Cyc_consistent hb.hring hm
    obtain ⟨j1, j2⟩ := Cyc_consistent (hb.vrings c hc trivial).1 (List.mem_cons_self _ _)
    exact ⟨i1, i2, j1, j2⟩
  · obtain ⟨r, c, hcell⟩ := @cells_of_addr nc P n (by omega) hn
    obtain ⟨i1, i2⟩ := Cyc_consistent (hb.rows r) (mem_rowNodes.mpr ⟨c, hcell⟩)
    have hc : c < nc := hlt _ (cells_mem_coords hcell)
    have hm : n ∈ hdr c :: colRing nc P (fun _ => true) c :=
      List.mem_cons_of_mem _ (mem_colRing.mpr ⟨r, hcell, rfl⟩)
    obtain ⟨j1, j2⟩ := Cyc_consistent (hb.vrings c hc trivial).1 hm
    exact ⟨i1, i2, j1, j2⟩
/-! ## The rings of the built graph, in terms of the input -/

theorem bit_cons_succ (row : List Char) (rest : List (List Char)) (i c : Nat) :
    bit (row :: rest) (i + 1) c = bit rest i c := rfl

theorem liveCols_singleton_map (nc c : Nat) :
    (liveCols nc [c]).map hdr
      = ((List.range nc).map hdr).filter (fun Y => decide (Y ≠ hdr c)) := by
  rw [List.filter_map]
  congr 1
  simp only [liveCols]
  apply List.filter_congr
  intro x _
  simp only [List.mem_singleton, Function.comp, decide_not, ne_eq]
  congr 1
  exact decide_eq_decide.mpr ⟨fun h => by rw [h], fun h => hdr_injective h⟩

theorem length_filter_not {α : Type} (p : α → Bool) (l : List α) :
    ((l.filter p).length : Int) = (l.length : Int) - ((l.filter (fun a => !p a)).length : Int) := by
  induction l with
  | nil => simp
  | cons a l ih =>
    simp only [List.filter_cons]
    cases hp : p a
    · simp only [Bool.false_eq_true, if_false, Bool.not_false, if_true, List.length_cons]
      push_cast; omega
    · simp only [if_true, Bool.not_true, Bool.false_eq_true, if_false, List.length_cons]
      push_cast; omega

theorem colRing_live_singleton {nc : Nat} {P : List (Nat × Nat)} {s : Heap}
    (hrow : ∀ e, e ∈ cells nc P → s.rowID e.1 = (e.2.1 : Int)) (c c2 : Nat) :
    colRing nc P (liveCell P [c]) c2
      = (colRing nc P (fun _ => true) c2).filter (fun n =>
          (colRing nc P (fun _ => true) c).all (fun m => decide (s.rowID m ≠ s.rowID n))) := by
  simp only [colRing, List.filter_map, List.filter_filter]
  congr 1
  apply List.filter_congr
  rintro ⟨n, r, c3⟩ he
  simp only [Bool.and_true, Function.comp]
  by_cases hc3 : c3 = c2
  swap
  · simp [hc3]
  subst hc3
  simp only [decide_True, Bool.true_and, Bool.and_true]
  rw [Bool.eq_iff_iff, liveCell, rowLive_iff, List.all_eq_true]
  simp only [List.mem_singleton, List.mem_map, List.mem_filter, decide_eq_true_eq,
    forall_exists_index, and_imp]
  have hr := hrow _ he
  simp only at hr
  constructor
  · rintro h m ⟨m2, r2, c4⟩ hm hc4 rfl
    simp only at hc4
    subst hc4
    have hr2 := hrow _ hm
    simp only at hr2
    rw [hr, hr2]
    intro e
    have e2 : r2 = r := by exact_mod_cast e
    subst e2
    exact h _ (cells_mem_coords hm) rfl
  · intro h d hd hdc
    subst hdc
    obtain ⟨m, hm⟩ := @mem_cellsFrom_of_mem (nc + 1) _ _ hd
    have hm2 : (m, r, d) ∈ cells nc P := hm
    have := h m (m, r, d) hm2 rfl rfl
    rw [hr, hrow _ hm2] at this
    exact this rfl
/-! ## Nested covers and their undoing in reverse order -/

theorem coverList_spec {nc : Nat} {P : List (Nat × Nat)} (cs : List Nat) {K : List Nat}
    {s : Heap} (hi : Inv nc P K s) (hlt : ∀ c, c ∈ cs → c < nc) (hnd : cs.Nodup)
    (hK : ∀ c, c ∈ cs → c ∉ K) {fuel : Nat} (hf : 2 * P.length < fuel) :
    coverList fuel s (cs.map hdr) = some (coverAll nc P cs K s) := by
  induction cs generalizing K s with
  | nil => rfl
  | cons c cs ih =>
    have hc := hlt c (List.mem_cons_self _ _)
    have hcK := hK c (List.mem_cons_self _ _)
    have hnd2 := List.nodup_cons.mp hnd
    simp only [List.map_cons, coverList, cover_eq hi hc hcK hf, coverAll]
    refine ih (cover_inv hi hc hcK) (fun d hd => hlt d (List.mem_cons_of_mem _ hd)) hnd2.2 ?_
    intro d hd
    simp only [List.mem_cons, not_or]
    exact ⟨fun e => hnd2.1 (e ▸ hd), hK d (List.mem_cons_of_mem _ hd)⟩

theorem uncoverList_append (fuel : Nat) (s : Heap) (l1 l2 : List Nat) :
    uncoverList fuel s (l1 ++ l2)
      = (uncoverList fuel s l1).bind (fun t => uncoverList fuel t l2) := by
  induction l1 generalizing s with
  | nil => rfl
  | cons X l1 ih =>
    simp only [List.cons_append, uncoverList]
    cases uncover fuel s X with
    | none => rfl
    | some s1 => exact ih s1

theorem uncoverList_spec {nc : Nat} {P : List (Nat × Nat)} (cs : List Nat) {K : List Nat}
    {s : Heap} (hi : Inv nc P K s) (hlt : ∀ c, c ∈ cs → c < nc) (hnd : cs.Nodup)
    (hK : ∀ c, c ∈ cs → c ∉ K) {fuel : Nat} (hf : 2 * P.length < fuel) :
    uncoverList fuel (coverAll nc P cs K s) (cs.map hdr).reverse = some s := by
  induction cs generalizing K s with
  | nil => rfl
  | cons c cs ih =>
    have hc := hlt c (List.mem_cons_self _ _)
    have hcK := hK c (List.mem_cons_self _ _)
    have hnd2 := List.nodup_cons.mp hnd
    have hK2 : ∀ d, d ∈ cs → d ∉ c :: K := by
      intro d hd
      simp only [List.mem_cons, not_or]
      exact ⟨fun e => hnd2.1 (e ▸ hd), hK d (List.mem_cons_of_mem _ hd)⟩
    have h1 := ih (cover_inv hi hc hcK) (fun d hd => hlt d (List.mem_cons_of_mem _ hd))
      hnd2.2 hK2
    simp only [List.map_cons, List.reverse_cons, uncoverList_append, coverAll, h1,
      Option.some_bind, uncoverList, uncover_cover hi hc hcK hf]

theorem headers_of_ring {nc : Nat} {K : List Nat} {s : Heap} (hr : HRing nc K s)
    {Xs : List Nat} (hX : ∀ X, X ∈ Xs → InHeaderRing s 0 X) :
    ∃ cs : List Nat, Xs = cs.map hdr ∧ ∀ c, c ∈ cs → c < nc ∧ c ∉ K := by
  induction Xs with
  | nil => exact ⟨[], rfl, by simp⟩
  | cons X Xs ih =>
    obtain ⟨cs, rfl, hcs⟩ := ih (fun Y hY => hX Y (List.mem_cons_of_mem _ hY))
    obtain ⟨c, hc, hcK, rfl⟩ := inHeaderRing_hdr hr (hX X (List.mem_cons_self _ _))
    refine ⟨c :: cs, rfl, ?_⟩
    intro d hd
    rcases List.mem_cons.mp hd with rfl | hd
    · exact ⟨hc, hcK⟩
    · exact hcs d hd
/-! ## The column choice on an arbitrary arena -/

theorem chooseCol_walk {s : Heap} {h : Nat} (cs : List Nat) {best x fuel : Nat}
    (hw : Walk s.right x cs h) (hf : cs.length < fuel) :
    ∃ col, chooseCol fuel s h best x = some col ∧
      s.nodeCount col ≤ s.nodeCount best ∧
      (∀ y, y ∈ cs → s.nodeCount col ≤ s.nodeCount y) ∧
      (col = best ∨ ∃ pre post, cs = pre ++ col :: post ∧
        s.nodeCount col < s.nodeCount best ∧ ∀ y, y ∈ pre → s.nodeCount col < s.nodeCount y) := by
  induction cs generalizing best x fuel with
  | nil =>
    cases fuel with
    | zero => simp at hf
    | succ fuel =>
      simp only [Walk] at hw
      exact ⟨best, by simp [chooseCol, hw], le_refl _, by simp, Or.inl rfl⟩
  | cons y cs ih =>
    cases fuel with
    | zero => simp at hf
    | succ fuel =>
      simp only [Walk] at hw
      obtain ⟨rfl, hne, hw2⟩ := hw
      simp only [List.length_cons] at hf
      obtain ⟨col, h1, h2, h3, h4⟩ :=
        @ih (if s.nodeCount x < s.nodeCount best then x else best) (s.right x) fuel hw2
          (by omega)
      refine ⟨col, by simp only [chooseCol, hne, if_false]; exact h1, ?_, ?_, ?_⟩
      · split_ifs at h2 with hlt
        · omega
        · exact h2
      · intro z hz
        rcases List.mem_cons.mp hz with rfl | hz
        · split_ifs at h2 with hlt
          · exact h2
          · omega
        · exact h3 z hz
      · split_ifs at h2 h4 with hlt
        · right
          rcases h4 with rfl | ⟨pre, post, e1, e2, e3⟩
          · exact ⟨[], cs, rfl, hlt, by simp⟩
          · refine ⟨x :: pre, post, by rw [e1]; rfl, by omega, ?_⟩
            intro z hz
            rcases List.mem_cons.mp hz with rfl | hz
            · exact e2
            · exact e3 z hz
        · rcases h4 with rfl | ⟨pre, post, e1, e2, e3⟩
          · exact Or.inl rfl
          · right
            refine ⟨x :: pre, post, by rw [e1]; rfl, e2, ?_⟩
            intro z hz
            rcases List.mem_cons.mp hz with rfl | hz
            · omega
            · exact e3 z hz
/-! ## The observed search is the search -/

theorem coverRowColsT_fst (fuel : Nat) (s : Heap) (row n : Nat) (log : List Event) :
    (coverRowColsT fuel s row n log).map Prod.fst = coverRowCols fuel s row n := by
  induction fuel generalizing s n log with
  | zero => rfl
  | succ fuel ih =>
    simp only [coverRowColsT, coverRowCols]
    by_cases h : n = row
    · simp [h]
    · simp only [h, ↓reduceIte]
      cases cover fuel s (s.colHeader n) with
      | none => rfl
      | some s1 => exact ih _ _ _

theorem uncoverRowColsT_fst (fuel : Nat) (s : Heap) (row n : Nat) (log : List Event) :
    (uncoverRowColsT fuel s row n log).map Prod.fst = uncoverRowCols fuel s row n := by
  induction fuel generalizing s n log with
  | zero => rfl
  | succ fuel ih =>
    simp only [uncoverRowColsT, uncoverRowCols]
    by_cases h : n = row
    · simp [h]
    · simp only [h, ↓reduceIte]
      cases uncover fuel s (s.colHeader n) with
      | none => rfl
      | some s1 => exact ih _ _ _

theorem option_map_fst_some {α β : Type} {o : Option (α × β)} {a : α}
    (h : o.map Prod.fst = some a) : ∃ b, o = some (a, b) := by
  cases o with
  | none => simp at h
  | some p =>
    obtain ⟨x, y⟩ := p
    simp only [Option.map_some', Option.some.injEq] at h
    subst h
    exact ⟨y, rfl⟩

theorem option_map_fst_none {α β : Type} {o : Option (α × β)}
    (h : o.map Prod.fst = none) : o = none := by
  cases o with
  | none => rfl
  | some p => simp at h

theorem solveRowsT_fst {recT : SearchState → List Event → Option (SearchState × List Event)}
    {recS : SearchState → Option SearchState}
    (hrec : ∀ st log, (recT st log).map Prod.fst = recS st) (entry : Heap)
    (fuel col row : Nat) (st : SearchState) (log : List Event) :
    (solveRowsT recT entry fuel col row st log).map Prod.fst
      = solveRows recS fuel col row st := by
  induction fuel generalizing row st log with
  | zero => rfl
  | succ fuel ih =>
    simp only [solveRowsT, solveRows]
    by_cases h : row = col
    · simp [h]
    · simp only [h, ↓reduceIte]
      have h1 := coverRowColsT_fst fuel st.heap row (st.heap.right row)
        (log ++ [Event.pushed (st.solution ++ [st.heap.rowID row])])
      cases hc : coverRowCols fuel st.heap row (st.heap.right row) with
      | none =>
        rw [hc] at h1
        rw [option_map_fst_none h1]
        rfl
      | some hp2 =>
        rw [hc] at h1
        obtain ⟨log2, h2⟩ := option_map_fst_some h1
        rw [h2]
        simp only
        have h3 := hrec ⟨hp2, st.solution ++ [st.heap.rowID row], st.numSolutions, st.out⟩
          (log2 ++ [Event.called entry hp2])
        cases hr : recS ⟨hp2, st.solution ++ [st.heap.rowID row], st.numSolutions, st.out⟩ with
        | none =>
          rw [hr] at h3
          rw [option_map_fst_none h3]
          rfl
        | some st3 =>
          rw [hr] at h3
          obtain ⟨log3, h4⟩ := option_map_fst_some h3
          rw [h4]
          simp only
          have h5 := uncoverRowColsT_fst fuel st3.heap row (st3.heap.left row) log3
          cases hu : uncoverRowCols fuel st3.heap row (st3.heap.left row) with
          | none =>
            rw [hu] at h5
            rw [option_map_fst_none h5]
            rfl
          | some hp5 =>
            rw [hu] at h5
            obtain ⟨log5, h6⟩ := option_map_fst_some h5
            rw [h6]
            exact ih _ _ _

/-- Erasing the log from the observed `solve` gives `solve`: on every arena
and with every fuel both return or both run out of fuel, with the same state. -/
theorem solveT_fst (fuel h : Nat) (pr : Bool) (st : SearchState) (log : List Event) :
    (solveT fuel h pr st log).map Prod.fst = solve fuel h pr st := by
  induction fuel generalizing st log with
  | zero => rfl
  | succ fuel ih =>
    simp only [solveT, solve]
    by_cases h0 : st.heap.right h = h
    · simp [h0]
    · simp only [h0, ↓reduceIte]
      cases chooseCol fuel st.heap h (st.heap.right h) (st.heap.right h) with
      | none => rfl
      | some col =>
        simp only
        cases cover fuel st.heap col with
        | none => rfl
        | some hp1 =>
          simp only
          have h1 := @solveRowsT_fst (solveT fuel h pr) (solve fuel h pr)
            (fun st log => ih st log) st.heap fuel col (hp1.down col)
            ⟨hp1, st.solution, st.numSolutions, st.out⟩ (log ++ [Event.covered hp1])
          cases hr : solveRows (solve fuel h pr) fuel col (hp1.down col)
            ⟨hp1, st.solution, st.numSolutions, st.out⟩ with
          | none =>
            rw [hr] at h1
            rw [option_map_fst_none h1]
            rfl
          | some st2 =>
            rw [hr] at h1
            obtain ⟨log2, h2⟩ := option_map_fst_some h1
            rw [h2]
            simp only
            cases uncover fuel st2.heap col <;> rfl

theorem coverRowColsT_filter (fuel : Nat) (s : Heap) (row n : Nat) (log : List Event) :
    (coverRowColsT fuel s row n log).map (fun r => (r.1, r.2.filter Event.noPush))
      = coverRowColsT fuel s row n (log.filter Event.noPush) := by
  induction fuel generalizing s n log with
  | zero => rfl
  | succ fuel ih =>
    simp only [coverRowColsT]
    by_cases h : n = row
    · simp [h]
    · simp only [h, ↓reduceIte]
      cases cover fuel s (s.colHeader n) with
      | none => rfl
      | some s1 =>
        simp only
        rw [ih]
        simp [List.filter_append, Event.noPush]

theorem uncoverRowColsT_filter (fuel : Nat) (s : Heap) (row n : Nat) (log : List Event) :
    (uncoverRowColsT fuel s row n log).map (fun r => (r.1, r.2.filter Event.noPush))
      = uncoverRowColsT fuel s row n (log.filter Event.noPush) := by
  induction fuel generalizing s n log with
  | zero => rfl
  | succ fuel ih =>
    simp only [uncoverRowColsT]
    by_cases h : n = row
    · simp [h]
    · simp only [h, ↓reduceIte]
      cases uncover fuel s (s.colHeader n) with
      | none => rfl
      | some s1 =>
        simp only
        rw [ih]
        simp [List.filter_append, Event.noPush]

theorem option_map_pair_some {α β γ : Type} {f : β → γ} {o : Option (α × β)} {a : α} {c : γ}
    (h : o.map (fun r => (r.1, f r.2)) = some (a, c)) : ∃ b, o = some (a, b) ∧ f b = c := by
  cases o with
  | none => simp at h
  | some p =>
    obtain ⟨x, y⟩ := p
    simp only [Option.map_some', Option.some.injEq, Prod.mk.injEq] at h
    obtain ⟨rfl, rfl⟩ := h
    exact ⟨y, rfl, rfl⟩

theorem option_map_eq_none {α β : Type} {f : α → β} {o : Option α}
    (h : o.map f = none) : o = none := by
  cases o with
  | none => rfl
  | some p => simp at h

theorem countRowsT_sim {recS : SearchState → List Event → Option (SearchState × List Event)}
    {recC : Heap × Int → List Event → Option ((Heap × Int) × List Event)}
    (hrec : ∀ st log, (recS st log).map (fun r => (countView r.1, r.2.filter Event.noPush))
      = recC (countView st) (log.filter Event.noPush))
    (entry : Heap) (fuel col row : Nat) (st : SearchState) (log : List Event) :
    (solveRowsT recS entry fuel col row st log).map
        (fun r => (countView r.1, r.2.filter Event.noPush))
      = countRowsT recC entry fuel col row (countView st) (log.filter Event.noPush) := by
  induction fuel generalizing row st log with
  | zero => rfl
  | succ fuel ih =>
    simp only [solveRowsT, countRowsT]
    by_cases h : row = col
    · simp [h]
    · simp only [h, ↓reduceIte, countView]
      have h1 := coverRowColsT_filter fuel st.heap row (st.heap.right row)
        (log ++ [Event.pushed (st.solution ++ [st.heap.rowID row])])
      simp only [List.filter_append, List.filter_cons, Event.noPush, Bool.false_eq_true,
        if_false, List.filter_nil, List.append_nil] at h1
      cases hc : coverRowColsT fuel st.heap row (st.heap.right row)
          (List.filter Event.noPush log) with
      | none =>
        rw [hc] at h1
        rw [option_map_eq_none h1]
        rfl
      | some p2 =>
        obtain ⟨hp2, flog2⟩ := p2
        rw [hc] at h1
        obtain ⟨log2, h2, h2f⟩ := option_map_pair_some h1
        rw [h2]
        simp only
        have h3 := hrec ⟨hp2, st.solution ++ [st.heap.rowID row], st.numSolutions, st.out⟩
          (log2 ++ [Event.called entry hp2])
        simp only [List.filter_append, List.filter_cons, Event.noPush, if_true,
          List.filter_nil, h2f, countView] at h3
        rw [← h3]
        cases hr : recS ⟨hp2, st.solution ++ [st.heap.rowID row], st.numSolutions, st.out⟩
            (log2 ++ [Event.called entry hp2]) with
        | none => rfl
        | some p3 =>
          obtain ⟨st3, log3⟩ := p3
          simp only [Option.map_some', countView]
          have h5 := uncoverRowColsT_filter fuel st3.heap row (st3.heap.left row) log3
          cases hu : uncoverRowColsT fuel st3.heap row (st3.heap.left row)
              (List.filter Event.noPush log3) with
          | none =>
            rw [hu] at h5
            rw [option_map_eq_none h5]
            rfl
          | some p5 =>
            obtain ⟨hp5, flog5⟩ := p5
            rw [hu] at h5
            obtain ⟨log5, h6, h6f⟩ := option_map_pair_some h5
            rw [h6]
            simp only
            have := ih (hp5.down row)
              ⟨hp5, st3.solution.dropLast, st3.numSolutions, st3.out⟩ log5
            simp only [countView, h6f] at this
            exact this

/-- The observed `countSolutions` is the observed `solve` without the
`solution` vector and the output, and records the same events but the pushes. -/
theorem countSolutionsT_sim (fuel h : Nat) (pr : Bool) (st : SearchState) (log : List Event) :
    (solveT fuel h pr st log).map (fun r => (countView r.1, r.2.filter Event.noPush))
      = countSolutionsT fuel h (countView st) (log.filter Event.noPush) := by
  induction fuel generalizing st log with
  | zero => rfl
  | succ fuel ih =>
    simp only [solveT, countSolutionsT, countView]
    by_cases h0 : st.heap.right h = h
    · simp [h0, countView]
    · simp only [h0, ↓reduceIte]
      cases chooseCol fuel st.heap h (st.heap.right h) (st.heap.right h) with
      | none => rfl
      | some col =>
        simp only
        cases cover fuel st.heap col with
        | none => rfl
        | some hp1 =>
          simp only
          have h1 := @countRowsT_sim (solveT fuel h pr) (countSolutionsT fuel h)
            (fun st log => ih st log) st.heap fuel col (hp1.down col)
            ⟨hp1, st.solution, st.numSolutions, st.out⟩ (log ++ [Event.covered hp1])
          simp only [List.filter_append, List.filter_cons, Event.noPush, if_true,
            List.filter_nil, countView] at h1
          rw [← h1]
          cases hr : solveRowsT (solveT fuel h pr) st.heap fuel col (hp1.down col)
            ⟨hp1, st.solution, st.numSolutions, st.out⟩ (log ++ [Event.covered hp1]) with
          | none => rfl
          | some p2 =>
            obtain ⟨st2, log2⟩ := p2
            simp only [Option.map_some', countView]
            cases uncover fuel st2.heap col with
            | none => rfl
            | some hp3 =>
              simp [countView, List.filter_append, Event.noPush]

theorem countRowsT_fst
    {recT : Heap × Int → List Event → Option ((Heap × Int) × List Event)}
    {recC : Heap × Int → Option (Heap × Int)}
    (hrec : ∀ st log, (recT st log).map Prod.fst = recC st) (entry : Heap)
    (fuel col row : Nat) (st : Heap × Int) (log : List Event) :
    (countRowsT recT entry fuel col row st log).map Prod.fst
      = countRows recC fuel col row st := by
  induction fuel generalizing row st log with
  | zero => rfl
  | succ fuel ih =>
    simp only [countRowsT, countRows]
    by_cases h : row = col
    · simp [h]
    · simp only [h, ↓reduceIte]
      have h1 := coverRowColsT_fst fuel st.1 row (st.1.right row) log
      cases hc : coverRowCols fuel st.1 row (st.1.right row) with
      | none =>
        rw [hc] at h1
        rw [option_map_fst_none h1]
        rfl
      | some hp2 =>
        rw [hc] at h1
        obtain ⟨log2, h2⟩ := option_map_fst_some h1
        rw [h2]
        simp only
        have h3 := hrec (hp2, st.2) (log2 ++ [Event.called entry hp2])
        cases hr : recC (hp2, st.2) with
        | none =>
          rw [hr] at h3
          rw [option_map_fst_none h3]
          rfl
        | some st3 =>
          rw [hr] at h3
          obtain ⟨log3, h4⟩ := option_map_fst_some h3
          rw [h4]
          simp only
          have h5 := uncoverRowColsT_fst fuel st3.1 row (st3.1.left row) log3
          cases hu : uncoverRowCols fuel st3.1 row (st3.1.left row) with
          | none =>
            rw [hu] at h5
            rw [option_map_fst_none h5]
            rfl
          | some hp5 =>
            rw [hu] at h5
            obtain ⟨log5, h6⟩ := option_map_fst_some h5
            rw [h6]
            exact ih _ _ _

/-- Erasing the log from the observed `countSolutions` gives `countSolutions`. -/
theorem countSolutionsT_fst (fuel h : Nat) (st : Heap × Int) (log : List Event) :
    (countSolutionsT fuel h st log).map Prod.fst = countSolutions fuel h st := by
  induction fuel generalizing st log with
  | zero => rfl
  | succ fuel ih =>
    simp only [countSolutionsT, countSolutions]
    by_cases h0 : st.1.right h = h
    · simp [h0]
    · simp only [h0, ↓reduceIte]
      cases chooseCol fuel st.1 h (st.1.right h) (st.1.right h) with
      | none => rfl
      | some col =>
        simp only
        cases cover fuel st.1 col with
        | none => rfl
        | some hp1 =>
          simp only
          have h1 := @countRowsT_fst (countSolutionsT fuel h) (countSolutions fuel h)
            (fun st log => ih st log) st.1 fuel col (hp1.down col)
            (hp1, st.2) (log ++ [Event.covered hp1])
          cases hr : countRows (countSolutions fuel h) fuel col (hp1.down col) (hp1, st.2) with
          | none =>
            rw [hr] at h1
            rw [option_map_fst_none h1]
            rfl
          | some st2 =>
            rw [hr] at h1
            obtain ⟨log2, h2⟩ := option_map_fst_some h1
            rw [h2]
            simp only
            cases uncover fuel st2.1 col <;> rfl
/-! ## The vertical rings of the covered columns -/

theorem lvK_not_mem (P : List (Nat × Nat)) {K : List Nat} {e : Cell} (h : e.2.2 ∉ K) :
    lvK P K e = rowLive P K e.2.1 := by
  cases K with
  | nil => simp [lvK, rowLive_nil]
  | cons d K => simp only [lvK, h, if_false]

theorem lvK_mem (P : List (Nat × Nat)) (d : Nat) (K : List Nat) {e : Cell}
    (h : e.2.2 ∈ d :: K) : lvK P (d :: K) e = lvK P K e := by
  simp only [lvK, h, if_true]

theorem liveCols_eq_of_hring {nc : Nat} {K K2 : List Nat} {s : Heap} (h1 : HRing nc K s)
    (h2 : HRing nc K2 s) : liveCols nc K = liveCols nc K2 := by
  have w1 := Cyc_walk h1 (hring_nodup nc K)
  have w2 := Cyc_walk h2 (hring_nodup nc K2)
  exact List.map_injective_iff.mpr hdr_injective (Walk_unique w1 w2)

theorem VRings_congr_cols {nc : Nat} {P : List (Nat × Nat)} {lv lv2 : Cell → Bool}
    {cols : Nat → Prop} {s : Heap} (hv : VRings nc P lv cols s)
    (h : ∀ c, c < nc → cols c → colRing nc P lv c = colRing nc P lv2 c) :
    VRings nc P lv2 cols s := by
  intro c hc hcol
  rw [← h c hc hcol]
  exact hv c hc hcol

theorem cover_vringsK {nc : Nat} {P : List (Nat × Nat)} {K : List Nat} {s : Heap}
    (hi : Inv nc P K s) (hv : VRings nc P (lvK P K) (fun _ => True) s) {c : Nat}
    (hc : c < nc) (hcK : c ∉ K) :
    VRings nc P (lvK P (c :: K)) (fun _ => True) (coverAbs nc P K s c) := by
  obtain ⟨hs1, -, -, -, -⟩ := unlinkHorizontally_spec hi hc hcK
  have hv1 : VRings nc P (lvK P K) (fun _ => True) (unlinkHorizontally s (hdr c)) :=
    VRings_of_eq hv rfl rfl rfl
  have hT0 := validTrav_cover hi.static K c
  have hT : ValidTrav nc P (lvK P K) (fun _ => True) (coverTrav nc P (liveCell P K) c) := by
    refine ⟨hT0.1, fun n hn => ?_⟩
    obtain ⟨r, c2, k1, k2, k3, k4, -⟩ := hT0.2 n hn
    refine ⟨r, c2, k1, ?_, k3, trivial⟩
    rw [lvK_not_mem P (show (n, r, c2).2.2 ∉ K from k4)]
    exact k2
  have hfold := VRings_fold _ hs1 hv1 hT
  refine VRings_congr_cols hfold ?_
  intro c2 hc2 _
  by_cases hm : c2 ∈ c :: K
  · apply colRing_congr_col
    rintro ⟨n, r, c3⟩ he h3
    simp only at h3; subst h3
    rw [lvK_mem P c K (show (n, r, c3).2.2 ∈ c :: K from hm)]
    have hn : n ∉ coverTrav nc P (liveCell P K) c := by
      intro hn
      obtain ⟨r2, c4, k1, -, -, k4, k5⟩ := hT0.2 n hn
      have := cells_addr_inj k1 he rfl
      simp only [Prod.mk.injEq, true_and] at this
      obtain ⟨-, rfl⟩ := this
      rcases List.mem_cons.mp hm with h | h
      · exact k5 h
      · exact k4 h
    simp [hn]
  · have hne : c2 ≠ c := fun e => hm (by simp [e])
    have hnK : c2 ∉ K := fun h => hm (List.mem_cons_of_mem _ h)
    have e1 : colRing nc P (fun e => lvK P K e &&
          decide (e.1 ∉ coverTrav nc P (liveCell P K) c)) c2
        = colRing nc P (fun e => liveCell P K e &&
          decide (e.1 ∉ coverTrav nc P (liveCell P K) c)) c2 := by
      apply colRing_congr_col
      rintro ⟨n, r, c3⟩ _ h3
      simp only at h3; subst h3
      rw [lvK_not_mem P (show (n, r, c3).2.2 ∉ K from hnK)]
      rfl
    have e2 : colRing nc P (liveCell P (c :: K)) c2 = colRing nc P (lvK P (c :: K)) c2 := by
      apply colRing_congr_col
      rintro ⟨n, r, c3⟩ _ h3
      simp only at h3; subst h3
      rw [lvK_not_mem P (show (n, r, c3).2.2 ∉ c :: K from hm)]
      rfl
    rw [e1, colRing_cover K hne, e2]

theorem cover_good {nc : Nat} {P : List (Nat × Nat)} {K : List Nat} {s : Heap}
    (hi : Inv nc P K s) (hg : Good nc P s) {c : Nat} (hc : c < nc) (hcK : c ∉ K) :
    Good nc P (coverAbs nc P K s c) := by
  obtain ⟨K2, hi2, hv2⟩ := hg
  have e := liveCols_eq_of_hring hi.hring hi2.hring
  have hcK2 : c ∉ K2 := by
    have : c ∈ liveCols nc K2 := e ▸ mem_liveCols.mpr ⟨hc, hcK⟩
    exact (mem_liveCols.mp this).2
  have h1 := cover_eq hi hc hcK (Nat.lt_succ_self (2 * P.length))
  have h2 := cover_eq hi2 hc hcK2 (Nat.lt_succ_self (2 * P.length))
  rw [h1] at h2
  rw [Option.some.inj h2]
  exact ⟨c :: K2, cover_inv hi2 hc hcK2, cover_vringsK hi2 hv2 hc hcK2⟩

theorem coverAll_good {nc : Nat} {P : List (Nat × Nat)} (cs : List Nat) {K : List Nat}
    {s : Heap} (hi : Inv nc P K s) (hg : Good nc P s) (hlt : ∀ c, c ∈ cs → c < nc)
    (hnd : cs.Nodup) (hK : ∀ c, c ∈ cs → c ∉ K) : Good nc P (coverAll nc P cs K s) := by
  induction cs generalizing K s with
  | nil => exact hg
  | cons c cs ih =>
    have hc := hlt c (List.mem_cons_self _ _)
    have hcK := hK c (List.mem_cons_self _ _)
    have hnd2 := List.nodup_cons.mp hnd
    simp only [coverAll]
    refine ih (cover_inv hi hc hcK) (cover_good hi hg hc hcK)
      (fun d hd => hlt d (List.mem_cons_of_mem _ hd)) hnd2.2 ?_
    intro d hd
    simp only [List.mem_cons, not_or]
    exact ⟨fun e => hnd2.1 (e ▸ hd), hK d (List.mem_cons_of_mem _ hd)⟩

theorem Good_countOK {nc : Nat} {P : List (Nat × Nat)} {s : Heap} (hg : Good nc P s) :
    CountOK nc s := by
  obtain ⟨K, -, hv⟩ := hg
  intro c hc
  obtain ⟨v1, v2⟩ := hv c hc trivial
  exact ⟨_, Cyc_walk v1 (vring_nodup nc _ _ hc), fun n hn => (colRing_lt hn).1, v2⟩

theorem Built_good {nc : Nat} {P : List (Nat × Nat)} {s : Heap} (hb : Built nc P s)
    (hi : Inv nc P [] s) : Good nc P s :=
  ⟨[], hi, VRings_congr (fun _ _ => rfl) hb.vrings⟩
/-! ## What the observer sees -/

theorem ringShorter_of_inv {nc : Nat} {P : List (Nat × Nat)} {K K2 : List Nat} {s s2 : Heap}
    (h1 : Inv nc P K s) (h2 : Inv nc P K2 s2)
    (hlt : (liveCols nc K2).length < (liveCols nc K).length) : RingShorter 0 s s2 :=
  ⟨_, _, Cyc_walk h1.hring (hring_nodup nc K), Cyc_walk h2.hring (hring_nodup nc K2),
    by simpa using hlt⟩

theorem rowLive_mono {P : List (Nat × Nat)} {K K2 : List Nat} (h : ∀ d, d ∈ K → d ∈ K2)
    {r : Nat} (hr : rowLive P K2 r = true) : rowLive P K r = true := by
  rw [rowLive_iff] at hr ⊢
  exact fun c hc hK => hr c hc (h c hK)

theorem filter_length_lt {α : Type} {p q : α → Bool} (h : ∀ x, p x = true → q x = true)
    {l : List α} {x0 : α} (hx : x0 ∈ l) (hq : q x0 = true) (hp : p x0 = false) :
    (l.filter p).length < (l.filter q).length := by
  induction l with
  | nil => simp at hx
  | cons y l ih =>
    have hle : (l.filter p).length ≤ (l.filter q).length :=
      (List.monotone_filter_right l h).length_le
    rcases List.mem_cons.mp hx with rfl | hx
    · simp only [List.filter_cons, hq, hp, if_true, Bool.false_eq_true, if_false,
        List.length_cons]
      omega
    · have := ih hx
      simp only [List.filter_cons]
      cases hpy : p y
      · cases hqy : q y
        · simpa using this
        · simp only [Bool.false_eq_true, if_false, if_true, List.length_cons]; omega
      · simp only [h y hpy, if_true, List.length_cons]; omega

theorem liveRowCount_lt {P : List (Nat × Nat)} {K K2 : List Nat} {R r : Nat}
    (h : ∀ d, d ∈ K → d ∈ K2) (hr : r < R) (h1 : rowLive P K r = true)
    (h2 : rowLive P K2 r = false) : liveRowCount P K2 R < liveRowCount P K R :=
  filter_length_lt (fun _ hx => rowLive_mono h hx) (List.mem_range.mpr hr) h1 h2

theorem liveRowCount_congr {P : List (Nat × Nat)} {K K2 : List Nat}
    (h : ∀ c, c ∈ K ↔ c ∈ K2) (R : Nat) : liveRowCount P K R = liveRowCount P K2 R := by
  simp only [liveRowCount]
  congr 1
  apply List.filter_congr
  intro r _
  exact rowLive_congr h r

theorem liveRowCount_nil (P : List (Nat × Nat)) (R : Nat) : liveRowCount P [] R = R := by
  simp only [liveRowCount]
  rw [List.filter_eq_self.mpr (fun r _ => rowLive_nil P r)]
  simp

theorem coverRowColsT_spec {nc : Nat} {P : List (Nat × Nat)} {a R : Nat} (T : List Nat)
    {K : List Nat} {s : Heap} {x fuel : Nat} {log : List Event} (hi : Inv nc P K s)
    (hg : Good nc P s)
    (hw : Walk s.right x T a) (hT : ∀ n, n ∈ T → ∃ r c, (n, r, c) ∈ cells nc P)
    (hnd : (T.map (colOf nc P)).Nodup) (hK : ∀ c, c ∈ T.map (colOf nc P) → c ∉ K)
    (hf : T.length + 2 * P.length < fuel) :
    ∃ evs, coverRowColsT fuel s a x log
        = some (coverAll nc P (T.map (colOf nc P)) K s, log ++ evs) ∧
      ∀ e, e ∈ evs → GoodEv nc R e := by
  induction T generalizing K s x fuel log with
  | nil =>
    cases fuel with
    | zero => simp at hf
    | succ fuel =>
      simp only [Walk] at hw
      exact ⟨[], by simp [coverRowColsT, hw, coverAll], by simp⟩
  | cons n T ih =>
    cases fuel with
    | zero => simp at hf
    | succ fuel =>
      simp only [Walk] at hw
      obtain ⟨rfl, hne, hw⟩ := hw
      obtain ⟨r, c, hcell⟩ := hT x (by simp)
      have hcol : colOf nc P x = c := colOf_cell hcell
      have hc : c < nc := hi.static.col_lt _ (cells_mem_coords hcell)
      simp only [List.map_cons, hcol] at hnd hK ⊢
      have h1 := List.nodup_cons.mp hnd
      have hcK : c ∉ K := hK c (by simp)
      simp only [List.length_cons] at hf
      have hch : s.colHeader x = hdr c := hi.static.colHeader_cell _ hcell
      have hi2 := cover_inv hi hc hcK
      have hg2 := cover_good hi hg hc hcK
      have hr : (coverAbs nc P K s c).right x = s.right x :=
        (Static_links_eq hi.static hi2.static hcell).1
      have hK2 : ∀ d, d ∈ T.map (colOf nc P) → d ∉ c :: K := by
        intro d hd
        simp only [List.mem_cons, not_or]
        exact ⟨fun e => h1.1 (e ▸ hd), hK d (List.mem_cons_of_mem _ hd)⟩
      obtain ⟨evs, k1, k2⟩ := @ih (c :: K) (coverAbs nc P K s c) (s.right x) fuel
        (log ++ [Event.covered (coverAbs nc P K s c)]) hi2 hg2
        ((Walk_static hi.static hi2.static
          (fun m hm => hT m (List.mem_cons_of_mem _ hm))).1 hw)
        (fun m hm => hT m (List.mem_cons_of_mem _ hm)) h1.2 hK2 (by omega)
      refine ⟨Event.covered (coverAbs nc P K s c) :: evs, ?_, ?_⟩
      · simp only [coverRowColsT, hne, ↓reduceIte, hch,
          cover_eq hi hc hcK (by omega : _ < fuel), coverAll, hr, k1, List.append_assoc,
          List.singleton_append]
      · intro e he
        rcases List.mem_cons.mp he with rfl | he
        · exact Good_countOK hg2
        · exact k2 e he

theorem uncoverRowColsT_spec {nc : Nat} {P : List (Nat × Nat)} {a R : Nat} (T : List Nat)
    {K : List Nat} {s : Heap} {x fuel : Nat} {log : List Event} (hi : Inv nc P K s)
    (hg : Good nc P s)
    (hw : Walk (coverAll nc P (T.map (colOf nc P)) K s).left x T.reverse a)
    (hT : ∀ n, n ∈ T → ∃ r c, (n, r, c) ∈ cells nc P)
    (hnd : (T.map (colOf nc P)).Nodup) (hK : ∀ c, c ∈ T.map (colOf nc P) → c ∉ K)
    (hf : T.length + 2 * P.length < fuel) :
    ∃ evs, uncoverRowColsT fuel (coverAll nc P (T.map (colOf nc P)) K s) a x log
        = some (s, log ++ evs) ∧
      ∀ e, e ∈ evs → GoodEv nc R e := by
  induction T using List.reverseRecOn generalizing x fuel log with
  | nil =>
    cases fuel with
    | zero => simp at hf
    | succ fuel =>
      simp only [List.reverse_nil, Walk] at hw
      exact ⟨[], by simp [uncoverRowColsT, hw, coverAll], by simp⟩
  | append_singleton T n ih =>
    cases fuel with
    | zero => simp at hf
    | succ fuel =>
      simp only [List.reverse_append, List.reverse_cons, List.reverse_nil, List.nil_append,
        List.singleton_append, Walk] at hw
      obtain ⟨rfl, hne, hw⟩ := hw
      obtain ⟨r, c, hcell⟩ := hT x (by simp)
      have hcol : colOf nc P x = c := colOf_cell hcell
      have hc : c < nc := hi.static.col_lt _ (cells_mem_coords hcell)
      simp only [List.map_append, List.map_cons, List.map_nil, hcol] at hnd hK hw ⊢
      have h1 := List.nodup_append.mp hnd
      have hT1 : ∀ m, m ∈ T → ∃ r c, (m, r, c) ∈ cells nc P :=
        fun m hm => hT m (List.mem_append_left _ hm)
      have hlt : ∀ d, d ∈ T.map (colOf nc P) → d < nc := by
        intro d hd
        obtain ⟨m, hm, rfl⟩ := List.mem_map.mp hd
        obtain ⟨r2, c2, h2⟩ := hT1 m hm
        rw [colOf_cell h2]
        exact hi.static.col_lt _ (cells_mem_coords h2)
      have hK1 : ∀ d, d ∈ T.map (colOf nc P) → d ∉ K :=
        fun d hd => hK d (List.mem_append_left _ hd)
      have hi1 := coverAll_inv (T.map (colOf nc P)) hi hlt h1.1 hK1
      have hg1 := coverAll_good (T.map (colOf nc P)) hi hg hlt h1.1 hK1
      have hcK : c ∉ (T.map (colOf nc P)).reverse ++ K := by
        simp only [List.mem_append, List.mem_reverse, not_or]
        exact ⟨fun hm => h1.2.2 hm (by simp), hK c (by simp)⟩
      have hi2 := cover_inv hi1 hc hcK
      simp only [List.length_append, List.length_singleton] at hf
      rw [coverAll_append] at hw ⊢
      have hch : (coverAbs nc P ((T.map (colOf nc P)).reverse ++ K)
          (coverAll nc P (T.map (colOf nc P)) K s) c).colHeader x = hdr c :=
        hi2.static.colHeader_cell _ hcell
      have hl : (coverAbs nc P ((T.map (colOf nc P)).reverse ++ K)
          (coverAll nc P (T.map (colOf nc P)) K s) c).left x
          = (coverAll nc P (T.map (colOf nc P)) K s).left x :=
        (Static_links_eq hi1.static hi2.static hcell).2
      obtain ⟨evs, k1, k2⟩ := @ih ((coverAll nc P (T.map (colOf nc P)) K s).left x) fuel
        (log ++ [Event.uncovered (coverAll nc P (T.map (colOf nc P)) K s)])
        (by
          rw [← hl]
          exact (Walk_static hi2.static hi1.static
            (fun m hm => hT1 m (by simpa using hm))).2 hw)
        hT1 h1.1 hK1 (by omega)
      refine ⟨Event.uncovered (coverAll nc P (T.map (colOf nc P)) K s) :: evs, ?_, ?_⟩
      · simp only [uncoverRowColsT, hne, ↓reduceIte, hch,
          uncover_cover hi1 hc hcK (by omega : _ < fuel), k1, List.append_assoc,
          List.singleton_append]
      · intro e he
        rcases List.mem_cons.mp he with rfl | he
        · exact Good_countOK hg1
        · exact k2 e he

theorem solveRowsT_spec {nc : Nat} {P : List (Nat × Nat)} {R : Nat} {K : List Nat} {s : Heap}
    (hi : Inv nc P K s) (hg : Good nc P s) (hR : ∀ x, x ∈ P → x.1 < R) {c : Nat}
    (hc : c < nc) (hcK : c ∉ K) {ga : Nat} {pr : Bool}
    {recur : SearchState → List Event → Option (SearchState × List Event)}
    (hrec : TRecOK nc P R ga pr recur)
    (hga : (liveCols nc K).length ≤ ga) (rest : List Nat) {pre : List Nat}
    (hL : colRing nc P (liveCell P K) c = pre ++ rest) {x fuel : Nat} {sol : List Int}
    {num : Int} {out : List (List Int)} {log : List Event}
    (hm : sol.length + liveRowCount P K R ≤ R)
    (hx : (rest ++ [hdr c]).head? = some x)
    (hf : rest.length + 3 * P.length < fuel) :
    ∃ evs, solveRowsT recur s fuel (hdr c) x ⟨coverAbs nc P K s c, sol, num, out⟩ log =
        some (⟨coverAbs nc P K s c, sol, countUp (rowsAbs nc P ga K rest).length num,
          out ++ emit pr sol (rowsAbs nc P ga K rest)⟩, log ++ evs) ∧
      ∀ e, e ∈ evs → GoodEv nc R e := by
  induction rest generalizing pre x fuel num out log with
  | nil =>
    cases fuel with
    | zero => simp at hf
    | succ fuel =>
      simp only [List.nil_append, List.head?_cons, Option.some.injEq] at hx
      exact ⟨[], by simp [solveRowsT, hx, rowsAbs, emit, countUp_zero], by simp⟩
  | cons a rest ih =>
    cases fuel with
    | zero => simp at hf
    | succ fuel =>
      simp only [List.cons_append, List.head?_cons, Option.some.injEq] at hx
      subst hx
      have hmem : a ∈ colRing nc P (liveCell P K) c := by rw [hL]; simp
      obtain ⟨r, hcell, hlv⟩ := mem_colRing.mp hmem
      simp only [liveCell] at hlv
      have hne : a ≠ hdr c := fun e => hdr_not_mem_colRing nc P _ c c hc (e ▸ hmem)
      simp only [List.length_cons] at hf
      have hlen := others_length hcell
      have hi1 := cover_inv hi hc hcK
      have hg1 := cover_good hi hg hc hcK
      obtain ⟨o1, o2, o3, o4, o5⟩ := others_cols hi.static (K := K) hcell hlv
      have hrid : (coverAbs nc P K s c).rowID a = (r : Int) := hi1.static.rowID_cell _ hcell
      obtain ⟨evs1, hcov, g1⟩ := @coverRowColsT_spec nc P a R (others nc P a) (c :: K)
        (coverAbs nc P K s c) ((coverAbs nc P K s c).right a) fuel
        (log ++ [Event.pushed (sol ++ [(r : Int)])]) hi1 hg1
        (walk_others hi1.static hcell).1 o1 o2 o4 (by omega : _ < fuel)
      have hi2c := coverAll_inv ((others nc P a).map (colOf nc P)) hi1 o3 o2 o4
      have hg2 := coverAll_good ((others nc P a).map (colOf nc P)) hi1 hg1 o3 o2 o4
      have hi2 := Inv_congr o5 hi2c
      have hKsub : ∀ d, d ∈ K → d ∈ rowColsOf P r ++ K :=
        fun d hd => List.mem_append_right _ hd
      have hlt0 := @liveCols_length_lt nc K (rowColsOf P r ++ K) c hc hcK
          (by simp [mem_rowColsOf, cells_mem_coords hcell]) hKsub
      have hlt : (liveCols nc (rowColsOf P r ++ K)).length < ga := by omega
      have hrR : r < R := hR _ (cells_mem_coords hcell)
      have hdead : rowLive P (rowColsOf P r ++ K) r = false := by
        rw [Bool.eq_false_iff]
        intro hl
        rw [rowLive_iff] at hl
        exact hl c (cells_mem_coords hcell)
          (List.mem_append_left _ (mem_rowColsOf.mpr (cells_mem_coords hcell)))
      have hcount := liveRowCount_lt hKsub hrR hlv hdead
      have hm2 : (sol ++ [(r : Int)]).length + liveRowCount P (rowColsOf P r ++ K) R ≤ R := by
        simp only [List.length_append, List.length_singleton]; omega
      obtain ⟨evs2, hrecv, g2⟩ := hrec (rowColsOf P r ++ K) _ (sol ++ [(r : Int)]) num out
        ((log ++ [Event.pushed (sol ++ [(r : Int)])] ++ evs1) ++
          [Event.called s (coverAll nc P ((others nc P a).map (colOf nc P)) (c :: K)
            (coverAbs nc P K s c))]) hi2 hg2 hlt hm2
      obtain ⟨evs3, hunc, g3⟩ := @uncoverRowColsT_spec nc P a R (others nc P a) (c :: K)
        (coverAbs nc P K s c)
        ((coverAll nc P ((others nc P a).map (colOf nc P)) (c :: K)
          (coverAbs nc P K s c)).left a) fuel
        (((log ++ [Event.pushed (sol ++ [(r : Int)])] ++ evs1) ++
          [Event.called s (coverAll nc P ((others nc P a).map (colOf nc P)) (c :: K)
            (coverAbs nc P K s c))]) ++ evs2) hi1 hg1
        (walk_others hi2.static hcell).2 o1 o2 o4 (by omega : _ < fuel)
      have hrow : rowOf nc P a = r := rowOf_cell hcell
      have hring := (cover_colRing hi hc hcK).1
      simp only [Cyc] at hring
      rw [hL, DSeg_append] at hring
      have hnext := DSeg_head hring.2
      have hL2 : colRing nc P (liveCell P K) c = (pre ++ [a]) ++ rest := by rw [hL]; simp
      obtain ⟨evs4, hrest, g4⟩ := @ih (pre ++ [a]) hL2
        ((coverAbs nc P K s c).down a) fuel
        (countUp (absSolve nc P ga (rowColsOf P r ++ K)).length num)
        (out ++ emit pr (sol ++ [(r : Int)]) (absSolve nc P ga (rowColsOf P r ++ K)))
        ((((log ++ [Event.pushed (sol ++ [(r : Int)])] ++ evs1) ++
          [Event.called s (coverAll nc P ((others nc P a).map (colOf nc P)) (c :: K)
            (coverAbs nc P K s c))]) ++ evs2) ++ evs3) hnext (by omega)
      refine ⟨Event.pushed (sol ++ [(r : Int)]) :: (evs1 ++
          Event.called s (coverAll nc P ((others nc P a).map (colOf nc P)) (c :: K)
            (coverAbs nc P K s c)) :: (evs2 ++ (evs3 ++ evs4))), ?_, ?_⟩
      · simp only [solveRowsT, hne, ↓reduceIte, hrid, hcov, hrecv, List.dropLast_concat,
          hunc, hrest]
        simp only [rowsAbs, List.flatMap_cons, hrow, emit_append, emit_cons_map,
          List.length_append, List.length_map, countUp_add, List.append_assoc,
          List.singleton_append, List.cons_append, List.nil_append]
      · intro e he
        simp only [List.mem_cons, List.mem_append] at he
        rcases he with rfl | he | rfl | he | he | he
        · show (sol ++ [(r : Int)]).length ≤ R
          simp only [List.length_append, List.length_singleton]; omega
        · exact g1 e he
        · exact ringShorter_of_inv hi hi2 hlt0
        · exact g2 e he
        · exact g3 e he
        · exact g4 e he

/-- The observed `solve` returns what `solve` returns, and every event it
records is as guaranteed. -/
theorem solveT_spec {nc : Nat} {P : List (Nat × Nat)} {R : Nat} (hR : ∀ x, x ∈ P → x.1 < R)
    (pr : Bool) (ga : Nat) {fuel : Nat} (hf : loopFuel nc P + ga ≤ fuel) :
    TRecOK nc P R ga pr (solveT fuel 0 pr) := by
  induction ga generalizing fuel with
  | zero => intro K s sol num out log _ _ h; simp at h
  | succ ga ih =>
    cases fuel with
    | zero => simp [loopFuel] at hf
    | succ fuel =>
      have hf2 : loopFuel nc P + ga ≤ fuel := by omega
      have hrec := ih hf2
      intro K s sol num out log hi hg hlen hm
      have hring := hi.hring
      simp only [HRing, Cyc] at hring
      have hnd := hring_nodup nc K
      cases hlc : liveCols nc K with
      | nil =>
        rw [hlc] at hring
        simp only [List.map_nil, DSeg] at hring
        refine ⟨[], ?_, by simp⟩
        cases pr <;> simp [solveT, hring.1, absSolve, hlc, emit, countUp_one]
      | cons c0 rest =>
        have hlle := liveCols_length_le nc K
        rw [hlc] at hring hnd hlen hlle
        have hr0 : s.right 0 = hdr c0 := by
          simp only [List.map_cons, DSeg] at hring; exact hring.1
        have hne0 : hdr c0 ≠ 0 := by simp [hdr]
        have hw : Walk s.right (s.right 0) ((c0 :: rest).map hdr) 0 :=
          DSeg_walk hring (List.nodup_cons.mp hnd).1
        have hcnt : ∀ d, d ∈ c0 :: c0 :: rest →
            s.nodeCount (hdr d) = (((fun c => (colRows P K c).length) d : Nat) : Int) := by
          intro d hd
          have hd2 : d ∈ liveCols nc K := by
            rw [hlc]; simp only [List.mem_cons] at hd ⊢; tauto
          obtain ⟨k1, k2⟩ := mem_liveCols.mp hd2
          rw [(hi.vrings d k1 k2).2]
          show _ = (((colRows P K d).length : Nat) : Int)
          rw [colRows_length nc]
        have hchoose := chooseCol_spec (c0 :: rest) hw hcnt
          (by simp only [loopFuel] at hf2; simp only [List.length_cons] at hlle ⊢; omega :
            (c0 :: rest).length < fuel)
        rw [hr0] at hchoose
        obtain ⟨c, hcdef⟩ :
            ∃ c, c = chooseAbs (fun c => (colRows P K c).length) c0 (c0 :: rest) := ⟨_, rfl⟩
        rw [← hcdef] at hchoose
        have hcm : c ∈ liveCols nc K := by
          have := chooseAbs_mem (fun c => (colRows P K c).length) c0 (c0 :: rest)
          rw [hlc, hcdef]; simp only [List.mem_cons] at this ⊢; tauto
        obtain ⟨hc, hcK⟩ := mem_liveCols.mp hcm
        have hP2 : 2 * P.length < fuel := by simp only [loopFuel] at hf2; omega
        have hcl := colRing_length_le nc P (liveCell P K) c
        have hvr := (cover_colRing hi hc hcK).1
        simp only [Cyc] at hvr
        obtain ⟨evs, hrows, g1⟩ := @solveRowsT_spec nc P R K s hi hg hR c hc hcK ga pr
          (solveT fuel 0 pr) hrec
          (by rw [hlc]; simp only [List.length_cons] at hlen ⊢; omega)
          (colRing nc P (liveCell P K) c) [] (List.nil_append _).symm
          ((coverAbs nc P K s c).down (hdr c)) fuel sol num out
          (log ++ [Event.covered (coverAbs nc P K s c)]) hm (DSeg_head hvr)
          (by simp only [loopFuel] at hf2; omega)
        refine ⟨Event.covered (coverAbs nc P K s c) :: (evs ++ [Event.uncovered s]), ?_, ?_⟩
        · simp only [solveT, hr0, hne0, ↓reduceIte, hchoose, cover_eq hi hc hcK hP2, hrows,
            uncover_cover hi hc hcK hP2, absSolve, hlc, rowsAbs_eq, ← hcdef,
            List.append_assoc, List.singleton_append, List.cons_append, List.nil_append]
        · intro e he
          simp only [List.mem_cons, List.mem_append, List.mem_singleton, List.not_mem_nil,
            or_false] at he
          rcases he with rfl | he | rfl
          · exact Good_countOK (cover_good hi hg hc hcK)
          · exact g1 e he
          · exact Good_countOK hg

theorem solveT_built {nc : Nat} {data : List (List Char)} {h : Nat} {s : Heap}
    (hb : build nc data = some (h, s)) {fuel : Nat} (hf : searchFuel nc data ≤ fuel)
    (pr : Bool) (num : Int) (out : List (List Int)) (log : List Event) :
    ∃ evs, solveT fuel h pr ⟨s, [], num, out⟩ log =
        some (⟨s, [], countUp (solutions nc data).length num,
          out ++ emit pr [] (solutions nc data)⟩, log ++ evs) ∧
      ∀ e, e ∈ evs → GoodEv nc data.length e := by
  obtain ⟨rfl, -, hB, hi⟩ := build_inv hb
  have hR : ∀ x, x ∈ coords nc data → x.1 < data.length :=
    fun x hx => (mem_coords.mp (show (x.1, x.2) ∈ coords nc data from hx)).1
  have hlen : (liveCols nc []).length < nc + 1 := by
    have := liveCols_length_le nc []
    omega
  exact solveT_spec hR pr (nc + 1) (by simp only [searchFuel] at hf; omega) [] s [] num out
    log hi (Built_good hB hi) hlen (by simp [liveRowCount_nil])

theorem countSolutionsT_built {nc : Nat} {data : List (List Char)} {h : Nat} {s : Heap}
    (hb : build nc data = some (h, s)) {fuel : Nat} (hf : searchFuel nc data ≤ fuel)
    (num : Int) :
    ∃ evs, countSolutionsT fuel h (s, num) [] =
        some ((s, countUp (solutions nc data).length num), evs) ∧
      ∀ e, e ∈ evs → GoodEv nc data.length e := by
  obtain ⟨evs, h1, h2⟩ := solveT_built hb hf false num [] []
  have h3 := countSolutionsT_sim fuel h false ⟨s, [], num, []⟩ []
  rw [h1] at h3
  simp only [Option.map_some', countView, List.nil_append, List.filter_nil] at h3
  exact ⟨_, h3.symm, fun e he => h2 e (List.mem_of_mem_filter he)⟩

theorem solveT_last {fuel h : Nat} {pr : Bool} {st : SearchState} {log : List Event}
    {st2 : SearchState} {log2 : List Event}
    (hr : solveT fuel h pr st log = some (st2, log2)) (hne : st.heap.right h ≠ h) :
    ∃ l, log2 = l ++ [Event.uncovered st2.heap] := by
  cases fuel with
  | zero => simp [solveT] at hr
  | succ fuel =>
    simp only [solveT, hne, if_false] at hr
    cases hc : chooseCol fuel st.heap h (st.heap.right h) (st.heap.right h) with
    | none => simp [hc] at hr
    | some col =>
      simp only [hc] at hr
      cases hcv : cover fuel st.heap col with
      | none => simp [hcv] at hr
      | some hp1 =>
        simp only [hcv] at hr
        cases hs : solveRowsT (solveT fuel h pr) st.heap fuel col (hp1.down col)
            { st with heap := hp1 } (log ++ [Event.covered hp1]) with
        | none => simp [hs] at hr
        | some p =>
          obtain ⟨st3, log3⟩ := p
          simp only [hs] at hr
          cases hu : uncover fuel st3.heap col with
          | none => simp [hu] at hr
          | some hp3 =>
            simp only [hu, Option.some.injEq, Prod.mk.injEq] at hr
            obtain ⟨rfl, rfl⟩ := hr
            exact ⟨log3, rfl⟩

theorem countSolutionsT_last {fuel h : Nat} {st : Heap × Int} {log : List Event}
    {st2 : Heap × Int} {log2 : List Event}
    (hr : countSolutionsT fuel h st log = some (st2, log2)) (hne : st.1.right h ≠ h) :
    ∃ l, log2 = l ++ [Event.uncovered st2.1] := by
  cases fuel with
  | zero => simp [countSolutionsT] at hr
  | succ fuel =>
    simp only [countSolutionsT, hne, if_false] at hr
    cases hc : chooseCol fuel st.1 h (st.1.right h) (st.1.right h) with
    | none => simp [hc] at hr
    | some col =>
      simp only [hc] at hr
      cases hcv : cover fuel st.1 col with
      | none => simp [hcv] at hr
      | some hp1 =>
        simp only [hcv] at hr
        cases hs : countRowsT (countSolutionsT fuel h) st.1 fuel col (hp1.down col)
            (hp1, st.2) (log ++ [Event.covered hp1]) with
        | none => simp [hs] at hr
        | some p =>
          obtain ⟨st3, log3⟩ := p
          simp only [hs] at hr
          cases hu : uncover fuel st3.1 col with
          | none => simp [hu] at hr
          | some hp3 =>
            simp only [hu, Option.some.injEq, Prod.mk.injEq] at hr
            obtain ⟨rfl, rfl⟩ := hr
            exact ⟨log3, rfl⟩

theorem built_ring_nonempty {nc : Nat} {K : List Nat} {s : Heap} (hr : HRing nc K s)
    {c : Nat} (hc : c < nc) (hcK : c ∉ K) : s.right 0 ≠ 0 := by
  have hm : c ∈ liveCols nc K := mem_liveCols.mpr ⟨hc, hcK⟩
  simp only [HRing, Cyc] at hr
  cases hl : liveCols nc K with
  | nil => rw [hl] at hm; simp at hm
  | cons c0 rest =>
    rw [hl] at hr
    simp only [List.map_cons, DSeg] at hr
    rw [hr.1]
    simp [hdr]
/-! ## An input with `2 ^ 31` exact covers -/

/-- C1. Cover/uncover identity: on the graph built from a well-formed input
with at least one column, the header of every column is in the header ring,
and for every column header `X` in the header ring, `cover(X)` followed by
`uncover(X)` returns (given enough fuel) and leaves the whole arena, hence
every `left`, `right`, `up`, `down` link and every `nodeCount`, exactly as it
was before the call. -/
theorem cover_uncover_identity (nc : Nat) (data : List (List Char)) (hnc : 0 < nc)
    (hwf : WellFormed nc data) :
    ∃ h s, build nc data = some (h, s) ∧
      (∀ c, c < nc → InHeaderRing s h (hdr c)) ∧
      ∀ X, InHeaderRing s h X → ∀ fuel, coverFuel nc data ≤ fuel →
        ∃ s1, cover fuel s X = some s1 ∧ uncover fuel s1 X = some s := by
  obtain ⟨s, hb, -, hi⟩ := build_spec hnc hwf
  refine ⟨0, s, hb, fun c hc => hdr_inHeaderRing hi.hring hc (by simp), ?_⟩
  intro X hX fuel hf
  obtain ⟨c, hc, hcK, rfl⟩ := inHeaderRing_hdr hi.hring hX
  have hf2 : 2 * (coords nc data).length < fuel := by
    simp only [coverFuel] at hf; omega
  exact ⟨_, cover_eq hi hc hcK hf2, uncover_cover hi hc hcK hf2⟩

/-- Witness of C1: scenario A. -/
theorem cover_uncover_identity_witness :
    0 < 3 ∧ WellFormed 3 scenarioA ∧
    ∃ h s, build 3 scenarioA = some (h, s) ∧
      (∀ c, c < 3 → InHeaderRing s h (hdr c)) ∧
      ∀ X, InHeaderRing s h X → ∀ fuel, coverFuel 3 scenarioA ≤ fuel →
        ∃ s1, cover fuel s X = some s1 ∧ uncover fuel s1 X = some s :=
  ⟨by decide, by decide, cover_uncover_identity 3 scenarioA (by decide) (by decide)⟩

/-- C2. Partition correctness: on a well-formed input with at least one
column, `solve` returns (given enough fuel) and every sequence it emits
consists of distinct valid row indices whose column sets are pairwise disjoint
and have union `{0, ..., numColumns - 1}`; that is, every column is covered by
exactly one emitted row. -/
theorem solve_partition_correct (nc : Nat) (data : List (List Char)) (hnc : 0 < nc)
    (hwf : WellFormed nc data) :
    ∃ h s, build nc data = some (h, s) ∧
      ∀ fuel, searchFuel nc data ≤ fuel →
        ∃ st, solve fuel h true ⟨s, [], 0, []⟩ = some st ∧
          ∀ q, q ∈ st.out →
            q.Nodup ∧
            (∀ i, i ∈ q → 0 ≤ i ∧ i.toNat < data.length ∧
              (rowColumns nc data i.toNat).Nonempty) ∧
            (q.map (fun i => rowColumns nc data i.toNat)).Pairwise Disjoint ∧
            (q.map (fun i => rowColumns nc data i.toNat)).foldr (fun a b => a ∪ b) ∅
              = Finset.range nc ∧
            (∀ c, c < nc → ∃! i, i ∈ q ∧ bit data i.toNat c = true) := by
  obtain ⟨s, hb, -, -⟩ := build_spec hnc hwf
  refine ⟨0, s, hb, ?_⟩
  intro fuel hf
  refine ⟨_, solve_built hb hf true [] 0 [], ?_⟩
  intro q hq
  simp only [List.nil_append, emit_true_nil, List.mem_map] at hq
  obtain ⟨p, hp, rfl⟩ := hq
  obtain ⟨h1, h2⟩ := (solutions_spec nc data).1 p hp
  exact emitted_sound h1 h2

/-- Witness of C2: scenario A. -/
theorem solve_partition_correct_witness :
    0 < 3 ∧ WellFormed 3 scenarioA ∧
    ∃ h s, build 3 scenarioA = some (h, s) ∧
      ∀ fuel, searchFuel 3 scenarioA ≤ fuel →
        ∃ st, solve fuel h true ⟨s, [], 0, []⟩ = some st ∧
          ∀ q, q ∈ st.out →
            q.Nodup ∧
            (∀ i, i ∈ q → 0 ≤ i ∧ i.toNat < scenarioA.length ∧
              (rowColumns 3 scenarioA i.toNat).Nonempty) ∧
            (q.map (fun i => rowColumns 3 scenarioA i.toNat)).Pairwise Disjoint ∧
            (q.map (fun i => rowColumns 3 scenarioA i.toNat)).foldr (fun a b => a ∪ b) ∅
              = Finset.range 3 ∧
            (∀ c, c < 3 → ∃! i, i ∈ q ∧ bit scenarioA i.toNat c = true) :=
  ⟨by decide, by decide, solve_partition_correct 3 scenarioA (by decide) (by decide)⟩

/-- C4 (counterexample). On the graph of scenario A, started with
`numSolutions = 2147483647`, `countSolutions` and `solve` both return with
`numSolutions = -2147483648`, while `solve` emits one sequence: the counter has
not increased by the number of emitted sequences. -/
theorem count_wraps_at_int_max :
    ∃ h s, build 3 scenarioA = some (h, s) ∧
      ∀ fuel, searchFuel 3 scenarioA ≤ fuel →
        countSolutions fuel h (s, 2147483647) = some (s, -2147483648) ∧
        solve fuel h true ⟨s, [], 2147483647, []⟩ = some ⟨s, [], -2147483648, [[3]]⟩ ∧
        (-2147483648 : Int) ≠ 2147483647 + 1 := by
  obtain ⟨s, hb, -, -⟩ := @build_spec 3 scenarioA (by decide) (by decide)
  refine ⟨0, s, hb, ?_⟩
  intro fuel hf
  have hsol : solutions 3 scenarioA = [[3]] := by decide
  have k1 := solve_built hb hf true [] 2147483647 []
  have k3 := count_built hb hf 2147483647
  rw [hsol] at k1 k3
  have hw : countUp [[3]].length 2147483647 = -2147483648 := by decide
  rw [hw] at k1 k3
  exact ⟨k3, by simpa [emit] using k1, by decide⟩

/-- C4 (amended). Count/enumerate equivalence: on every graph `build` returns,
for every starting counter value (and every `solution` vector and output so
far), `countSolutions` and `solve` with either value of `printSolutions`
return (given enough fuel) and leave `numSolutions` at the same value: the
starting value after `n` executions of `numSolutions++` on a 32-bit `int`, `n`
being the number of sequences `solve` emits when `printSolutions` is true.
That value is the starting value plus `n` when the starting value is in the
range of an `int` and the sum is at most 2147483647, and the sum reduced
modulo `2 ^ 32` in general. -/
theorem count_enumerate_equivalence (nc : Nat) (data : List (List Char))
    (hb : (build nc data).isSome = true) :
    ∃ h s, build nc data = some (h, s) ∧
      ∀ fuel, searchFuel nc data ≤ fuel →
        ∀ (sol : List Int) (num : Int) (out : List (List Int)),
          ∃ n : Nat, countSolutions fuel h (s, num) = some (s, countUp n num) ∧
            (∀ pr, ∃ st, solve fuel h pr ⟨s, sol, num, out⟩ = some st ∧
              st.numSolutions = countUp n num) ∧
            (∃ st, solve fuel h true ⟨s, sol, num, out⟩ = some st ∧
              st.out.length = out.length + n) ∧
            (-2147483648 ≤ num → num + (n : Int) < 2147483648 →
              countUp n num = num + (n : Int)) ∧
            (0 < n → countUp n num = wrap32 (num + (n : Int))) := by
  obtain ⟨⟨h, s⟩, hbs⟩ := Option.isSome_iff_exists.mp hb
  refine ⟨h, s, hbs, ?_⟩
  intro fuel hf sol num out
  refine ⟨(solutions nc data).length, count_built hbs hf num, ?_, ?_,
    fun h1 h2 => countUp_of_lt h1 h2, ?_⟩
  · intro pr
    exact ⟨_, solve_built hbs hf pr sol num out, rfl⟩
  · refine ⟨_, solve_built hbs hf true sol num out, ?_⟩
    simp [emit]
  · intro hn
    obtain ⟨m, hm⟩ : ∃ m, (solutions nc data).length = m + 1 :=
      ⟨(solutions nc data).length - 1, by omega⟩
    rw [hm, countUp_succ]

/-- Witness of the amended C4: scenario A. -/
theorem count_enumerate_equivalence_witness :
    (build 3 scenarioA).isSome = true ∧
    ∃ h s, build 3 scenarioA = some (h, s) ∧
      ∀ fuel, searchFuel 3 scenarioA ≤ fuel →
        ∀ (sol : List Int) (num : Int) (out : List (List Int)),
          ∃ n : Nat, countSolutions fuel h (s, num) = some (s, countUp n num) ∧
            (∀ pr, ∃ st, solve fuel h pr ⟨s, sol, num, out⟩ = some st ∧
              st.numSolutions = countUp n num) ∧
            (∃ st, solve fuel h true ⟨s, sol, num, out⟩ = some st ∧
              st.out.length = out.length + n) ∧
            (-2147483648 ≤ num → num + (n : Int) < 2147483648 →
              countUp n num = num + (n : Int)) ∧
            (0 < n → countUp n num = wrap32 (num + (n : Int))) :=
  ⟨by decide, count_enumerate_equivalence 3 scenarioA (by decide)⟩

/-- C5. Search restores its state: on every graph `build` returns, `solve`
and `countSolutions` return (given enough fuel) with the arena, hence every
link and every `nodeCount`, exactly as at the call, and `solve` returns with
the `solution` vector as at the call; only `numSolutions` and the output may
differ. -/
theorem search_restores_state (nc : Nat) (data : List (List Char))
    (hb : (build nc data).isSome = true) :
    ∃ h s, build nc data = some (h, s) ∧
      ∀ fuel, searchFuel nc data ≤ fuel →
        ∀ (pr : Bool) (sol : List Int) (num : Int) (out : List (List Int)),
          (∃ num2 out2, solve fuel h pr ⟨s, sol, num, out⟩ = some ⟨s, sol, num2, out2⟩) ∧
          (∃ num2, countSolutions fuel h (s, num) = some (s, num2)) := by
  obtain ⟨⟨h, s⟩, hbs⟩ := Option.isSome_iff_exists.mp hb
  refine ⟨h, s, hbs, ?_⟩
  intro fuel hf pr sol num out
  exact ⟨⟨_, _, solve_built hbs hf pr sol num out⟩, ⟨_, count_built hbs hf num⟩⟩

/-- Witness of C5: scenario A. -/
theorem search_restores_state_witness :
    (build 3 scenarioA).isSome = true ∧
    ∃ h s, build 3 scenarioA = some (h, s) ∧
      ∀ fuel, searchFuel 3 scenarioA ≤ fuel →
        ∀ (pr : Bool) (sol : List Int) (num : Int) (out : List (List Int)),
          (∃ num2 out2, solve fuel h pr ⟨s, sol, num, out⟩ = some ⟨s, sol, num2, out2⟩) ∧
          (∃ num2, countSolutions fuel h (s, num) = some (s, num2)) :=
  ⟨by decide, search_restores_state 3 scenarioA (by decide)⟩
/-- C6. Scenario C: on every graph `build` returns, if some column `c` has no
row with its bit set (in particular when there are no rows at all), then
`solve` and `countSolutions` return (given enough fuel) without counting any
solution, and `solve` emits nothing: counter and output are as at the call. -/
theorem empty_column_no_solution (nc : Nat) (data : List (List Char))
    (hb : (build nc data).isSome = true) (c : Nat) (hc : c < nc)
    (hcol : ∀ r, r < data.length → bit data r c = false) :
    ∃ h s, build nc data = some (h, s) ∧
      ∀ fuel, searchFuel nc data ≤ fuel →
        ∀ (pr : Bool) (sol : List Int) (num : Int) (out : List (List Int)),
          solve fuel h pr ⟨s, sol, num, out⟩ = some ⟨s, sol, num, out⟩ ∧
          countSolutions fuel h (s, num) = some (s, num) := by
  obtain ⟨⟨h, s⟩, hbs⟩ := Option.isSome_iff_exists.mp hb
  refine ⟨h, s, hbs, ?_⟩
  intro fuel hf pr sol num out
  have h1 := solve_built hbs hf pr sol num out
  have h2 := count_built hbs hf num
  rw [solutions_eq_nil hc hcol] at h1 h2
  constructor
  · simpa [emit] using h1
  · simpa using h2

/-- Witness of C6: two columns, one row `{0}`, column 1 is empty. -/
theorem empty_column_no_solution_witness :
    (build 2 scenarioC).isSome = true ∧ 1 < 2 ∧
    (∀ r, r < scenarioC.length → bit scenarioC r 1 = false) ∧
    ∃ h s, build 2 scenarioC = some (h, s) ∧
      ∀ fuel, searchFuel 2 scenarioC ≤ fuel →
        ∀ (pr : Bool) (sol : List Int) (num : Int) (out : List (List Int)),
          solve fuel h pr ⟨s, sol, num, out⟩ = some ⟨s, sol, num, out⟩ ∧
          countSolutions fuel h (s, num) = some (s, num) :=
  ⟨by decide, by decide, by decide,
    empty_column_no_solution 2 scenarioC (by decide) 1 (by decide) (by decide)⟩

/-- C7 (what the code does). With `numColumns = 0` the construction of `main`
evaluates `headers[0]` and `headers.back()` on the empty vector that
`createHeaderList(0)` returns: no graph is built, whatever the rows are. On
the ring that `linkHorizontal(h, h)` set up just before, whose only member is
the master node, `solve` does report exactly one solution, the empty
sequence. -/
theorem build_zero_columns (data : List (List Char)) :
    build 0 data = none ∧
    ∀ (fuel : Nat) (pr : Bool),
      solve (fuel + 1) 0 pr ⟨linkHorizontal (newNode emptyHeap (-1) (-1)).2 0 0, [], 0, []⟩
        = some ⟨linkHorizontal (newNode emptyHeap (-1) (-1)).2 0 0, [], 1,
            if pr then [[]] else []⟩ := by
  refine ⟨by simp [build, createHeaderList, allocHeaders], ?_⟩
  intro fuel pr
  have h0 : (linkHorizontal (newNode emptyHeap (-1) (-1)).2 0 0).right 0 = 0 := by
    simp [linkHorizontal]
  simp [solve, h0, wrap32_one]

/-- C8 (counterexample). The row `1 1` has two entries, the input declares one
column, so the input is not well-formed, and `build` returns a graph all the
same. -/
theorem malformed_row_accepted :
    ¬ WellFormed 1 wideInput ∧ (build 1 wideInput).isSome = true := by
  decide

/-- C8 (amended). `build` checks no row width and reports no error: when there
is at least one column and every row has at least `numColumns` entries, it
returns a graph, and the entries beyond the declared columns are ignored: the
graph is the one built from the rows cut to `numColumns` entries. -/
theorem extra_entries_ignored (nc : Nat) (data : List (List Char)) (hnc : 0 < nc)
    (hlen : ∀ row, row ∈ data → 2 * nc - 1 ≤ row.length) :
    (build nc data).isSome = true ∧
    build nc data = build nc (data.map (List.take (2 * nc - 1))) := by
  refine ⟨?_, build_take nc data hlen⟩
  obtain ⟨s, hs, -⟩ := @build_reads nc data hnc (by
    intro row hr c hc
    have := hlen row hr
    omega)
  rw [hs]; rfl

/-- Witness of the amended C8. -/
theorem extra_entries_ignored_witness :
    0 < 1 ∧ (∀ row, row ∈ wideInput → 2 * 1 - 1 ≤ row.length) ∧
    (build 1 wideInput).isSome = true ∧
    build 1 wideInput = build 1 (wideInput.map (List.take (2 * 1 - 1))) :=
  ⟨by decide, by decide, extra_entries_ignored 1 wideInput (by decide) (by decide)⟩

/-- C10. Scenario A: for 3 columns and the rows `1 1 0`, `0 1 1`, `1 0 1`,
`1 1 1`, `solve` returns (given enough fuel, with either value of
`printSolutions`) with count 1, it emits exactly one sequence, the single row
3, and `countSolutions` returns with count 1. -/
theorem scenario_A :
    ∃ h s, build 3 scenarioA = some (h, s) ∧
      ∀ fuel, searchFuel 3 scenarioA ≤ fuel →
        solve fuel h true ⟨s, [], 0, []⟩ = some ⟨s, [], 1, [[3]]⟩ ∧
        solve fuel h false ⟨s, [], 0, []⟩ = some ⟨s, [], 1, []⟩ ∧
        countSolutions fuel h (s, 0) = some (s, 1) := by
  obtain ⟨s, hb, -, -⟩ := @build_spec 3 scenarioA (by decide) (by decide)
  refine ⟨0, s, hb, ?_⟩
  intro fuel hf
  have hsol : solutions 3 scenarioA = [[3]] := by decide
  have k1 := solve_built hb hf true [] 0 []
  have k2 := solve_built hb hf false [] 0 []
  have k3 := count_built hb hf 0
  rw [hsol] at k1 k2 k3
  exact ⟨by simpa [emit] using k1, by simpa [emit] using k2, by simpa using k3⟩
/-- C11. Scenario B: for 4 columns and the rows `1 0 0 0`, `0 1 0 0`,
`0 0 1 0`, `0 0 0 1`, `solve` returns (given enough fuel, with either value of
`printSolutions`) with count 1, it emits exactly one sequence, `0 1 2 3`, in
which each of the rows 0, 1, 2, 3 occurs exactly once, and `countSolutions`
returns with count 1. -/
theorem scenario_B :
    ∃ h s, build 4 scenarioB = some (h, s) ∧
      ∀ fuel, searchFuel 4 scenarioB ≤ fuel →
        ∃ q, solve fuel h true ⟨s, [], 0, []⟩ = some ⟨s, [], 1, [q]⟩ ∧
          q = [0, 1, 2, 3] ∧ q.length = 4 ∧
          (∀ r : Int, r ∈ [0, 1, 2, 3] → q.count r = 1) ∧
          solve fuel h false ⟨s, [], 0, []⟩ = some ⟨s, [], 1, []⟩ ∧
          countSolutions fuel h (s, 0) = some (s, 1) := by
  obtain ⟨s, hb, -, -⟩ := @build_spec 4 scenarioB (by decide) (by decide)
  refine ⟨0, s, hb, ?_⟩
  intro fuel hf
  have hsol : solutions 4 scenarioB = [[0, 1, 2, 3]] := by decide
  have k1 := solve_built hb hf true [] 0 []
  have k2 := solve_built hb hf false [] 0 []
  have k3 := count_built hb hf 0
  rw [hsol] at k1 k2 k3
  exact ⟨[0, 1, 2, 3], by simpa [emit] using k1, rfl, rfl, by decide,
    by simpa [emit] using k2, by simpa using k3⟩

/-- C12. Emission order is choice order: on every graph `build` returns,
`solve` started with the `solution` vector `sol` increments the counter once
for each line it emits, and it emits lines of the form
`sol` followed by `p`, where `p` is a path of choices: its first entry is a row
of the column chosen in the outermost call, its next entry a row of the column
chosen in the recursive call made for that row, and so on down to a call that
finds the header ring empty. The sequences are not sorted: for 2 columns and
the rows `0 1`, `1 0` exactly one sequence is emitted, 1 then 0. -/
theorem emission_order :
    (∀ (nc : Nat) (data : List (List Char)) (h : Nat) (s : Heap),
      build nc data = some (h, s) →
      ∀ fuel, searchFuel nc data ≤ fuel →
        ∀ (sol : List Int) (num : Int) (out : List (List Int)),
          ∃ ps : List (List Nat),
            solve fuel h true ⟨s, sol, num, out⟩ =
              some ⟨s, sol, countUp ps.length num,
                out ++ ps.map (fun p => sol ++ p.map Int.ofNat)⟩ ∧
            ∀ p, p ∈ ps → ChoicePath nc (coords nc data) [] p) ∧
    ∃ h s, build 2 orderInput = some (h, s) ∧
      ∀ fuel, searchFuel 2 orderInput ≤ fuel →
        solve fuel h true ⟨s, [], 0, []⟩ = some ⟨s, [], 1, [[1, 0]]⟩ ∧
        ¬ List.Sorted (fun a b : Int => a ≤ b) [1, 0] := by
  constructor
  · intro nc data h s hb fuel hf sol num out
    refine ⟨solutions nc data, ?_, fun p hp => absSolve_choicePath _ _ _ _ hp⟩
    have k := solve_built hb hf true sol num out
    simpa [emit] using k
  · obtain ⟨s, hb, -, -⟩ := @build_spec 2 orderInput (by decide) (by decide)
    refine ⟨0, s, hb, ?_⟩
    intro fuel hf
    have hsol : solutions 2 orderInput = [[1, 0]] := by decide
    have k1 := solve_built hb hf true [] 0 []
    rw [hsol] at k1
    exact ⟨by simpa [emit] using k1, by decide⟩

/-- Witness of C12: the general part at 2 columns and the rows `0 1`, `1 0`. -/
theorem emission_order_witness :
    ∃ h s, build 2 orderInput = some (h, s) ∧
      ∀ fuel, searchFuel 2 orderInput ≤ fuel →
        ∀ (sol : List Int) (num : Int) (out : List (List Int)),
          ∃ ps : List (List Nat),
            solve fuel h true ⟨s, sol, num, out⟩ =
              some ⟨s, sol, countUp ps.length num,
                out ++ ps.map (fun p => sol ++ p.map Int.ofNat)⟩ ∧
            ∀ p, p ∈ ps → ChoicePath 2 (coords 2 orderInput) [] p :=
  ⟨_, _, rfl, emission_order.1 2 orderInput _ _ rfl⟩

/-- C13. Column selection, on an arbitrary arena: when the loop
`for (c = h->right; c != h; c = c->right)` visits the non-empty list `L` of
headers, the column choice returns (given enough fuel) a header `col` of `L`
whose `nodeCount` is at most that of every header of `L` and strictly less
than that of every header met before it, and this `col` is the column that
`solve` and `countSolutions` cover first: their body is `cover(col)`, the row
loop from `col->down`, and `uncover(col)`. -/
theorem column_selection (s : Heap) (h : Nat) (L : List Nat)
    (hw : Walk s.right (s.right h) L h) (hne : L ≠ []) (fuel : Nat) (hf : L.length < fuel) :
    ∃ col pre post, chooseCol fuel s h (s.right h) (s.right h) = some col ∧
      L = pre ++ col :: post ∧
      (∀ y, y ∈ L → s.nodeCount col ≤ s.nodeCount y) ∧
      (∀ y, y ∈ pre → s.nodeCount col < s.nodeCount y) ∧
      (∀ (pr : Bool) (sol : List Int) (num : Int) (out : List (List Int)),
        solve (fuel + 1) h pr ⟨s, sol, num, out⟩ =
          (cover fuel s col).bind (fun hp1 =>
            (solveRows (solve fuel h pr) fuel col (hp1.down col) ⟨hp1, sol, num, out⟩).bind
              (fun st2 => (uncover fuel st2.heap col).map
                (fun hp3 => { st2 with heap := hp3 })))) ∧
      (∀ num : Int,
        countSolutions (fuel + 1) h (s, num) =
          (cover fuel s col).bind (fun hp1 =>
            (countRows (countSolutions fuel h) fuel col (hp1.down col) (hp1, num)).bind
              (fun st2 => (uncover fuel st2.1 col).map (fun hp3 => (hp3, st2.2))))) := by
  obtain ⟨col, h1, -, h3, h4⟩ := @chooseCol_walk s h L (s.right h) (s.right h) fuel hw hf
  have hnh : s.right h ≠ h := by
    cases L with
    | nil => exact absurd rfl hne
    | cons y L =>
      simp only [Walk] at hw
      rw [hw.1]; exact hw.2.1
  have hsplit : ∃ pre post, L = pre ++ col :: post ∧
      ∀ y, y ∈ pre → s.nodeCount col < s.nodeCount y := by
    rcases h4 with rfl | ⟨pre, post, e1, -, e3⟩
    · cases L with
      | nil => exact absurd rfl hne
      | cons y L =>
        simp only [Walk] at hw
        exact ⟨[], L, by rw [hw.1]; rfl, by simp⟩
    · exact ⟨pre, post, e1, e3⟩
  obtain ⟨pre, post, e1, e3⟩ := hsplit
  refine ⟨col, pre, post, h1, e1, h3, e3, ?_, ?_⟩
  · intro pr sol num out
    simp only [solve, hnh, if_false, h1]
    cases cover fuel s col with
    | none => rfl
    | some hp1 =>
      simp only [Option.some_bind]
      cases solveRows (solve fuel h pr) fuel col (hp1.down col) ⟨hp1, sol, num, out⟩ with
      | none => rfl
      | some st2 =>
        simp only [Option.some_bind]
        cases uncover fuel st2.heap col <;> rfl
  · intro num
    simp only [countSolutions, hnh, if_false, h1]
    cases cover fuel s col with
    | none => rfl
    | some hp1 =>
      simp only [Option.some_bind]
      cases countRows (countSolutions fuel h) fuel col (hp1.down col) (hp1, num) with
      | none => rfl
      | some st2 =>
        simp only [Option.some_bind]
        cases uncover fuel st2.1 col <;> rfl

/-- Witness of C13: the graph built for 2 columns and the rows `1 0`, `1 1`;
the header ring is column 0 (two nodes), column 1 (one node), and the choice
is the header of column 1. -/
theorem column_selection_witness :
    Walk minHeap.right (minHeap.right 0) [hdr 0, hdr 1] 0 ∧ [hdr 0, hdr 1] ≠ [] ∧
    [hdr 0, hdr 1].length < 3 ∧
    chooseCol 3 minHeap 0 (minHeap.right 0) (minHeap.right 0) = some (hdr 1) ∧
    ∃ col pre post, chooseCol 3 minHeap 0 (minHeap.right 0) (minHeap.right 0) = some col ∧
      [hdr 0, hdr 1] = pre ++ col :: post ∧
      (∀ y, y ∈ [hdr 0, hdr 1] → minHeap.nodeCount col ≤ minHeap.nodeCount y) ∧
      (∀ y, y ∈ pre → minHeap.nodeCount col < minHeap.nodeCount y) ∧
      (∀ (pr : Bool) (sol : List Int) (num : Int) (out : List (List Int)),
        solve (3 + 1) 0 pr ⟨minHeap, sol, num, out⟩ =
          (cover 3 minHeap col).bind (fun hp1 =>
            (solveRows (solve 3 0 pr) 3 col (hp1.down col) ⟨hp1, sol, num, out⟩).bind
              (fun st2 => (uncover 3 st2.heap col).map
                (fun hp3 => { st2 with heap := hp3 })))) ∧
      (∀ num : Int,
        countSolutions (3 + 1) 0 (minHeap, num) =
          (cover 3 minHeap col).bind (fun hp1 =>
            (countRows (countSolutions 3 0) 3 col (hp1.down col) (hp1, num)).bind
              (fun st2 => (uncover 3 st2.1 col).map (fun hp3 => (hp3, st2.2))))) :=
  ⟨⟨rfl, by decide, rfl, by decide, rfl⟩, by decide, by decide, rfl,
    column_selection minHeap 0 [hdr 0, hdr 1] ⟨rfl, by decide, rfl, by decide, rfl⟩
      (by decide) 3 (by decide)⟩

/-- C14. Node-count invariant: on every graph `build` returns, the `nodeCount`
of the header of every column is the number of data nodes met when walking
down from the header until the header is met again, and the same holds in the
arena every call of `cover` and every call of `uncover` made by `solve` and by
`countSolutions` returns with (the observed functions record these arenas, and
erasing the record gives `solve` and `countSolutions`); the record is not
empty, it ends with the arena of the last `uncover`. -/
theorem nodeCount_invariant (nc : Nat) (data : List (List Char))
    (hb : (build nc data).isSome = true) :
    ∃ h s, build nc data = some (h, s) ∧ CountOK nc s ∧
      ∀ fuel, searchFuel nc data ≤ fuel →
        (∀ pr, ∃ st log, solveT fuel h pr ⟨s, [], 0, []⟩ [] = some (st, log) ∧
          solve fuel h pr ⟨s, [], 0, []⟩ = some st ∧
          Event.uncovered st.heap ∈ log ∧
          ∀ t, Event.covered t ∈ log ∨ Event.uncovered t ∈ log → CountOK nc t) ∧
        (∃ r log, countSolutionsT fuel h (s, 0) [] = some (r, log) ∧
          countSolutions fuel h (s, 0) = some r ∧
          Event.uncovered r.1 ∈ log ∧
          ∀ t, Event.covered t ∈ log ∨ Event.uncovered t ∈ log → CountOK nc t) := by
  obtain ⟨⟨h, s⟩, hbs⟩ := Option.isSome_iff_exists.mp hb
  obtain ⟨rfl, hnc, hB, hi⟩ := build_inv hbs
  have hne : s.right 0 ≠ 0 := built_ring_nonempty hi.hring hnc (List.not_mem_nil 0)
  refine ⟨0, s, hbs, Good_countOK (Built_good hB hi), ?_⟩
  intro fuel hf
  constructor
  · intro pr
    obtain ⟨evs, h1, h2⟩ := solveT_built hbs hf pr 0 [] []
    obtain ⟨l, hl⟩ := solveT_last h1 hne
    refine ⟨_, _, h1, ?_, by rw [hl]; simp, ?_⟩
    · have := solveT_fst fuel 0 pr ⟨s, [], 0, []⟩ []
      rw [h1] at this
      exact this.symm
    · rintro t (ht | ht)
      · exact h2 _ (by simpa using ht)
      · exact h2 _ (by simpa using ht)
  · obtain ⟨evs, h1, h2⟩ := countSolutionsT_built hbs hf 0
    obtain ⟨l, hl⟩ := countSolutionsT_last h1 hne
    refine ⟨_, _, h1, ?_, by rw [hl]; simp, ?_⟩
    · have := countSolutionsT_fst fuel 0 (s, 0) []
      rw [h1] at this
      exact this.symm
    · rintro t (ht | ht)
      · exact h2 _ ht
      · exact h2 _ ht

/-- Witness of C14: scenario A. -/
theorem nodeCount_invariant_witness :
    (build 3 scenarioA).isSome = true ∧
    ∃ h s, build 3 scenarioA = some (h, s) ∧ CountOK 3 s ∧
      ∀ fuel, searchFuel 3 scenarioA ≤ fuel →
        (∀ pr, ∃ st log, solveT fuel h pr ⟨s, [], 0, []⟩ [] = some (st, log) ∧
          solve fuel h pr ⟨s, [], 0, []⟩ = some st ∧
          Event.uncovered st.heap ∈ log ∧
          ∀ t, Event.covered t ∈ log ∨ Event.uncovered t ∈ log → CountOK 3 t) ∧
        (∃ r log, countSolutionsT fuel h (s, 0) [] = some (r, log) ∧
          countSolutions fuel h (s, 0) = some r ∧
          Event.uncovered r.1 ∈ log ∧
          ∀ t, Event.covered t ∈ log ∨ Event.uncovered t ∈ log → CountOK 3 t) :=
  ⟨by decide, nodeCount_invariant 3 scenarioA (by decide)⟩

/-- C15. Ring consistency at rest: in the graph built from a well-formed input
with at least one column, every allocated node `n` (the master node, the
`numColumns` column headers and the data nodes, one for each set bit, are the
addresses below `next`) satisfies
`n.right.left == n`, `n.left.right == n`, `n.down.up == n` and
`n.up.down == n`, and for every column header `X` in the header ring the same
holds in the arena that `cover(X)` followed by `uncover(X)` returns. -/
theorem ring_consistency (nc : Nat) (data : List (List Char)) (hnc : 0 < nc)
    (hwf : WellFormed nc data) :
    ∃ h s, build nc data = some (h, s) ∧
      s.next = 1 + nc + (coords nc data).length ∧ Consistent s ∧
      ∀ X, InHeaderRing s h X → ∀ fuel, coverFuel nc data ≤ fuel →
        ∃ s1 s2, cover fuel s X = some s1 ∧ uncover fuel s1 X = some s2 ∧ Consistent s2 := by
  obtain ⟨s, hb, hbuilt, hi⟩ := build_spec hnc hwf
  have hcons : Consistent s := Built_consistent hbuilt (fun x hx => coords_col_lt hx)
  refine ⟨0, s, hb, by rw [hbuilt.next_eq]; omega, hcons, ?_⟩
  intro X hX fuel hf
  obtain ⟨c, hc, hcK, rfl⟩ := inHeaderRing_hdr hi.hring hX
  have hf2 : 2 * (coords nc data).length < fuel := by
    simp only [coverFuel] at hf; omega
  exact ⟨_, s, cover_eq hi hc hcK hf2, uncover_cover hi hc hcK hf2, hcons⟩

/-- Witness of C15: scenario A. -/
theorem ring_consistency_witness :
    0 < 3 ∧ WellFormed 3 scenarioA ∧
    ∃ h s, build 3 scenarioA = some (h, s) ∧
      s.next = 1 + 3 + (coords 3 scenarioA).length ∧ Consistent s ∧
      ∀ X, InHeaderRing s h X → ∀ fuel, coverFuel 3 scenarioA ≤ fuel →
        ∃ s1 s2, cover fuel s X = some s1 ∧ uncover fuel s1 X = some s2 ∧ Consistent s2 :=
  ⟨by decide, by decide, ring_consistency 3 scenarioA (by decide) (by decide)⟩

/-- C17. Cover postcondition: on the graph built from a well-formed input with
at least one column, the header ring and the vertical ring of every header
in it can be walked, and for every column header `X` in the header ring,
`cover(X)` returns (given enough fuel) an arena in which (1) walking right
from the master node visits the previous headers without `X`; (2) the
vertical ring of `X` is the previous one, with the same `up` and `down` links
and the same `nodeCount`; (3) for every other header `Y` of the ring, walking
down from `Y` visits, in the previous order, exactly the previous nodes of `Y`
whose `rowID` is not the `rowID` of a node of the ring of `X`, and the
`nodeCount` of `Y` has dropped by the number of nodes removed; (4) the `left`
and `right` links of every data node are unchanged. -/
theorem cover_postcondition (nc : Nat) (data : List (List Char)) (hnc : 0 < nc)
    (hwf : WellFormed nc data) :
    ∃ h s, build nc data = some (h, s) ∧
      (∃ L, Walk s.right (s.right h) L h) ∧
      (∀ Y, InHeaderRing s h Y → ∃ yring, Walk s.down (s.down Y) yring Y) ∧
      ∀ X, InHeaderRing s h X → ∀ fuel, coverFuel nc data ≤ fuel →
        ∃ s1, cover fuel s X = some s1 ∧
          (∀ L, Walk s.right (s.right h) L h →
            Walk s1.right (s1.right h) (L.filter (fun Y => decide (Y ≠ X))) h) ∧
          (∀ xring, Walk s.down (s.down X) xring X →
            Walk s1.down (s1.down X) xring X ∧
            (∀ n, n ∈ X :: xring → s1.down n = s.down n ∧ s1.up n = s.up n) ∧
            s1.nodeCount X = s.nodeCount X ∧
            ∀ Y, InHeaderRing s h Y → Y ≠ X → ∀ yring, Walk s.down (s.down Y) yring Y →
              Walk s1.down (s1.down Y)
                (yring.filter (fun n => xring.all (fun m => decide (s.rowID m ≠ s.rowID n)))) Y ∧
              s1.nodeCount Y = s.nodeCount Y -
                ((yring.filter (fun n =>
                  !xring.all (fun m => decide (s.rowID m ≠ s.rowID n)))).length : Int)) ∧
          (∀ n, nc < n → n < s.next → s1.left n = s.left n ∧ s1.right n = s.right n) := by
  obtain ⟨s, hb, hB, hi⟩ := build_spec hnc hwf
  refine ⟨0, s, hb, ⟨_, Cyc_walk hi.hring (hring_nodup nc [])⟩, ?_, ?_⟩
  · intro Y hY
    obtain ⟨c, hc, -, rfl⟩ := inHeaderRing_hdr hi.hring hY
    exact ⟨_, Cyc_walk (hB.vrings c hc trivial).1 (vring_nodup nc _ _ hc)⟩
  intro X hX fuel hf
  obtain ⟨c, hc, hcK, rfl⟩ := inHeaderRing_hdr hi.hring hX
  have hf2 : 2 * (coords nc data).length < fuel := by
    simp only [coverFuel] at hf; omega
  have hi1 := cover_inv hi hc hcK
  refine ⟨_, cover_eq hi hc hcK hf2, ?_, ?_, ?_⟩
  · intro L hL
    have h1 := hi.hring
    have h2 := hring_nodup nc []
    simp only [HRing, liveCols_nil] at h1
    rw [liveCols_nil] at h2
    obtain rfl := Walk_unique hL (Cyc_walk h1 h2)
    rw [← liveCols_singleton_map]
    exact Cyc_walk hi1.hring (hring_nodup nc [c])
  · intro xring hx
    obtain ⟨v1, v2⟩ := hB.vrings c hc trivial
    obtain rfl := Walk_unique hx (Cyc_walk v1 (vring_nodup nc _ _ hc))
    obtain ⟨w1, w2⟩ := cover_colRing hi hc hcK
    have hlv : colRing nc (coords nc data) (liveCell (coords nc data) []) c
        = colRing nc (coords nc data) (fun _ => true) c :=
      colRing_congr_col (fun e _ _ => rowLive_nil _ _)
    rw [hlv] at w1 w2
    obtain ⟨u1, u2⟩ := DSeg_unique (show DSeg s.down s.up (hdr c) _ (hdr c) from v1)
      (show DSeg (coverAbs nc (coords nc data) [] s c).down
        (coverAbs nc (coords nc data) [] s c).up (hdr c) _ (hdr c) from w1)
    refine ⟨Cyc_walk w1 (vring_nodup nc _ _ hc), ?_, by rw [w2, v2], ?_⟩
    · intro n hn
      refine ⟨u1 n hn, u2 n ?_⟩
      rcases List.mem_cons.mp hn with rfl | hn
      · simp
      · simp [hn]
    · intro Y hY hYX yring hy
      obtain ⟨c2, hc2, -, rfl⟩ := inHeaderRing_hdr hi.hring hY
      have hne : c2 ≠ c := fun e => hYX (by rw [e])
      obtain ⟨y1, y2⟩ := hB.vrings c2 hc2 trivial
      obtain rfl := Walk_unique hy (Cyc_walk y1 (vring_nodup nc _ _ hc2))
      obtain ⟨z1, z2⟩ := hi1.vrings c2 hc2 (by simpa using hne)
      rw [colRing_live_singleton hB.rowID_cell c c2] at z1 z2
      refine ⟨Cyc_walk z1 ?_, ?_⟩
      · refine List.nodup_cons.mpr ⟨fun hm => ?_, (colRing_nodup nc _ _ c2).filter _⟩
        exact hdr_not_mem_colRing nc _ _ c2 c2 hc2 (List.mem_of_mem_filter hm)
      · rw [z2, y2]
        exact length_filter_not _ _
  · intro n h1 h2
    rw [hB.next_eq] at h2
    obtain ⟨r, c2, hcell⟩ := cells_of_addr h1 h2
    obtain ⟨e1, e2⟩ := Static_links_eq hi.static hi1.static hcell
    exact ⟨e2, e1⟩

/-- Witness of C17: scenario A. -/
theorem cover_postcondition_witness :
    0 < 3 ∧ WellFormed 3 scenarioA ∧
    ∃ h s, build 3 scenarioA = some (h, s) ∧
      (∃ L, Walk s.right (s.right h) L h) ∧
      (∀ Y, InHeaderRing s h Y → ∃ yring, Walk s.down (s.down Y) yring Y) ∧
      ∀ X, InHeaderRing s h X → ∀ fuel, coverFuel 3 scenarioA ≤ fuel →
        ∃ s1, cover fuel s X = some s1 ∧
          (∀ L, Walk s.right (s.right h) L h →
            Walk s1.right (s1.right h) (L.filter (fun Y => decide (Y ≠ X))) h) ∧
          (∀ xring, Walk s.down (s.down X) xring X →
            Walk s1.down (s1.down X) xring X ∧
            (∀ n, n ∈ X :: xring → s1.down n = s.down n ∧ s1.up n = s.up n) ∧
            s1.nodeCount X = s.nodeCount X ∧
            ∀ Y, InHeaderRing s h Y → Y ≠ X → ∀ yring, Walk s.down (s.down Y) yring Y →
              Walk s1.down (s1.down Y)
                (yring.filter (fun n => xring.all (fun m => decide (s.rowID m ≠ s.rowID n)))) Y ∧
              s1.nodeCount Y = s.nodeCount Y -
                ((yring.filter (fun n =>
                  !xring.all (fun m => decide (s.rowID m ≠ s.rowID n)))).length : Int)) ∧
          (∀ n, 3 < n → n < s.next → s1.left n = s.left n ∧ s1.right n = s.right n) :=
  ⟨by decide, by decide, cover_postcondition 3 scenarioA (by decide) (by decide)⟩

/-- C18. Termination and depth bound: on every graph `build` returns, `solve`
and `countSolutions` return (with every fuel from `searchFuel` on); every
recursive call is made with an arena whose header ring has strictly fewer
column headers than the header ring of the arena its caller was entered with;
and after every `push_back` the `solution` vector, empty at the start, has at
most as many entries as the input has rows. -/
theorem search_terminates (nc : Nat) (data : List (List Char))
    (hb : (build nc data).isSome = true) :
    ∃ h s, build nc data = some (h, s) ∧
      ∀ fuel, searchFuel nc data ≤ fuel →
        (∀ pr, ∃ st log, solve fuel h pr ⟨s, [], 0, []⟩ = some st ∧
          solveT fuel h pr ⟨s, [], 0, []⟩ [] = some (st, log) ∧
          (∀ a b, Event.called a b ∈ log → RingShorter h a b) ∧
          (∀ sol, Event.pushed sol ∈ log → sol.length ≤ data.length)) ∧
        (∃ r log, countSolutions fuel h (s, 0) = some r ∧
          countSolutionsT fuel h (s, 0) [] = some (r, log) ∧
          ∀ a b, Event.called a b ∈ log → RingShorter h a b) := by
  obtain ⟨⟨h, s⟩, hbs⟩ := Option.isSome_iff_exists.mp hb
  obtain ⟨rfl, -, -, -⟩ := build_inv hbs
  refine ⟨0, s, hbs, ?_⟩
  intro fuel hf
  constructor
  · intro pr
    obtain ⟨evs, h1, h2⟩ := solveT_built hbs hf pr 0 [] []
    refine ⟨_, _, ?_, h1, ?_, ?_⟩
    · have := solveT_fst fuel 0 pr ⟨s, [], 0, []⟩ []
      rw [h1] at this
      exact this.symm
    · intro a b hab
      exact h2 _ (by simpa using hab)
    · intro sol hsol
      exact h2 _ (by simpa using hsol)
  · obtain ⟨evs, h1, h2⟩ := countSolutionsT_built hbs hf 0
    refine ⟨_, _, ?_, h1, ?_⟩
    · have := countSolutionsT_fst fuel 0 (s, 0) []
      rw [h1] at this
      exact this.symm
    · intro a b hab
      exact h2 _ hab

/-- Witness of C18: scenario A. -/
theorem search_terminates_witness :
    (build 3 scenarioA).isSome = true ∧
    ∃ h s, build 3 scenarioA = some (h, s) ∧
      ∀ fuel, searchFuel 3 scenarioA ≤ fuel →
        (∀ pr, ∃ st log, solve fuel h pr ⟨s, [], 0, []⟩ = some st ∧
          solveT fuel h pr ⟨s, [], 0, []⟩ [] = some (st, log) ∧
          (∀ a b, Event.called a b ∈ log → RingShorter h a b) ∧
          (∀ sol, Event.pushed sol ∈ log → sol.length ≤ scenarioA.length)) ∧
        (∃ r log, countSolutions fuel h (s, 0) = some r ∧
          countSolutionsT fuel h (s, 0) [] = some (r, log) ∧
          ∀ a b, Event.called a b ∈ log → RingShorter h a b) :=
  ⟨by decide, search_terminates 3 scenarioA (by decide)⟩

/-- C19. Nested (last-in, first-out) reversibility: on the graph built from a
well-formed input with at least one column, for every list `X1, ..., Xk` of
distinct column headers of the header ring, every `Xi` is still in the header
ring when `cover(X1), ..., cover(X(i-1))` have run, and
`cover(X1), ..., cover(Xk)` followed by `uncover(Xk), ..., uncover(X1)`
returns (given enough fuel) the arena, hence every link and every
`nodeCount`, as it was before `cover(X1)`. One round of the row loop of
`solve` is of this kind: after `cover(X)`, for every data node `a` of column
`X`, the loop that covers the columns of the other nodes of the row walking
right is the sequence of these covers, and the loop that uncovers walking left
is the sequence of the uncovers in reverse order and gives back the arena. -/
theorem nested_cover_uncover (nc : Nat) (data : List (List Char)) (hnc : 0 < nc)
    (hwf : WellFormed nc data) :
    ∃ h s, build nc data = some (h, s) ∧
      (∀ Xs : List Nat, Xs.Nodup → (∀ X, X ∈ Xs → InHeaderRing s h X) →
        ∀ fuel, coverFuel nc data ≤ fuel →
          (∀ pre X post, Xs = pre ++ X :: post →
            ∃ t, coverList fuel s pre = some t ∧ InHeaderRing t h X) ∧
          ∃ s1, coverList fuel s Xs = some s1 ∧ uncoverList fuel s1 Xs.reverse = some s) ∧
      (∀ X, InHeaderRing s h X → ∀ fuel, searchFuel nc data ≤ fuel →
        ∃ s1, cover fuel s X = some s1 ∧
          ∀ a, nc < a → a < s.next → s.colHeader a = X →
            ∃ T s2, Walk s1.right (s1.right a) T a ∧
              coverRowCols fuel s1 a (s1.right a) = some s2 ∧
              coverList fuel s1 (T.map s1.colHeader) = some s2 ∧
              uncoverRowCols fuel s2 a (s2.left a) = some s1 ∧
              uncoverList fuel s2 (T.map s1.colHeader).reverse = some s1) := by
  obtain ⟨s, hb, hB, hi⟩ := build_spec hnc hwf
  refine ⟨0, s, hb, ?_, ?_⟩
  · intro Xs hnd hX fuel hf
    have hf2 : 2 * (coords nc data).length < fuel := by
      simp only [coverFuel] at hf; omega
    obtain ⟨cs, rfl, hcs⟩ := headers_of_ring hi.hring hX
    have hnd2 : cs.Nodup := List.Nodup.of_map _ hnd
    constructor
    · intro pre X post hsplit
      obtain ⟨cs1, c, cs2, rfl, rfl, rfl, rfl⟩ :
          ∃ cs1 c cs2, cs = cs1 ++ c :: cs2 ∧ pre = cs1.map hdr ∧ X = hdr c ∧
            post = cs2.map hdr := by
        have := List.map_eq_append_iff.mp hsplit
        obtain ⟨l1, l2, e1, e2, e3⟩ := this
        obtain ⟨c, l3, e4, e5, e6⟩ := List.map_eq_cons_iff.mp e3
        exact ⟨l1, c, l3, by rw [e1, e4], e2.symm, e5.symm, e6.symm⟩
      have hnd3 := List.nodup_append.mp hnd2
      have hnd4 := List.nodup_cons.mp hnd3.2.1
      have hlt1 : ∀ d, d ∈ cs1 → d < nc := fun d hd => (hcs d (by simp [hd])).1
      have hi1 := coverAll_inv cs1 hi hlt1 hnd3.1 (fun d _ => by simp)
      refine ⟨_, coverList_spec cs1 hi hlt1 hnd3.1 (fun d _ => by simp) hf2,
        hdr_inHeaderRing hi1.hring (hcs c (by simp)).1 ?_⟩
      simp only [List.append_nil, List.mem_reverse]
      intro hm
      exact hnd3.2.2 hm (List.mem_cons_self _ _)
    · exact ⟨_, coverList_spec cs hi (fun d hd => (hcs d hd).1) hnd2 (fun d _ => by simp) hf2,
        uncoverList_spec cs hi (fun d hd => (hcs d hd).1) hnd2 (fun d _ => by simp) hf2⟩
  · intro X hX fuel hf
    obtain ⟨c, hc, hcK, rfl⟩ := inHeaderRing_hdr hi.hring hX
    have hf2 : 2 * (coords nc data).length < fuel := by
      simp only [searchFuel, loopFuel] at hf; omega
    have hi1 := cover_inv hi hc hcK
    refine ⟨_, cover_eq hi hc hcK hf2, ?_⟩
    intro a h1 h2 h3
    rw [hB.next_eq] at h2
    obtain ⟨r, c2, hcell⟩ := cells_of_addr h1 h2
    have e := hB.colHeader_cell _ hcell
    simp only at e
    rw [h3] at e
    obtain rfl : c = c2 := hdr_injective e
    have hlen := others_length hcell
    obtain ⟨o1, o2, o3, o4, -⟩ :=
      @others_cols nc _ s hi.static [] a r c hcell (rowLive_nil _ _)
    have hf3 : (others nc (coords nc data) a).length + 2 * (coords nc data).length < fuel := by
      simp only [searchFuel, loopFuel] at hf; omega
    have hcov := @coverRowCols_spec nc _ a (others nc (coords nc data) a) _ _ _ fuel hi1
      (walk_others hi1.static hcell).1 o1 o2 o4 hf3
    have hi2 := coverAll_inv ((others nc (coords nc data) a).map (colOf nc (coords nc data)))
      hi1 o3 o2 o4
    have hunc := @uncoverRowCols_spec nc _ a (others nc (coords nc data) a) _ _ _ fuel hi1
      (walk_others hi2.static hcell).2 o1 o2 o4 hf3
    have hmap : (others nc (coords nc data) a).map
          (coverAbs nc (coords nc data) [] s c).colHeader
        = ((others nc (coords nc data) a).map (colOf nc (coords nc data))).map hdr := by
      rw [List.map_map]
      apply List.map_congr_left
      intro n hn
      obtain ⟨r2, c3, hcell2⟩ := o1 n hn
      rw [hi1.static.colHeader_cell _ hcell2]
      simp only [Function.comp, colOf_cell hcell2]
    refine ⟨others nc (coords nc data) a, _, (walk_others hi1.static hcell).1, hcov, ?_,
      hunc, ?_⟩
    · rw [hmap]
      exact coverList_spec _ hi1 o3 o2 o4 hf2
    · rw [hmap]
      exact uncoverList_spec _ hi1 o3 o2 o4 hf2

/-- Witness of C19: scenario A. -/
theorem nested_cover_uncover_witness :
    0 < 3 ∧ WellFormed 3 scenarioA ∧
    ∃ h s, build 3 scenarioA = some (h, s) ∧
      (∀ Xs : List Nat, Xs.Nodup → (∀ X, X ∈ Xs → InHeaderRing s h X) →
        ∀ fuel, coverFuel 3 scenarioA ≤ fuel →
          (∀ pre X post, Xs = pre ++ X :: post →
            ∃ t, coverList fuel s pre = some t ∧ InHeaderRing t h X) ∧
          ∃ s1, coverList fuel s Xs = some s1 ∧ uncoverList fuel s1 Xs.reverse = some s) ∧
      (∀ X, InHeaderRing s h X → ∀ fuel, searchFuel 3 scenarioA ≤ fuel →
        ∃ s1, cover fuel s X = some s1 ∧
          ∀ a, 3 < a → a < s.next → s.colHeader a = X →
            ∃ T s2, Walk s1.right (s1.right a) T a ∧
              coverRowCols fuel s1 a (s1.right a) = some s2 ∧
              coverList fuel s1 (T.map s1.colHeader) = some s2 ∧
              uncoverRowCols fuel s2 a (s2.left a) = some s1 ∧
              uncoverList fuel s2 (T.map s1.colHeader).reverse = some s1) :=
  ⟨by decide, by decide, nested_cover_uncover 3 scenarioA (by decide) (by decide)⟩

/-- C20. Uncovering in the wrong order is not an identity: on the graph built
for 2 columns and the single row `1 1`, columns 0 and 1 are in the header
ring, and `cover(0)`, `cover(1)`, `uncover(0)`, `uncover(1)` return (given
enough fuel) with an arena that differs from the built one: the `nodeCount` of
column 0 was 1 and is now 2, although walking down from the header of column 0
still meets exactly one data node. -/
theorem wrong_order_uncover :
    ∃ h s, build 2 pairInput = some (h, s) ∧
      InHeaderRing s h (hdr 0) ∧ InHeaderRing s h (hdr 1) ∧
      ∀ fuel, coverFuel 2 pairInput ≤ fuel →
        ∃ s1 s2 s3 s4,
          cover fuel s (hdr 0) = some s1 ∧ InHeaderRing s1 h (hdr 1) ∧
          cover fuel s1 (hdr 1) = some s2 ∧
          uncover fuel s2 (hdr 0) = some s3 ∧ uncover fuel s3 (hdr 1) = some s4 ∧
          s4 ≠ s ∧ s.nodeCount (hdr 0) = 1 ∧ s4.nodeCount (hdr 0) = 2 ∧
          Walk s4.down (s4.down (hdr 0)) [3] (hdr 0) := by
  have key : ∃ h s s1 s2 s3 s4, build 2 pairInput = some (h, s) ∧
      cover 5 s (hdr 0) = some s1 ∧ cover 5 s1 (hdr 1) = some s2 ∧
      uncover 5 s2 (hdr 0) = some s3 ∧ uncover 5 s3 (hdr 1) = some s4 ∧
      InHeaderRing s h (hdr 0) ∧ InHeaderRing s h (hdr 1) ∧ InHeaderRing s1 h (hdr 1) ∧
      s.nodeCount (hdr 0) = 1 ∧ s4.nodeCount (hdr 0) = 2 ∧
      s4.down (hdr 0) = 3 ∧ s4.down 3 = hdr 0 :=
    ⟨_, _, _, _, _, _, rfl, rfl, rfl, rfl, rfl, ⟨by decide, 1, rfl⟩, ⟨by decide, 2, rfl⟩,
      ⟨by decide, 1, rfl⟩, by decide, by decide, by decide, by decide⟩
  obtain ⟨h, s, s1, s2, s3, s4, hb, c1, c2, u1, u2, r0, r1, r2, n0, n4, d1, d2⟩ := key
  refine ⟨h, s, hb, r0, r1, ?_⟩
  intro fuel hf
  have h5 : 5 ≤ fuel := hf
  refine ⟨s1, s2, s3, s4, cover_mono c1 h5, r2, cover_mono c2 h5, uncover_mono u1 h5,
    uncover_mono u2 h5, ?_, n0, n4, ?_⟩
  · intro e
    rw [e, n0] at n4
    exact absurd n4 (by decide)
  · rw [d1]
    exact ⟨rfl, by decide, by rw [d2]; rfl⟩
end DancingLinks
